import Mathlib

/-!
SSZ codec and Merkleization engine of the consensus-layer core.

A shallow embedding of `cl/cltypes` (Validator, AggregateAndProof, SyncAggregate codecs)
and `cl/merkle_tree` (the hash-tree-root engine), with the properties proved about them.

Conventions of the embedding:
* a Go `byte` is a `Nat` (the value of the byte), a `[]byte` is a `List Nat`;
* a Go `uint64` is a `Nat`, and `uint64` ranges are stated where they matter;
* a fixed-size array `[n]byte` is a `List Nat` whose length is recorded in the `WF` predicates;
* a method with a pointer receiver returns the receiver after the call together with the
  error (`none` is Go's `nil` error); a run-time panic is the fault `Fault.panic`.
-/

namespace Erigon

/-- A Go byte slice, seen as the list of its elements. -/
abbrev Bytes := List Nat

/-- The ways a call can fail: the error values returned by the code, and the run-time panic
(index or slice bounds out of range, nil dereference). -/
inductive Fault where
  /-- The error `ssz.ErrLowBufferSize`. -/
  | ErrLowBufferSize
  /-- The error `errors.New("zero leaves provided")`. -/
  | zeroLeaves
  /-- The error `fmt.Errorf("hash layer is a non power of 2: %d", n)`. -/
  | nonPowerOfTwo (n : Nat)
  /-- An error returned by `gohashtree.HashByteSlice`. -/
  | hashError
  /-- An error returned by the codec of an embedded child record. -/
  | childError
  /-- A run-time panic. -/
  | panic
  /-- The fuel of a loop of the embedding ran out (no Go counterpart). -/
  | outOfFuel
  /-- The error of `lru.New` on a size that is not positive. -/
  | lruError
  /-- An error returned by a collaborator of the state container, with a code. -/
  | collaboratorError (code : Nat)
  deriving DecidableEq, Repr

/-! ## Go slice primitives -/

/-- The builtin `copy(dst, src)`: the first `min (len dst) (len src)` elements of `dst` are
overwritten by those of `src`; the result is `dst` afterwards. -/
def goCopy (dst src : Bytes) : Bytes :=
  src.take dst.length ++ dst.drop src.length

/-- The slice expression `buf[k:]`, which panics (here `none`) when `k > len(buf)`. -/
def sliceFrom (buf : Bytes) (k : Nat) : Option Bytes :=
  if k ≤ buf.length then some (buf.drop k) else none

/-- The index expression `buf[k]`, which panics (here `none`) when `k ≥ len(buf)`. -/
def byteAt (buf : Bytes) (k : Nat) : Option Nat :=
  buf.get? k

/-- The little-endian bytes of `x`, `n` of them (the value is truncated to `n` bytes). -/
def leBytes : Nat → Nat → Bytes
  | 0, _ => []
  | n + 1, x => (x % 256) :: leBytes n (x / 256)

/-- The number whose little-endian bytes are the given list. -/
def leValue : Bytes → Nat
  | [] => 0
  | b :: bs => b + 256 * leValue bs

/-! ## The `ssz` helper package (not among the sources) -/

/-- Modelled from the spec: `ssz.Uint64SSZ` is absent from the sources; the wire format is
"little-endian fixed-width scalar encoding", so a `uint64` is its 8 little-endian bytes. -/
def Uint64SSZ (x : Nat) : Bytes := leBytes 8 x

/-- Modelled from the spec: `ssz.BoolSSZ` is absent from the sources; "booleans as a single
byte (0/1)". -/
def BoolSSZ (b : Bool) : Nat := if b then 1 else 0

/-- Modelled from the spec: `ssz.OffsetSSZ` is absent from the sources; a variable-length
field is "a 4-byte unsigned offset", little-endian like every scalar. -/
def OffsetSSZ (x : Nat) : Bytes := leBytes 4 x

/-- Modelled from the spec: `ssz.UnmarshalUint64SSZ` is absent from the sources; it reads the
little-endian `uint64` held by the first 8 bytes of its argument, and like every read of a Go
slice it panics (here `none`) when fewer than 8 bytes are there. -/
def UnmarshalUint64SSZ (buf : Bytes) : Option Nat :=
  if buf.length < 8 then none else some (leValue (buf.take 8))

/-! ## Sequencing of the statements of a method with a pointer receiver -/

/-- Run the next statement `f` on the receiver unless an earlier statement already failed. -/
def andThen {σ : Type} (r : σ × Option Fault) (f : σ → σ × Option Fault) : σ × Option Fault :=
  match r.2 with
  | none => f r.1
  | some e => (r.1, some e)

/-- An assignment `field = rhs` whose right-hand side may panic before anything is stored. -/
def assign {σ α : Type} (rhs : Option α) (set : σ → α → σ) (s : σ) : σ × Option Fault :=
  match rhs with
  | some x => (set s x, none)
  | none => (s, some Fault.panic)

/-! ## Records referenced by `Validator` (declared outside the sources) -/

/-- The fields of `Checkpoint` that the sources read. -/
structure Checkpoint where
  Epoch : Nat
  Root : Bytes
  deriving DecidableEq, Repr

/-- The fields of `AttestationData` that the sources read. -/
structure AttestationData where
  Slot : Nat
  BeaconBlockHash : Bytes
  Target : Checkpoint
  deriving DecidableEq, Repr

/-- The fields of `PendingAttestation` that the sources read. -/
structure PendingAttestation where
  AggregationBits : Bytes
  Data : AttestationData
  InclusionDelay : Nat
  deriving DecidableEq, Repr

/-! ## `cl/cltypes/validator_actual.go` -/

/-- The struct `Validator`. -/
structure Validator where
  PublicKey : Bytes
  WithdrawalCredentials : Bytes
  EffectiveBalance : Nat
  Slashed : Bool
  ActivationEligibilityEpoch : Nat
  ActivationEpoch : Nat
  ExitEpoch : Nat
  WithdrawableEpoch : Nat
  IsCurrentMatchingSourceAttester : Bool
  IsPreviousMatchingSourceAttester : Bool
  IsCurrentMatchingTargetAttester : Bool
  IsPreviousMatchingTargetAttester : Bool
  IsCurrentMatchingHeadAttester : Bool
  IsPreviousMatchingHeadAttester : Bool
  MinCurrentInclusionDelayAttestation : Option PendingAttestation
  MinPreviousInclusionDelayAttestation : Option PendingAttestation
  deriving DecidableEq, Repr

/-- What the Go types of the serialized fields guarantee: `[48]byte`, `common.Hash` (32 bytes)
and four `uint64`. -/
def Validator.WF (v : Validator) : Prop :=
  v.PublicKey.length = 48 ∧ v.WithdrawalCredentials.length = 32 ∧
  v.EffectiveBalance < 2 ^ 64 ∧ v.ActivationEligibilityEpoch < 2 ^ 64 ∧
  v.ActivationEpoch < 2 ^ 64 ∧ v.ExitEpoch < 2 ^ 64 ∧ v.WithdrawableEpoch < 2 ^ 64

instance (v : Validator) : Decidable v.WF := by
  unfold Validator.WF; infer_instance

/-- The zero value `Validator{}`, what `new(Validator)` points to. -/
def Validator.fresh : Validator where
  PublicKey := List.replicate 48 0
  WithdrawalCredentials := List.replicate 32 0
  EffectiveBalance := 0
  Slashed := false
  ActivationEligibilityEpoch := 0
  ActivationEpoch := 0
  ExitEpoch := 0
  WithdrawableEpoch := 0
  IsCurrentMatchingSourceAttester := false
  IsPreviousMatchingSourceAttester := false
  IsCurrentMatchingTargetAttester := false
  IsPreviousMatchingTargetAttester := false
  IsCurrentMatchingHeadAttester := false
  IsPreviousMatchingHeadAttester := false
  MinCurrentInclusionDelayAttestation := none
  MinPreviousInclusionDelayAttestation := none

/-- The method `Validator.EncodingSizeSSZ`. -/
def Validator.EncodingSizeSSZ (_v : Validator) : Nat := 121

/-- The method `Validator.EncodeSSZ`: eight appends to `dst`, and a `nil` error. -/
def Validator.EncodeSSZ (v : Validator) (dst : Bytes) : Except Fault Bytes :=
  let buf := dst
  let buf := buf ++ v.PublicKey
  let buf := buf ++ v.WithdrawalCredentials
  let buf := buf ++ Uint64SSZ v.EffectiveBalance
  let buf := buf ++ [BoolSSZ v.Slashed]
  let buf := buf ++ Uint64SSZ v.ActivationEligibilityEpoch
  let buf := buf ++ Uint64SSZ v.ActivationEpoch
  let buf := buf ++ Uint64SSZ v.ExitEpoch
  let buf := buf ++ Uint64SSZ v.WithdrawableEpoch
  .ok buf

/-- The method `Validator.DecodeSSZ`: the receiver after the call and the returned error. -/
def Validator.DecodeSSZ (v : Validator) (buf : Bytes) : Validator × Option Fault :=
  if buf.length < v.EncodingSizeSSZ then
    (v, some Fault.ErrLowBufferSize)
  else
    andThen (andThen (andThen (andThen (andThen (andThen (andThen
      ({ v with PublicKey := goCopy v.PublicKey buf }, none)
      (assign (sliceFrom buf 48)
        (fun v s => { v with WithdrawalCredentials := goCopy v.WithdrawalCredentials s })))
      (assign ((sliceFrom buf 80).bind UnmarshalUint64SSZ)
        (fun v x => { v with EffectiveBalance := x })))
      (assign (byteAt buf 88)
        (fun v b => { v with Slashed := decide (b = 1) })))
      (assign ((sliceFrom buf 89).bind UnmarshalUint64SSZ)
        (fun v x => { v with ActivationEligibilityEpoch := x })))
      (assign ((sliceFrom buf 97).bind UnmarshalUint64SSZ)
        (fun v x => { v with ActivationEpoch := x })))
      (assign ((sliceFrom buf 105).bind UnmarshalUint64SSZ)
        (fun v x => { v with ExitEpoch := x })))
      (assign ((sliceFrom buf 113).bind UnmarshalUint64SSZ)
        (fun v x => { v with WithdrawableEpoch := x }))

/-! ## `cl/cltypes/aggregate.go` -/

/-- The codec of the embedded `Attestation`, a record declared outside the sources: the zero
value `new(Attestation)` and its three SSZ methods. -/
structure AttestationCodec (Att : Type) where
  zero : Att
  EncodeSSZ : Att → Bytes → Except Fault Bytes
  DecodeSSZ : Att → Bytes → Att × Option Fault
  EncodingSizeSSZ : Att → Nat

/-- The struct `AggregateAndProof`; the pointer `Aggregate` is `none` when it is `nil`. -/
structure AggregateAndProof (Att : Type) where
  AggregatorIndex : Nat
  Aggregate : Option Att
  SelectionProof : Bytes

/-- The method `AggregateAndProof.EncodeSSZ`. A `nil` `Aggregate` is dereferenced by the
child's encoder, which is a panic. -/
def AggregateAndProof.EncodeSSZ {Att : Type} (C : AttestationCodec Att)
    (a : AggregateAndProof Att) (dst : Bytes) : Except Fault Bytes :=
  let buf := dst
  let buf := buf ++ Uint64SSZ a.AggregatorIndex
  let buf := buf ++ OffsetSSZ 108
  let buf := buf ++ a.SelectionProof
  match a.Aggregate with
  | none => .error Fault.panic
  | some x =>
    match C.EncodeSSZ x buf with
    | .error e => .error e
    | .ok buf => .ok buf

/-- The method `AggregateAndProof.DecodeSSZ`: the receiver after the call and the error. -/
def AggregateAndProof.DecodeSSZ {Att : Type} (C : AttestationCodec Att)
    (a : AggregateAndProof Att) (buf : Bytes) : AggregateAndProof Att × Option Fault :=
  andThen (andThen (andThen
    (assign (UnmarshalUint64SSZ buf) (fun a x => { a with AggregatorIndex := x }) a)
    (fun a => (if a.Aggregate.isNone then { a with Aggregate := some C.zero } else a, none)))
    (assign (sliceFrom buf 12)
      (fun a s => { a with SelectionProof := goCopy a.SelectionProof s })))
    (fun a =>
      match sliceFrom buf 108, a.Aggregate with
      | some s, some x => ({ a with Aggregate := some (C.DecodeSSZ x s).1 }, (C.DecodeSSZ x s).2)
      | _, _ => (a, some Fault.panic))

/-- The method `AggregateAndProof.EncodingSizeSSZ`; `none` is the panic on a `nil` child. -/
def AggregateAndProof.EncodingSizeSSZ {Att : Type} (C : AttestationCodec Att)
    (a : AggregateAndProof Att) : Option Nat :=
  a.Aggregate.map (fun x => 108 + C.EncodingSizeSSZ x)

/-- The struct `SyncAggregate`. -/
structure SyncAggregate where
  SyncCommiteeBits : Bytes
  SyncCommiteeSignature : Bytes
  deriving DecidableEq, Repr

/-- What the Go types `[64]byte` and `[96]byte` guarantee. -/
def SyncAggregate.WF (agg : SyncAggregate) : Prop :=
  agg.SyncCommiteeBits.length = 64 ∧ agg.SyncCommiteeSignature.length = 96

instance (agg : SyncAggregate) : Decidable agg.WF := by
  unfold SyncAggregate.WF; infer_instance

/-- The method `SyncAggregate.EncodeSSZ`. -/
def SyncAggregate.EncodeSSZ (agg : SyncAggregate) (buf : Bytes) : Except Fault Bytes :=
  .ok (buf ++ (agg.SyncCommiteeBits ++ agg.SyncCommiteeSignature))

/-- The method `SyncAggregate.DecodeSSZ`: two copies, the second from `buf[64:]`, and no
check of the length of `buf`. -/
def SyncAggregate.DecodeSSZ (agg : SyncAggregate) (buf : Bytes) :
    SyncAggregate × Option Fault :=
  andThen
    ({ agg with SyncCommiteeBits := goCopy agg.SyncCommiteeBits buf }, none)
    (assign (sliceFrom buf 64)
      (fun a s => { a with SyncCommiteeSignature := goCopy a.SyncCommiteeSignature s }))

/-- The method `SyncAggregate.EncodingSizeSSZ`. -/
def SyncAggregate.EncodingSizeSSZ (_agg : SyncAggregate) : Nat := 160

/-! ## `cl/merkle_tree/merkle_root.go` -/

/-- Modelled from the spec: `utils.IsPowerOf32` is absent from the sources; the engine
requires that "the current buffer length must be exactly 32 × a power of two". -/
def IsPowerOf32 (n : Nat) : Bool :=
  (List.range (n + 1)).any (fun k => n == 32 * 2 ^ k)

/-- Store the 32-byte digest `d` in chunk `k` of `digests` (a `copy` into
`digests[32*k : 32*k+32]`). -/
def writeDigest (digests : Bytes) (k : Nat) (d : Bytes) : Bytes :=
  digests.take (32 * k) ++ goCopy ((digests.drop (32 * k)).take 32) d ++
    digests.drop (32 * k + 32)

/-- The loop of `HashByteSlice` over the pairs `k, k+1, ..., k+n-1`, one after the other:
digest `k` is the pair hash `H` of the 64 bytes of chunks `2k` and `2k+1`. `chunks` is `none`
when the chunks are a prefix of the digest buffer itself, as they are from the second round of
`merkleizeTrieLeaves` on: every read then sees the writes made before it. -/
def hashPairs (H : Bytes → Bytes) (chunks : Option Bytes) : Nat → Nat → Bytes → Bytes
  | 0, _, digests => digests
  | n + 1, k, digests =>
    hashPairs H chunks n (k + 1)
      (writeDigest digests k (H (((chunks.getD digests).drop (64 * k)).take 64)))

/-- Modelled from the spec: `gohashtree.HashByteSlice` is an external library, the "hash
primitive (two 32-byte inputs → one 32-byte output) injected into the Merkleization engine",
here the parameter `H` on the 64 bytes of a pair. `m` is `len(chunks)`. The call refuses
chunks that are not whole pairs and a digest buffer that is not whole chunks or is too short,
and otherwise returns the digest buffer after the loop. -/
def HashByteSlice (H : Bytes → Bytes) (digests : Bytes) (chunks : Option Bytes) (m : Nat) :
    Except Fault Bytes :=
  if m = 0 then .ok digests
  else if m % 64 ≠ 0 then .error Fault.hashError
  else if digests.length % 32 ≠ 0 then .error Fault.hashError
  else if digests.length < m / 2 then .error Fault.hashError
  else .ok (hashPairs H chunks (m / 64) 0 digests)

/-- What the variable `leaves` of `merkleizeTrieLeaves` refers to: the caller's buffer (its
elements, and the elements of its backing array between length and capacity), or the prefix
`layer[:m]` of the scratch buffer. -/
inductive LeavesRef where
  | input (elems spare : Bytes)
  | scratch (m : Nat)

/-- The value `len(leaves)`. -/
def LeavesRef.len : LeavesRef → Nat
  | .input elems _ => elems.length
  | .scratch m => m

/-- The chunks argument of `hashPairs` for `leaves`. -/
def LeavesRef.chunks : LeavesRef → Option Bytes
  | .input elems _ => some elems
  | .scratch _ => none

/-- The slice expression `leaves[0:32]`: it panics when 32 exceeds the capacity, and may
reach past the length otherwise. -/
def reslice32 (layer : Bytes) : LeavesRef → Except Fault Bytes
  | .input elems spare =>
    if 32 ≤ elems.length + spare.length then .ok ((elems ++ spare).take 32)
    else .error Fault.panic
  | .scratch _ =>
    if 32 ≤ layer.length then .ok (layer.take 32) else .error Fault.panic

/-- The loop `for len(leaves) > 32 { ... }` of `merkleizeTrieLeaves` followed by its
`return leaves[0:32], nil`, on the scratch buffer `layer`, with one unit of fuel per round. -/
def merkleizeLoop (H : Bytes → Bytes) : Nat → Bytes → LeavesRef → Except Fault Bytes
  | 0, layer, leaves =>
    if leaves.len > 32 then .error Fault.outOfFuel else reslice32 layer leaves
  | fuel + 1, layer, leaves =>
    if leaves.len > 32 then
      if !IsPowerOf32 leaves.len then .error (Fault.nonPowerOfTwo leaves.len)
      else
        match HashByteSlice H layer leaves.chunks leaves.len with
        | .error e => .error e
        | .ok layer =>
          if leaves.len / 2 ≤ layer.length then
            merkleizeLoop H fuel layer (.scratch (leaves.len / 2))
          else .error Fault.panic
    else reslice32 layer leaves

/-- The function `merkleizeTrieLeaves`; the length of the input is fuel enough. -/
def merkleizeTrieLeaves (H : Bytes → Bytes) (leaves spare : Bytes) : Except Fault Bytes :=
  let layer := List.replicate (leaves.length / 2) 0
  merkleizeLoop H leaves.length layer (.input leaves spare)

/-- The function `MerkleRootFromLeaves`, on the elements of `leaves` and the elements of its
backing array between length and capacity. -/
def MerkleRootFromLeaves (H : Bytes → Bytes) (leaves spare : Bytes) : Except Fault Bytes :=
  if leaves.length = 0 then .error Fault.zeroLeaves
  else if leaves.length = 32 then reslice32 [] (.input leaves spare)
  else merkleizeTrieLeaves H leaves spare

/-! ## The tree definition of the Merkle root -/

/-- The binary Merkle root as the spec defines it, on `2^k` chunks: the root of one chunk is
the chunk, and the root of `2^(k+1)` chunks is the pair hash of the roots of the two halves. -/
def treeRoot (H : Bytes → Bytes) : Nat → Bytes → Bytes
  | 0, bs => bs
  | k + 1, bs =>
    H (treeRoot H k (bs.take (32 * 2 ^ k)) ++ treeRoot H k (bs.drop (32 * 2 ^ k)))

/-- One layer of pair hashes, as a list function: the digests of the first `n` pairs. -/
def hashLayer (H : Bytes → Bytes) : Nat → Bytes → Bytes
  | 0, _ => []
  | n + 1, bs => H (bs.take 64) ++ hashLayer H n (bs.drop 64)

/-- The layers applied one after the other to `2^k` chunks, until one chunk is left. -/
def layersRoot (H : Bytes → Bytes) : Nat → Bytes → Bytes
  | 0, bs => bs
  | k + 1, bs => layersRoot H k (hashLayer H (2 ^ k) bs)

/-! ## `cl/merkle_tree/primitives.go` and `chunk.go` -/

/-- Modelled from the spec: `ArraysRoot` is absent from the sources; a leaf set is
"zero-pad[ded] ... to the next power of two, and reduce[d] via" the engine, so the input is
filled with zero bytes up to `limit` leaves of 32 bytes and handed to `MerkleRootFromLeaves`. -/
def ArraysRoot (H : Bytes → Bytes) (input : Bytes) (limit : Nat) : Except Fault Bytes :=
  MerkleRootFromLeaves H (input ++ List.replicate (32 * limit - input.length) 0) []

/-- The function `Uint64Root`: `PutUint64` stores the 8 little-endian bytes of `val` at the
front of a zeroed 32-byte array. -/
def Uint64Root (val : Nat) : Bytes :=
  goCopy (List.replicate 32 0) (leBytes 8 val)

/-- The function `BoolRoot`: byte 0 of a zeroed 32-byte array is set to 1 when `b` holds. -/
def BoolRoot (b : Bool) : Bytes :=
  if b then goCopy (List.replicate 32 0) [1] else List.replicate 32 0

/-- The function `SignatureRoot`. -/
def SignatureRoot (H : Bytes → Bytes) (signature : Bytes) : Except Fault Bytes :=
  ArraysRoot H signature 4

/-- The slice expression `key[:k]` on an array, which does not compile, here a panic, when
`k` exceeds the length of the array. -/
def sliceTo (buf : Bytes) (k : Nat) : Option Bytes :=
  if k ≤ buf.length then some (buf.take k) else none

/-- The function `PublicKeyRoot`: `lastByte` receives `key[32:]` and is not used again; the
leaves handed to `ArraysRoot` are `key[:33]` followed by 31 fresh zero bytes. -/
def PublicKeyRoot (H : Bytes → Bytes) (key : Bytes) : Except Fault Bytes :=
  match sliceFrom key 32, sliceTo key 33 with
  | some tail, some head =>
    let _lastByte := goCopy (List.replicate 32 0) tail
    ArraysRoot H (head ++ List.replicate 31 0) 2
  | _, _ => .error Fault.panic

/-- The statement `binary.LittleEndian.PutUint64(chunks[off:off+8], v)`: the slice expression
panics when `off + 8` exceeds the buffer. -/
def putUint64At (chunks : Bytes) (off v : Nat) : Except Fault Bytes :=
  if off + 8 ≤ chunks.length then
    .ok (chunks.take off ++ leBytes 8 v ++ chunks.drop (off + 8))
  else .error Fault.panic

/-- The loop of `PackUint64IntoChunks` from index `i` on, over the values not yet stored. -/
def packLoop : List Nat → Nat → Bytes → Except Fault Bytes
  | [], _, chunks => .ok chunks
  | v :: vs, i, chunks =>
    match putUint64At chunks (i * 8) v with
    | .error e => .error e
    | .ok chunks => packLoop vs (i + 1) chunks

/-- The function `PackUint64IntoChunks`: a zeroed buffer of `len(vals) * 8` bytes, filled by
the loop. -/
def PackUint64IntoChunks (vals : List Nat) : Except Fault Bytes :=
  packLoop vals 0 (List.replicate (vals.length * 8) 0)

/-- The loop `for v > 1 { v >>= 1; depth++ }` of `getDepth`, with the `uint8` counter
wrapping at 256; `none` when the fuel runs out. -/
def getDepthLoop : Nat → Nat → Nat → Option Nat
  | 0, v, depth => if v > 1 then none else some depth
  | fuel + 1, v, depth =>
    if v > 1 then getDepthLoop fuel (v >>> 1) ((depth + 1) % 256) else some depth

/-- The function `getDepth`; `v` itself is fuel enough. -/
def getDepth (v : Nat) : Option Nat :=
  if v ≤ 1 then some 0 else getDepthLoop v v 0

/-! ## More of `cl/cltypes` -/

/-- The method `Validator.HashSSZ`: eight leaves in declaration order, reduced by
`ArraysRoot`. -/
def Validator.HashSSZ (H : Bytes → Bytes) (v : Validator) : Except Fault Bytes :=
  match PublicKeyRoot H v.PublicKey with
  | .error e => .error e
  | .ok leaf0 =>
    ArraysRoot H (leaf0 ++ v.WithdrawalCredentials ++ Uint64Root v.EffectiveBalance ++
      BoolRoot v.Slashed ++ Uint64Root v.ActivationEligibilityEpoch ++
      Uint64Root v.ActivationEpoch ++ Uint64Root v.ExitEpoch ++
      Uint64Root v.WithdrawableEpoch) 8

/-- The method `Validator.DutiesAttested`, with `uint64` counters. -/
def Validator.DutiesAttested (v : Validator) : Nat × Nat :=
  if v.Slashed then (0, 3)
  else
    let attested := 0
    let attested := if v.IsPreviousMatchingSourceAttester then (attested + 1) % 2 ^ 64
      else attested
    let attested := if v.IsPreviousMatchingTargetAttester then (attested + 1) % 2 ^ 64
      else attested
    let attested := if v.IsPreviousMatchingHeadAttester then (attested + 1) % 2 ^ 64
      else attested
    let missed := (3 + 2 ^ 64 - attested) % 2 ^ 64
    (attested, missed)

/-- The method `Validator.Active`. -/
def Validator.Active (v : Validator) (epoch : Nat) : Bool :=
  decide (v.ActivationEpoch ≤ epoch) && decide (epoch < v.ExitEpoch)

/-- The inner loop `for bit := 1; bit <= 128; bit *= 2` of `SyncAggregate.Sum` on the byte
`b`, from the current `bit` on. -/
def sumBitLoop (b : Nat) : Nat → Nat → Nat → Nat
  | 0, _, ret => ret
  | fuel + 1, bit, ret =>
    if bit ≤ 128 then
      sumBitLoop b fuel (bit * 2) (if b &&& (bit % 256) > 0 then ret + 1 else ret)
    else ret

/-- The method `SyncAggregate.Sum`: the outer loop over the bytes of the bit field; nine
units of fuel cover the eight rounds of the inner loop and its exit test. -/
def SyncAggregate.Sum (agg : SyncAggregate) : Nat :=
  agg.SyncCommiteeBits.foldl (fun ret b => sumBitLoop b 9 1 ret) 0

/-- The population count of a byte: how many of its eight bits are set. -/
def popCount8 (b : Nat) : Nat :=
  ((List.range 8).filter (fun i => b.testBit i)).length

/-! ## `cmd/erigon-cl/core/state` -/

/-- The fields of `clparams.BeaconChainConfig` that the sources read. -/
structure BeaconChainConfig where
  SlotsPerEpoch : Nat
  EffectiveBalanceIncrement : Nat
  DomainBeaconProposer : Bytes := [0, 0, 0, 0]
  deriving DecidableEq, Repr

/-- Modelled from the spec: the `clparams.StateVersion` constants are absent from the sources;
the state is "keyed by a monotonically increasing fork version", Phase0 being the genesis
fork, followed by Altair, Bellatrix and Capella. -/
def Phase0Version : Nat := 0

/-- Modelled from the spec: see `Phase0Version`. -/
def AltairVersion : Nat := 1

/-- Modelled from the spec: see `Phase0Version`. -/
def BellatrixVersion : Nat := 2

/-- Modelled from the spec: see `Phase0Version`. -/
def CapellaVersion : Nat := 3

/-- The constant `blockRootsLength`. -/
def blockRootsLength : Nat := 8192

/-- The constant `stateRootsLength`. -/
def stateRootsLength : Nat := 8192

/-- The constant `randoMixesLength`. -/
def randoMixesLength : Nat := 65536

/-- The constant `slashingsLength`. -/
def slashingsLength : Nat := 8192

/-- The entry of key `k` in a Go map, kept as the list of its entries. -/
def mapGet {K V : Type} [DecidableEq K] : List (K × V) → K → Option V
  | [], _ => none
  | (k', v) :: rest, k => if k' = k then some v else mapGet rest k

/-- The builtin `delete(m, k)`. -/
def mapDelete {K V : Type} [DecidableEq K] (m : List (K × V)) (k : K) : List (K × V) :=
  m.filter (fun e => decide (e.1 ≠ k))

/-- The assignment `m[k] = v`. -/
def mapSet {K V : Type} [DecidableEq K] (m : List (K × V)) (k : K) (v : V) : List (K × V) :=
  (k, v) :: mapDelete m k

/-- Modelled from the spec: the LRU cache library is external; the caches are "bounded by a
small fixed capacity, least-recently-used eviction". The entries are kept most recent
first. -/
structure LRU (K V : Type) where
  size : Nat
  entries : List (K × V)
  deriving DecidableEq, Repr

/-- Modelled from the spec: `lru.New(size)`, which refuses a size that is not positive. -/
def lruNew {K V : Type} (size : Nat) : Except Fault (LRU K V) :=
  if size = 0 then .error Fault.lruError else .ok ⟨size, []⟩

/-- Modelled from the spec: `Keys()`, the keys from the oldest to the newest. -/
def LRU.Keys {K V : Type} (c : LRU K V) : List K :=
  (c.entries.map (fun e => e.1)).reverse

/-- Modelled from the spec: `Get(key)`; the refresh of the entry's recency in the cache that
is read is not tracked. -/
def LRU.Get {K V : Type} [DecidableEq K] (c : LRU K V) (k : K) : Option V :=
  mapGet c.entries k

/-- Modelled from the spec: `Add(key, value)`, which evicts the least recently used entries
beyond the capacity. -/
def LRU.Add {K V : Type} [DecidableEq K] (c : LRU K V) (k : K) (v : V) : LRU K V :=
  ⟨c.size, (mapSet c.entries k v).take c.size⟩

/-- The struct `BeaconState`. A pointer is `none` when it is `nil`; the records declared
outside the sources (fork, block header, eth1 data, sync committee, execution header) are
carried as the byte strings of their content, a historical summary as the pair of its two
roots, a Go map as the list of its entries, and the elements of `validators` as the
validators they point to. -/
structure BeaconState where
  slot : Nat
  validators : List Validator
  totalActiveBalanceCache : Option Nat
  totalActiveBalanceRootCache : Nat
  beaconConfig : BeaconChainConfig
  genesisTime : Nat := 0
  genesisValidatorsRoot : Bytes := []
  fork : Option Bytes := none
  latestBlockHeader : Option Bytes := none
  blockRoots : List Bytes := []
  stateRoots : List Bytes := []
  historicalRoots : List Bytes := []
  eth1Data : Option Bytes := none
  eth1DataVotes : List (Option Bytes) := []
  eth1DepositIndex : Nat := 0
  balances : List Nat := []
  randaoMixes : List Bytes := []
  slashings : List Nat := []
  previousEpochParticipation : Bytes := []
  currentEpochParticipation : Bytes := []
  justificationBits : Bytes := []
  previousJustifiedCheckpoint : Option Checkpoint := none
  currentJustifiedCheckpoint : Option Checkpoint := none
  finalizedCheckpoint : Option Checkpoint := none
  inactivityScores : List Nat := []
  currentSyncCommittee : Option Bytes := none
  nextSyncCommittee : Option Bytes := none
  latestExecutionPayloadHeader : Option Bytes := none
  nextWithdrawalIndex : Nat := 0
  nextWithdrawalValidatorIndex : Nat := 0
  historicalSummaries : List (Bytes × Bytes) := []
  previousEpochAttestations : List PendingAttestation := []
  currentEpochAttestations : List PendingAttestation := []
  version : Nat := 0
  leaves : List Bytes := []
  touchedLeaves : Option (List (Nat × Bool)) := none
  publicKeyIndicies : Option (List (Bytes × Nat)) := none
  activeValidatorsCache : Option (LRU Nat (List Nat)) := none
  committeeCache : Option (LRU Bytes (List Nat)) := none
  shuffledSetsCache : Option (LRU Bytes (List Nat)) := none
  proposerIndex : Option Nat := none
  previousStateRoot : Bytes := []
  deriving DecidableEq, Repr

/-- Modelled from the spec: `utils.Max64` is absent from the sources; the total is "floored at
the ... minimum", the larger of the two values. -/
def Max64 (a b : Nat) : Nat := if a < b then b else a

/-- Modelled from the spec: `utils.IntegerSquareRoot` is absent from the sources; "a co-cached
integer square root", the largest `r` with `r * r ≤ n`. -/
def IntegerSquareRoot (n : Nat) : Nat := Nat.sqrt n

/-- Modelled from the spec: `ValidatorEffectiveBalance` is absent from the sources; it returns
the effective balance of the validator at `index`, and "out-of-range access is a fatal
programmer error, not a recoverable one, mirroring array-bounds semantics". -/
def BeaconState.ValidatorEffectiveBalance (b : BeaconState) (index : Int) : Except Fault Nat :=
  if index < 0 then .error Fault.panic
  else
    match b.validators.get? index.toNat with
    | some v => .ok v.EffectiveBalance
    | none => .error Fault.panic

/-- The conversion `int(x)` of a `uint64` to the 64-bit `int`. -/
def uint64ToInt (x : Nat) : Int :=
  if x % 2 ^ 64 < 2 ^ 63 then (x % 2 ^ 64 : Nat) else (x % 2 ^ 64 : Nat) - 2 ^ 64

/-- The method `GetEpochAtSlot`; the division panics (`none`) on a zero divisor. -/
def BeaconState.GetEpochAtSlot (b : BeaconState) (slot : Nat) : Option Nat :=
  if b.beaconConfig.SlotsPerEpoch = 0 then none
  else some (slot / b.beaconConfig.SlotsPerEpoch)

/-- The method `Epoch`. -/
def BeaconState.Epoch (b : BeaconState) : Option Nat :=
  b.GetEpochAtSlot b.slot

/-- The loop of `GetTotalBalance` over the indices not yet visited, `total` so far. -/
def totalBalanceLoop (b : BeaconState) : List Nat → Nat → Except Fault Nat
  | [], total => .ok total
  | validatorIndex :: rest, total =>
    match b.ValidatorEffectiveBalance (uint64ToInt validatorIndex) with
    | .error e => .error e
    | .ok delta => totalBalanceLoop b rest ((total + delta) % 2 ^ 64)

/-- The method `GetTotalBalance`. -/
def BeaconState.GetTotalBalance (b : BeaconState) (validatorSet : List Nat) :
    Except Fault Nat :=
  match totalBalanceLoop b validatorSet 0 with
  | .error e => .error e
  | .ok total =>
    if total < b.beaconConfig.EffectiveBalanceIncrement then
      .ok b.beaconConfig.EffectiveBalanceIncrement
    else .ok total

/-- The method `_refreshActiveBalances`: the state after the call, and the panic of the
division in `Epoch` if there is one. -/
def BeaconState._refreshActiveBalances (b : BeaconState) : BeaconState × Option Fault :=
  match b.Epoch with
  | none => (b, some Fault.panic)
  | some epoch =>
    let total := b.validators.foldl
      (fun total validator =>
        if validator.Active epoch then (total + validator.EffectiveBalance) % 2 ^ 64
        else total) 0
    let total := Max64 b.beaconConfig.EffectiveBalanceIncrement total
    ({ b with totalActiveBalanceCache := some total
              totalActiveBalanceRootCache := IntegerSquareRoot total }, none)

/-! ## `cmd/erigon-cl/core/state/state.go`: construction -/

/-- The collaborators that the container calls and that are declared outside the sources:
the ring-buffer lookup `GetBlockRootAtSlot`, the attesting indices of an attestation, the
seed, the hash `sha256`, the active validator indices and the proposer selection. -/
structure Env where
  GetBlockRootAtSlot : BeaconState → Nat → Except Fault Bytes
  GetAttestingIndicies : BeaconState → AttestationData → Bytes → Bool → Except Fault (List Nat)
  GetSeed : BeaconChainConfig → List Bytes → Nat → Bytes → Bytes
  sha256 : Bytes → Bytes
  GetActiveValidatorsIndices : BeaconState → Nat → List Nat
  ComputeProposerIndex : BeaconState → List Nat → Bytes → Except Fault Nat

/-- The method `GetBlockRoot`, with the `uint64` product. -/
def BeaconState.GetBlockRoot (E : Env) (b : BeaconState) (epoch : Nat) : Except Fault Bytes :=
  E.GetBlockRootAtSlot b ((epoch * b.beaconConfig.SlotsPerEpoch) % 2 ^ 64)

/-- The method `PreviousEpoch`. -/
def BeaconState.PreviousEpoch (b : BeaconState) : Option Nat :=
  match b.Epoch with
  | none => none
  | some epoch => if epoch = 0 then some epoch else some (epoch - 1)

/-- The method `_updateProposerIndex`. -/
def BeaconState._updateProposerIndex (E : Env) (b : BeaconState) : BeaconState × Option Fault :=
  match b.Epoch with
  | none => (b, some Fault.panic)
  | some epoch =>
    let input := E.GetSeed b.beaconConfig b.randaoMixes epoch
      b.beaconConfig.DomainBeaconProposer
    let slotByteArray := goCopy (List.replicate 8 0) (leBytes 8 b.slot)
    let inputWithSlot := input ++ slotByteArray
    let seed := E.sha256 inputWithSlot
    let indices := E.GetActiveValidatorsIndices b epoch
    let seedArray := goCopy (List.replicate 32 0) seed
    match E.ComputeProposerIndex b indices seedArray with
    | .ok index => ({ b with proposerIndex := some index }, none)
    | .error e => ({ b with proposerIndex := some 0 }, some e)

/-- The body of the loop over `indicies` of the previous-epoch part of
`_initializeValidatorsPhase0`, on the validator at one index. -/
def markPreviousOne (attestation : PendingAttestation) (previousEpochRoot slotRoot : Bytes)
    (v : Validator) : Validator :=
  let v :=
    if v.MinPreviousInclusionDelayAttestation.isNone ||
        decide ((v.MinPreviousInclusionDelayAttestation.map
          (fun m => m.InclusionDelay)).getD 0 > attestation.InclusionDelay) then
      { v with MinPreviousInclusionDelayAttestation := some attestation }
    else v
  let v := { v with IsPreviousMatchingSourceAttester := true }
  if attestation.Data.Target.Root ≠ previousEpochRoot then v
  else
    let v := { v with IsPreviousMatchingTargetAttester := true }
    if attestation.Data.BeaconBlockHash = slotRoot then
      { v with IsPreviousMatchingHeadAttester := true }
    else v

/-- The loop over `indicies` of the previous-epoch part: `b.validators[index]` panics on an
index out of range. -/
def markPrevious (attestation : PendingAttestation) (previousEpochRoot slotRoot : Bytes) :
    List Nat → List Validator → List Validator × Option Fault
  | [], vals => (vals, none)
  | index :: rest, vals =>
    match vals.get? index with
    | none => (vals, some Fault.panic)
    | some v =>
      markPrevious attestation previousEpochRoot slotRoot rest
        (vals.set index (markPreviousOne attestation previousEpochRoot slotRoot v))

/-- The loop over `b.previousEpochAttestations`, from the attestations not yet visited. -/
def previousLoop (E : Env) (previousEpochRoot : Bytes) :
    List PendingAttestation → BeaconState → BeaconState × Option Fault
  | [], b => (b, none)
  | attestation :: rest, b =>
    match E.GetBlockRootAtSlot b attestation.Data.Slot with
    | .error e => (b, some e)
    | .ok slotRoot =>
      match E.GetAttestingIndicies b attestation.Data attestation.AggregationBits false with
      | .error e => (b, some e)
      | .ok indicies =>
        match markPrevious attestation previousEpochRoot slotRoot indicies b.validators with
        | (vals, some e) => ({ b with validators := vals }, some e)
        | (vals, none) => previousLoop E previousEpochRoot rest { b with validators := vals }

/-- The body of the loop over `indicies` of the current-epoch part, on one validator. -/
def markCurrentOne (attestation : PendingAttestation) (currentEpochRoot slotRoot : Bytes)
    (v : Validator) : Validator :=
  let v :=
    if v.MinCurrentInclusionDelayAttestation.isNone ||
        decide ((v.MinCurrentInclusionDelayAttestation.map
          (fun m => m.InclusionDelay)).getD 0 > attestation.InclusionDelay) then
      { v with MinCurrentInclusionDelayAttestation := some attestation }
    else v
  let v := { v with IsCurrentMatchingSourceAttester := true }
  let v :=
    if attestation.Data.Target.Root = currentEpochRoot then
      { v with IsCurrentMatchingTargetAttester := true }
    else v
  if attestation.Data.BeaconBlockHash = slotRoot then
    { v with IsCurrentMatchingHeadAttester := true }
  else v

/-- The loop over `indicies` of the current-epoch part. -/
def markCurrent (attestation : PendingAttestation) (currentEpochRoot slotRoot : Bytes) :
    List Nat → List Validator → List Validator × Option Fault
  | [], vals => (vals, none)
  | index :: rest, vals =>
    match vals.get? index with
    | none => (vals, some Fault.panic)
    | some v =>
      markCurrent attestation currentEpochRoot slotRoot rest
        (vals.set index (markCurrentOne attestation currentEpochRoot slotRoot v))

/-- The loop over `b.currentEpochAttestations`, from the attestations not yet visited. -/
def currentLoop (E : Env) (currentEpochRoot : Bytes) :
    List PendingAttestation → BeaconState → BeaconState × Option Fault
  | [], b => (b, none)
  | attestation :: rest, b =>
    match E.GetBlockRootAtSlot b attestation.Data.Slot with
    | .error e => (b, some e)
    | .ok slotRoot =>
      match E.GetAttestingIndicies b attestation.Data attestation.AggregationBits false with
      | .error e => (b, some e)
      | .ok indicies =>
        match markCurrent attestation currentEpochRoot slotRoot indicies b.validators with
        | (vals, some e) => ({ b with validators := vals }, some e)
        | (vals, none) => currentLoop E currentEpochRoot rest { b with validators := vals }

/-- The current-epoch part of `_initializeValidatorsPhase0`, from the test of
`len(b.currentEpochAttestations)` on. -/
def BeaconState.initializeCurrent (E : Env) (b : BeaconState) : BeaconState × Option Fault :=
  if b.currentEpochAttestations.length = 0 then (b, none)
  else
    match b.Epoch with
    | none => (b, some Fault.panic)
    | some epoch =>
      match b.GetBlockRoot E epoch with
      | .error e => (b, some e)
      | .ok currentEpochRoot => currentLoop E currentEpochRoot b.currentEpochAttestations b

/-- The method `_initializeValidatorsPhase0`. -/
def BeaconState._initializeValidatorsPhase0 (E : Env) (b : BeaconState) :
    BeaconState × Option Fault :=
  if b.slot = 0 then (b, none)
  else
    match b.PreviousEpoch with
    | none => (b, some Fault.panic)
    | some previousEpoch =>
      match b.GetBlockRoot E previousEpoch with
      | .error e => (b, some e)
      | .ok previousEpochRoot =>
        andThen (previousLoop E previousEpochRoot b.previousEpochAttestations b)
          (fun b => b.initializeCurrent E)

/-- The update of the recorded attestation in the loop bodies of
`_initializeValidatorsPhase0`: the attestation replaces the recorded one when none is
recorded or when the recorded one has a larger inclusion delay. -/
def recordMin (cur : Option PendingAttestation) (attestation : PendingAttestation) :
    Option PendingAttestation :=
  if cur.isNone ||
      decide ((cur.map (fun m => m.InclusionDelay)).getD 0 > attestation.InclusionDelay) then
    some attestation
  else cur

/-- Whether `index` is one of `b.GetAttestingIndicies(attestation.Data,
attestation.AggregationBits, false)`, the indices that the loop body visits; a failed lookup
has no index. -/
def attestedBy (E : Env) (b : BeaconState) (attestation : PendingAttestation) (index : Nat) :
    Bool :=
  match E.GetAttestingIndicies b attestation.Data attestation.AggregationBits false with
  | .ok indicies => indicies.contains index
  | .error _ => false

/-- The method `initCaches`. -/
def BeaconState.initCaches (b : BeaconState) : BeaconState × Option Fault :=
  match lruNew 5 with
  | .error e => ({ b with activeValidatorsCache := none }, some e)
  | .ok active =>
    let b := { b with activeValidatorsCache := some active }
    match lruNew 5 with
    | .error e => ({ b with shuffledSetsCache := none }, some e)
    | .ok shuffled =>
      let b := { b with shuffledSetsCache := some shuffled }
      match lruNew 256 with
      | .error e => ({ b with committeeCache := none }, some e)
      | .ok committee => ({ b with committeeCache := some committee }, none)

/-- The loop `for i, validator := range b.validators` of `initBeaconState` that fills the
public-key index. -/
def indexPublicKeys : List Validator → Nat → List (Bytes × Nat) → List (Bytes × Nat)
  | [], _, m => m
  | validator :: rest, i, m => indexPublicKeys rest (i + 1) (mapSet m validator.PublicKey i)

/-- The method `initBeaconState`; the result of `initCaches` is dropped, as in the source. -/
def BeaconState.initBeaconState (E : Env) (b : BeaconState) : BeaconState × Option Fault :=
  let b := if b.touchedLeaves.isNone then { b with touchedLeaves := some [] } else b
  let b := { b with publicKeyIndicies := some [] }
  andThen (andThen b._refreshActiveBalances
    (fun b =>
      let b := { b with publicKeyIndicies := some (indexPublicKeys b.validators 0 []) }
      let b := b.initCaches.1
      b._updateProposerIndex E))
    (fun b =>
      if b.version ≥ Phase0Version then b._initializeValidatorsPhase0 E else (b, none))

/-- The zero value `BeaconState{beaconConfig: cfg}`: zeroed arrays, empty slices, nil
pointers and maps. -/
def BeaconState.zero (cfg : BeaconChainConfig) : BeaconState where
  slot := 0
  validators := []
  totalActiveBalanceCache := none
  totalActiveBalanceRootCache := 0
  beaconConfig := cfg
  genesisValidatorsRoot := List.replicate 32 0
  blockRoots := List.replicate blockRootsLength (List.replicate 32 0)
  stateRoots := List.replicate stateRootsLength (List.replicate 32 0)
  randaoMixes := List.replicate randoMixesLength (List.replicate 32 0)
  slashings := List.replicate slashingsLength 0
  leaves := List.replicate 32 (List.replicate 32 0)
  previousStateRoot := List.replicate 32 0

/-- The function `New`: the error that `initBeaconState` returns is dropped, as in the
source, and a run-time panic of `initBeaconState` is a panic of `New`. -/
def BeaconState.New (E : Env) (cfg : BeaconChainConfig) : BeaconState × Option Fault :=
  match (BeaconState.zero cfg).initBeaconState E with
  | (state, some Fault.panic) => (state, some Fault.panic)
  | (state, _) => (state, none)

/-- What the array types of the struct guarantee. -/
def BeaconState.WF (b : BeaconState) : Prop :=
  b.blockRoots.length = blockRootsLength ∧ b.stateRoots.length = stateRootsLength ∧
  b.randaoMixes.length = randoMixesLength ∧ b.slashings.length = slashingsLength ∧
  b.leaves.length = 32

/-! ## `cmd/erigon-cl/core/state/state.go`: copy -/

/-- The function `exs`; `zero` is the zero value of the element type, which fills the slice
that `make` returns. -/
def exs {α : Type} (x : List α) (sz : Nat) (zero : α) : List α :=
  if x.length > sz then x.take sz
  else if x.length < sz then List.replicate sz zero
  else x

/-- The builtin `copy(dst, src)` on slices of any element type. -/
def copySlice {α : Type} (dst src : List α) : List α :=
  src.take dst.length ++ dst.drop src.length

/-- Modelled from the spec: the `Copy` and `CopyInto` methods of the records are absent from
the sources; a copy "deep-clones every owned field", so it has the value of its source. -/
def deepCopy {α : Type} (x : α) : α := x

/-- A loop `for i := range src { dst[i] = f(src[i]) }`, from index `i` on; the assignment
panics (`none`) on an index out of the range of `dst`. -/
def assignEach {α β : Type} (f : α → β) : List α → Nat → List β → Option (List β)
  | [], _, dst => some dst
  | x :: rest, i, dst =>
    if i < dst.length then assignEach f rest (i + 1) (dst.set i (f x)) else none

/-- The loop `for k := range m { delete(m, k) }`. -/
def mapClear {K V : Type} [DecidableEq K] (m : List (K × V)) : List (K × V) :=
  m.foldl (fun acc e => mapDelete acc e.1) m

/-- The loop `for k, v := range src { dst[k] = v }`. -/
def mapCopyAll {K V : Type} [DecidableEq K] (dst src : List (K × V)) : List (K × V) :=
  src.foldl (fun acc e => mapSet acc e.1 e.2) dst

/-- The loop that adds every entry of the cache `src` to the cache `dst`. -/
def lruCopyAll {K V : Type} [DecidableEq K] (dst src : LRU K V) : LRU K V :=
  src.Keys.foldl
    (fun acc key =>
      match src.Get key with
      | some val => acc.Add key val
      | none => acc) dst

/-- Modelled from the spec: the method `Validator.CopyInto` is absent from the sources; a
copy "deep-clones every owned field", so the method stores the fields of its receiver through
the pointer `target`. A `nil` pointer (`none`) is a nil dereference, a panic; otherwise the
result is the validator behind the pointer after the call. -/
def Validator.CopyInto (v : Validator) (target : Option Validator) : Except Fault Validator :=
  match target with
  | none => .error Fault.panic
  | some _ => .ok (deepCopy v)

/-- The loop `for i := range b.validators { b.validators[i].CopyInto(target.validators[i]) }`
from index `i` on, over the slice of pointers of the target, in which `none` is a `nil`
pointer. The call stores through the pointer and never into the slice, so a `nil` entry is
never filled. The result is `none` on a panic, of the index or of `CopyInto`. -/
def copyValidators :
    List Validator → Nat → List (Option Validator) → Option (List (Option Validator))
  | [], _, dst => some dst
  | v :: rest, i, dst =>
    match dst.get? i with
    | none => none
    | some pointer =>
      match v.CopyInto pointer with
      | .error _ => none
      | .ok w => copyValidators rest (i + 1) (dst.set i (some w))

/-- The validators behind a slice of pointers, when none of them is `nil`. -/
def derefAll : List (Option Validator) → Option (List Validator)
  | [] => some []
  | none :: _ => none
  | some v :: rest => (derefAll rest).map (fun vals => v :: vals)

/-- The statements of `CopyInto` before the test of the version, with the assignments to the
fields of the target gathered in one update. The validators of a state are pointers that are
not `nil`; `exs` keeps those of the target when the target has at least as many validators as
`b`, and otherwise returns `make([]*Validator, sz)`, whose entries are all `nil`, so that the
loop over the validators panics at its first round. On a panic the model gives the target as
it was before the call: the slice of `nil` pointers that the target holds at that moment is
no value of the type of the state. -/
def BeaconState.copyCommon (b target : BeaconState) : BeaconState × Option Fault :=
  match assignEach deepCopy b.eth1DataVotes 0
      (exs target.eth1DataVotes b.eth1DataVotes.length none) with
  | none => (target, some Fault.panic)
  | some votes =>
    match (copyValidators b.validators 0
        (exs (target.validators.map some) b.validators.length none)).bind derefAll with
    | none => (target, some Fault.panic)
    | some validators =>
      ({ target with
          genesisTime := b.genesisTime
          genesisValidatorsRoot := b.genesisValidatorsRoot
          slot := b.slot
          fork := deepCopy b.fork
          latestBlockHeader := deepCopy b.latestBlockHeader
          blockRoots := copySlice target.blockRoots b.blockRoots
          stateRoots := copySlice target.stateRoots b.stateRoots
          historicalRoots :=
            copySlice (exs target.historicalRoots b.historicalRoots.length []) b.historicalRoots
          eth1Data := deepCopy b.eth1Data
          eth1DataVotes := votes
          eth1DepositIndex := b.eth1DepositIndex
          validators := validators
          balances := copySlice (exs target.balances b.balances.length 0) b.balances
          randaoMixes := copySlice target.randaoMixes b.randaoMixes
          slashings := copySlice target.slashings b.slashings
          previousEpochParticipation := deepCopy b.previousEpochParticipation
          currentEpochParticipation := deepCopy b.currentEpochParticipation
          finalizedCheckpoint := deepCopy b.finalizedCheckpoint
          currentJustifiedCheckpoint := deepCopy b.currentJustifiedCheckpoint
          previousJustifiedCheckpoint := deepCopy b.previousJustifiedCheckpoint }, none)

/-- The synchronisation of a map of the target with the one of `b`: the map is made when it
is `nil`, its keys are deleted one by one, and every entry of the map of `b` is stored (a
range over a `nil` map runs no round). -/
def syncMap {K V : Type} [DecidableEq K] (target src : Option (List (K × V))) :
    Option (List (K × V)) :=
  let m := match target with
    | none => []
    | some m => m
  let m := mapClear m
  let m := mapCopyAll m (src.getD [])
  some m

/-- The statements of `CopyInto` from `// Sync caches` on: the caches are created anew and
filled from those of `b`, whose `nil` cache is a panic. -/
def BeaconState.copyCaches (b target : BeaconState) : BeaconState × Option Fault :=
  andThen target.initCaches (fun target =>
    match b.activeValidatorsCache, target.activeValidatorsCache,
      b.shuffledSetsCache, target.shuffledSetsCache,
      b.committeeCache, target.committeeCache with
    | some bActive, some tActive, some bShuffled, some tShuffled, some bCommittee,
        some tCommittee =>
      ({ target with
          activeValidatorsCache := some (lruCopyAll tActive bActive)
          shuffledSetsCache := some (lruCopyAll tShuffled bShuffled)
          committeeCache := some (lruCopyAll tCommittee bCommittee)
          totalActiveBalanceCache :=
            match b.totalActiveBalanceCache with
            | some total => some total
            | none => target.totalActiveBalanceCache
          totalActiveBalanceRootCache :=
            match b.totalActiveBalanceCache with
            | some _ => b.totalActiveBalanceRootCache
            | none => target.totalActiveBalanceRootCache }, none)
    | _, _, _, _, _, _ => (target, some Fault.panic))

/-- The statements of `CopyInto` after the test of the version, with the assignments to the
fields of the target gathered in one update, followed by the cache part. -/
def BeaconState.copyLater (b target : BeaconState) : BeaconState × Option Fault :=
  match assignEach (fun x : Bytes × Bytes => (x.1, x.2)) b.historicalSummaries 0
      (exs target.historicalSummaries b.historicalSummaries.length ([], [])) with
  | none => (target, some Fault.panic)
  | some summaries =>
    b.copyCaches
      { target with
          currentSyncCommittee := deepCopy b.currentSyncCommittee
          nextSyncCommittee := deepCopy b.nextSyncCommittee
          inactivityScores :=
            copySlice (exs target.inactivityScores b.inactivityScores.length 0)
              b.inactivityScores
          justificationBits := deepCopy b.justificationBits
          latestExecutionPayloadHeader :=
            if b.version ≥ BellatrixVersion then deepCopy b.latestExecutionPayloadHeader
            else target.latestExecutionPayloadHeader
          nextWithdrawalIndex := b.nextWithdrawalIndex
          nextWithdrawalValidatorIndex := b.nextWithdrawalValidatorIndex
          historicalSummaries := summaries
          version := b.version
          leaves := copySlice target.leaves b.leaves
          touchedLeaves := syncMap target.touchedLeaves b.touchedLeaves
          publicKeyIndicies := syncMap target.publicKeyIndicies b.publicKeyIndicies }

/-- The method `CopyInto`: the target after the call and the returned error. -/
def BeaconState.CopyInto (E : Env) (b target : BeaconState) : BeaconState × Option Fault :=
  andThen (b.copyCommon target) (fun target =>
    if b.version = Phase0Version then target.initBeaconState E
    else b.copyLater target)

/-- The method `Copy`. -/
def BeaconState.Copy (E : Env) (b : BeaconState) : BeaconState × Option Fault :=
  andThen (BeaconState.New E b.beaconConfig) (fun copied => b.CopyInto E copied)

/-! ## What the construction derives -/

/-- The validator without the marks that the phase-0 backfill writes: its eight serialized
fields. -/
def Validator.core (v : Validator) : Validator :=
  { v with
      IsCurrentMatchingSourceAttester := false
      IsPreviousMatchingSourceAttester := false
      IsCurrentMatchingTargetAttester := false
      IsPreviousMatchingTargetAttester := false
      IsCurrentMatchingHeadAttester := false
      IsPreviousMatchingHeadAttester := false
      MinCurrentInclusionDelayAttestation := none
      MinPreviousInclusionDelayAttestation := none }

/-- The state without what `initBeaconState` derives: the marks of the validators, the
public-key index, the caches, the total active balance and the proposer index. -/
def BeaconState.eraseDerived (b : BeaconState) : BeaconState :=
  { b with
      validators := b.validators.map Validator.core
      publicKeyIndicies := none
      activeValidatorsCache := none
      committeeCache := none
      shuffledSetsCache := none
      totalActiveBalanceCache := none
      totalActiveBalanceRootCache := 0
      proposerIndex := none }

/-! ## Concrete values used to instantiate the theorems -/

deriving instance DecidableEq for Except

/-- The validator of the spec's concrete scenario: all-zero fields except
`EffectiveBalance = 32_000_000_000`. -/
def Validator.scenario : Validator :=
  { Validator.fresh with EffectiveBalance := 32000000000 }

/-- A sync aggregate whose 160 bytes are all `0xff`. -/
def SyncAggregate.allOnes : SyncAggregate :=
  ⟨List.replicate 64 255, List.replicate 96 255⟩

/-- The codec of a child record that is its own byte string: encoding appends the bytes,
decoding stores the buffer. -/
def rawCodec : AttestationCodec Bytes where
  zero := []
  EncodeSSZ := fun x dst => .ok (dst ++ x)
  DecodeSSZ := fun _ buf => (buf, none)
  EncodingSizeSSZ := fun x => x.length

/-- An aggregate-and-proof over `rawCodec`, with a three-byte child. -/
def AggregateAndProof.sample : AggregateAndProof Bytes :=
  ⟨258, some [1, 2, 3], List.replicate 96 4⟩

/-- A pair hash for concrete evaluations: byte `i` of the digest mixes byte `i` of the two
chunks. -/
def mixHash (x : Bytes) : Bytes :=
  List.zipWith (fun a b => (a + 2 * b + 1) % 256) (x.take 32) (x.drop 32)

/-- A public key whose only nonzero byte is the last one, byte 47. -/
def keyLastByte : Bytes := List.replicate 47 0 ++ [1]

/-- The validator of the spec's scenario with the public key `keyLastByte`. -/
def Validator.scenarioLastByte : Validator :=
  { Validator.scenario with PublicKey := keyLastByte }

/-- The concatenation of the 8 little-endian bytes of each value, in order. -/
def leConcat : List Nat → Bytes
  | [] => []
  | v :: vs => leBytes 8 v ++ leConcat vs

/-- A state at slot 64 with three validators, two of them active at epoch 2. -/
def BeaconState.sample : BeaconState where
  slot := 64
  validators :=
    [{ Validator.fresh with EffectiveBalance := 32000000000, ExitEpoch := 10 },
     { Validator.fresh with EffectiveBalance := 31000000000, ExitEpoch := 10 },
     { Validator.fresh with EffectiveBalance := 5, ExitEpoch := 1 }]
  totalActiveBalanceCache := none
  totalActiveBalanceRootCache := 0
  beaconConfig := { SlotsPerEpoch := 32, EffectiveBalanceIncrement := 1000000000 }

/-- A state at slot 64 whose one validator, of effective balance 32000000000, is not yet
active: its activation epoch is 100. -/
def BeaconState.dormant : BeaconState where
  slot := 64
  validators :=
    [{ Validator.fresh with
        EffectiveBalance := 32000000000, ActivationEpoch := 100, ExitEpoch := 200 }]
  totalActiveBalanceCache := none
  totalActiveBalanceRootCache := 0
  beaconConfig := { SlotsPerEpoch := 32, EffectiveBalanceIncrement := 1000000000 }

/-- The validator of `BeaconState.dormant`, active from epoch 0 on. -/
def Validator.activated : Validator :=
  { Validator.fresh with EffectiveBalance := 32000000000, ActivationEpoch := 0, ExitEpoch := 200 }

/-- Collaborators for concrete evaluations: every block root is 32 zero bytes, the attesting
indices of an attestation are the entries of its aggregation bits, and the proposer is
validator 0. -/
def Env.simple : Env where
  GetBlockRootAtSlot := fun _ _ => .ok (List.replicate 32 0)
  GetAttestingIndicies := fun _ _ bits _ => .ok bits
  GetSeed := fun _ _ _ _ => List.replicate 32 0
  sha256 := fun x => x.take 32
  GetActiveValidatorsIndices := fun _ _ => []
  ComputeProposerIndex := fun _ _ _ => .ok 0

/-- The collaborators of `Env.simple`, except that the block-root lookup fails. -/
def Env.noBlockRoot : Env :=
  { Env.simple with GetBlockRootAtSlot := fun _ _ => .error (Fault.collaboratorError 1) }

/-- A chain configuration with 32 slots per epoch. -/
def BeaconChainConfig.sample : BeaconChainConfig :=
  { SlotsPerEpoch := 32, EffectiveBalanceIncrement := 1000000000 }

/-- A pending attestation of slot 33 with inclusion delay 2, attested by validator 0. -/
def PendingAttestation.sample : PendingAttestation :=
  ⟨[0], ⟨33, List.replicate 32 0, ⟨1, List.replicate 32 0⟩⟩, 2⟩

/-- A Phase0 state at slot 64 with one validator, one touched leaf, nonzero justification
bits and one previous-epoch pending attestation; its caches are initialised. -/
def BeaconState.phase0Source : BeaconState :=
  { (BeaconState.zero BeaconChainConfig.sample).initCaches.1 with
      slot := 64
      validators := [Validator.scenario]
      justificationBits := [1]
      touchedLeaves := some [(3, true)]
      previousEpochAttestations := [PendingAttestation.sample] }

/-- The state `phase0Source` with the version of Altair. -/
def BeaconState.altairSource : BeaconState :=
  { BeaconState.phase0Source with version := AltairVersion }

/-- A freshly constructed state, the target of `Copy`. -/
def BeaconState.freshTarget : BeaconState :=
  (BeaconState.New Env.simple BeaconChainConfig.sample).1

/-- The collaborators of `Env.simple` for a state whose only active validator is
validator 0. -/
def Env.live : Env :=
  { Env.simple with GetActiveValidatorsIndices := fun _ _ => [0] }

/-- A Phase0 state at slot 64 none of whose pointers is `nil`: one validator, active from
epoch 0 to epoch 200, one touched leaf, justification bits `[1]` and one previous-epoch
pending attestation. -/
def BeaconState.phase0Live : BeaconState :=
  { BeaconState.phase0Source with
      validators := [Validator.activated]
      balances := [32000000000]
      fork := some (List.replicate 16 0)
      latestBlockHeader := some (List.replicate 112 0)
      eth1Data := some (List.replicate 72 0)
      previousJustifiedCheckpoint := some ⟨0, List.replicate 32 0⟩
      currentJustifiedCheckpoint := some ⟨1, List.replicate 32 0⟩
      finalizedCheckpoint := some ⟨0, List.replicate 32 0⟩ }

/-- The state `phase0Live` with the version of Altair and the fields of Altair: sync
committees and inactivity scores. -/
def BeaconState.altairLive : BeaconState :=
  { BeaconState.phase0Live with
      version := AltairVersion
      inactivityScores := [0]
      previousEpochParticipation := [0]
      currentEpochParticipation := [0]
      currentSyncCommittee := some [1]
      nextSyncCommittee := some [2] }

/-- A target that was used before: a freshly constructed state that has since received one
validator, the version of Altair and the touched leaf 5. -/
def BeaconState.usedTarget : BeaconState :=
  { BeaconState.freshTarget with
      validators := [Validator.scenario]
      version := AltairVersion
      touchedLeaves := some [(5, true)] }

/-- The state `phase0Source` with three validators and two previous-epoch pending
attestations: the first, of inclusion delay 2, is attested by validator 0, and the second, of
inclusion delay 1, by the validators 0 and 1. -/
def BeaconState.attested : BeaconState :=
  { BeaconState.phase0Source with
      validators := [Validator.scenario, Validator.scenario, Validator.scenario]
      previousEpochAttestations :=
        [PendingAttestation.sample,
         ⟨[0, 1], ⟨34, List.replicate 32 0, ⟨1, List.replicate 32 0⟩⟩, 1⟩] }

/-! ## Facts about the slice primitives -/

theorem leBytes_length (n x : Nat) : (leBytes n x).length = n := by
  induction n generalizing x with
  | zero => rfl
  | succ n ih => simp [leBytes, ih]

theorem leValue_leBytes (n x : Nat) : leValue (leBytes n x) = x % 256 ^ n := by
  induction n generalizing x with
  | zero => simp [leBytes, leValue, Nat.mod_one]
  | succ n ih =>
    simp only [leBytes, leValue, ih]
    rw [pow_succ, Nat.mul_comm (256 ^ n) 256, Nat.mod_mul]

theorem leBytes_byte (n x i : Nat) (h : i < n) :
    (leBytes n x)[i]? = some (x / 256 ^ i % 256) := by
  induction n generalizing x i with
  | zero => omega
  | succ n ih =>
    cases i with
    | zero => simp [leBytes]
    | succ i =>
      simp only [leBytes, List.getElem?_cons_succ]
      rw [ih (x / 256) i (by omega), pow_succ, Nat.mul_comm (256 ^ i) 256, Nat.div_div_eq_div_mul]

theorem goCopy_length (dst src : Bytes) : (goCopy dst src).length = dst.length := by
  simp only [goCopy, List.length_append, List.length_take, List.length_drop]
  omega

theorem goCopy_of_le (dst src : Bytes) (h : dst.length ≤ src.length) :
    goCopy dst src = src.take dst.length := by
  simp [goCopy, List.drop_eq_nil_of_le h]

theorem sliceFrom_of_le (buf : Bytes) (k : Nat) (h : k ≤ buf.length) :
    sliceFrom buf k = some (buf.drop k) := by
  simp [sliceFrom, h]

theorem UnmarshalUint64SSZ_of_le (buf : Bytes) (h : 8 ≤ buf.length) :
    UnmarshalUint64SSZ buf = some (leValue (buf.take 8)) := by
  simp [UnmarshalUint64SSZ]; omega

theorem Uint64SSZ_length (x : Nat) : (Uint64SSZ x).length = 8 := leBytes_length 8 x

theorem leValue_Uint64SSZ (x : Nat) (h : x < 2 ^ 64) : leValue (Uint64SSZ x) = x := by
  rw [Uint64SSZ, leValue_leBytes]
  exact Nat.mod_eq_of_lt (by norm_num at h ⊢; exact h)

theorem drop_append_len {α : Type} (l₁ l₂ : List α) (n m : Nat) (h : l₁.length = n) :
    (l₁ ++ l₂).drop (n + m) = l₂.drop m := by
  subst h
  rw [← List.drop_drop, List.drop_left]

/-- The unit of a read of `uint64` at offset `k`: slice, then unmarshal. -/
theorem read64_of_le (buf : Bytes) (k : Nat) (h : k + 8 ≤ buf.length) :
    (sliceFrom buf k).bind UnmarshalUint64SSZ = some (leValue ((buf.drop k).take 8)) := by
  rw [sliceFrom_of_le buf k (by omega)]
  simp only [Option.bind]
  rw [UnmarshalUint64SSZ_of_le]
  simp only [List.length_drop]; omega

/-- What `Validator.DecodeSSZ` stores when the buffer is long enough. -/
theorem Validator.DecodeSSZ_of_le (v : Validator) (buf : Bytes) (h : 121 ≤ buf.length) :
    v.DecodeSSZ buf =
      ({ v with
          PublicKey := goCopy v.PublicKey buf
          WithdrawalCredentials := goCopy v.WithdrawalCredentials (buf.drop 48)
          EffectiveBalance := leValue ((buf.drop 80).take 8)
          Slashed := decide (buf.getD 88 0 = 1)
          ActivationEligibilityEpoch := leValue ((buf.drop 89).take 8)
          ActivationEpoch := leValue ((buf.drop 97).take 8)
          ExitEpoch := leValue ((buf.drop 105).take 8)
          WithdrawableEpoch := leValue ((buf.drop 113).take 8) }, none) := by
  have h88 : byteAt buf 88 = some (buf.getD 88 0) := by
    simp only [byteAt, List.getD_eq_getElem?_getD, List.get?_eq_getElem?]
    rw [List.getElem?_eq_getElem (by omega)]; rfl
  unfold Validator.DecodeSSZ
  rw [if_neg (by simp [Validator.EncodingSizeSSZ]; omega)]
  rw [sliceFrom_of_le buf 48 (by omega), read64_of_le buf 80 (by omega), h88,
    read64_of_le buf 89 (by omega), read64_of_le buf 97 (by omega),
    read64_of_le buf 105 (by omega), read64_of_le buf 113 (by omega)]
  rfl

theorem seg_of_append {α : Type} (p s r : List α) (k n : Nat) (hp : p.length = k)
    (hs : s.length = n) : ((p ++ s ++ r).drop k).take n = s := by
  subst hp hs
  rw [List.append_assoc, List.drop_left, List.take_left]

theorem byte_of_seg {α : Type} (l s : List α) (k n i : Nat)
    (h : (l.drop k).take n = s) (hi : i < n) : l[k + i]? = s[i]? := by
  rw [← h, List.getElem?_take_of_lt hi, List.getElem?_drop]

/-- The 121 bytes that `Validator.EncodeSSZ` appends. -/
theorem Validator.EncodeSSZ_eq (v : Validator) (dst : Bytes) :
    v.EncodeSSZ dst = .ok (dst ++ (v.PublicKey ++ v.WithdrawalCredentials ++
      Uint64SSZ v.EffectiveBalance ++ [BoolSSZ v.Slashed] ++
      Uint64SSZ v.ActivationEligibilityEpoch ++ Uint64SSZ v.ActivationEpoch ++
      Uint64SSZ v.ExitEpoch ++ Uint64SSZ v.WithdrawableEpoch)) := by
  simp [Validator.EncodeSSZ, List.append_assoc]

/-- Where each field sits in the bytes that `Validator.EncodeSSZ` appends. -/
theorem Validator.body_segments (a b c e f g h : Bytes) (d : Nat)
    (ha : a.length = 48) (hb : b.length = 32) (hc : c.length = 8) (he : e.length = 8)
    (hf : f.length = 8) (hg : g.length = 8) (hh : h.length = 8) :
    let body := a ++ b ++ c ++ [d] ++ e ++ f ++ g ++ h
    body.length = 121 ∧ body.take 48 = a ∧ (body.drop 48).take 32 = b ∧
    (body.drop 80).take 8 = c ∧ (body.drop 88).take 1 = [d] ∧ (body.drop 89).take 8 = e ∧
    (body.drop 97).take 8 = f ∧ (body.drop 105).take 8 = g ∧ (body.drop 113).take 8 = h := by
  intro body
  refine ⟨by simp [body, ha, hb, hc, he, hf, hg, hh], ?_, ?_, ?_, ?_, ?_, ?_, ?_, ?_⟩
  · have := seg_of_append [] a (b ++ c ++ [d] ++ e ++ f ++ g ++ h) 0 48 rfl ha
    simpa [body, List.append_assoc] using this
  · have := seg_of_append a b (c ++ [d] ++ e ++ f ++ g ++ h) 48 32 ha hb
    simpa [body, List.append_assoc] using this
  · have := seg_of_append (a ++ b) c ([d] ++ e ++ f ++ g ++ h) 80 8 (by simp [ha, hb]) hc
    simpa [body, List.append_assoc] using this
  · have := seg_of_append (a ++ b ++ c) [d] (e ++ f ++ g ++ h) 88 1 (by simp [ha, hb, hc]) rfl
    simpa [body, List.append_assoc] using this
  · have := seg_of_append (a ++ b ++ c ++ [d]) e (f ++ g ++ h) 89 8 (by simp [ha, hb, hc]) he
    simpa [body, List.append_assoc] using this
  · have := seg_of_append (a ++ b ++ c ++ [d] ++ e) f (g ++ h) 97 8
      (by simp [ha, hb, hc, he]) hf
    simpa [body, List.append_assoc] using this
  · have := seg_of_append (a ++ b ++ c ++ [d] ++ e ++ f) g h 105 8
      (by simp [ha, hb, hc, he, hf]) hg
    simpa [body, List.append_assoc] using this
  · have := seg_of_append (a ++ b ++ c ++ [d] ++ e ++ f ++ g) h [] 113 8
      (by simp [ha, hb, hc, he, hf, hg]) hh
    simpa [body, List.append_assoc] using this

theorem seg_take {α : Type} (l : List α) (m k n : Nat) (h : k + n ≤ m) :
    ((l.take m).drop k).take n = (l.drop k).take n := by
  rw [List.drop_take, List.take_take, Nat.min_eq_left (by omega)]

theorem getD_take (l : Bytes) (m k : Nat) (h : k < m) : (l.take m).getD k 0 = l.getD k 0 := by
  rw [List.getD_eq_getElem?_getD, List.getD_eq_getElem?_getD, List.getElem?_take_of_lt h]

/-! ## Validator codec -/

/-- C1: for every Validator `v` (fields within their Go types), `v.EncodeSSZ` on the empty
`dst` returns a buffer, and `DecodeSSZ` of that buffer into a fresh Validator returns no error
and leaves the eight serialized fields equal to those of `v`. -/
theorem Validator.validator_roundtrip (v : Validator) (hv : v.WF) :
    ∃ buf, v.EncodeSSZ [] = .ok buf ∧
      (Validator.fresh.DecodeSSZ buf).2 = none ∧
      (Validator.fresh.DecodeSSZ buf).1.PublicKey = v.PublicKey ∧
      (Validator.fresh.DecodeSSZ buf).1.WithdrawalCredentials = v.WithdrawalCredentials ∧
      (Validator.fresh.DecodeSSZ buf).1.EffectiveBalance = v.EffectiveBalance ∧
      (Validator.fresh.DecodeSSZ buf).1.Slashed = v.Slashed ∧
      (Validator.fresh.DecodeSSZ buf).1.ActivationEligibilityEpoch
        = v.ActivationEligibilityEpoch ∧
      (Validator.fresh.DecodeSSZ buf).1.ActivationEpoch = v.ActivationEpoch ∧
      (Validator.fresh.DecodeSSZ buf).1.ExitEpoch = v.ExitEpoch ∧
      (Validator.fresh.DecodeSSZ buf).1.WithdrawableEpoch = v.WithdrawableEpoch := by
  obtain ⟨hpk, hwc, heb, hae, hac, hex, hwe⟩ := hv
  refine ⟨_, Validator.EncodeSSZ_eq v [], ?_⟩
  rw [List.nil_append]
  obtain ⟨hlen, s1, s2, s3, s4, s5, s6, s7, s8⟩ :=
    Validator.body_segments v.PublicKey v.WithdrawalCredentials (Uint64SSZ v.EffectiveBalance)
      (Uint64SSZ v.ActivationEligibilityEpoch) (Uint64SSZ v.ActivationEpoch)
      (Uint64SSZ v.ExitEpoch) (Uint64SSZ v.WithdrawableEpoch) (BoolSSZ v.Slashed)
      hpk hwc (Uint64SSZ_length _) (Uint64SSZ_length _) (Uint64SSZ_length _)
      (Uint64SSZ_length _) (Uint64SSZ_length _)
  rw [Validator.DecodeSSZ_of_le _ _ (le_of_eq hlen.symm)]
  refine ⟨rfl, ?_, ?_, ?_, ?_, ?_, ?_, ?_, ?_⟩
  · show goCopy (List.replicate 48 0) _ = _
    rw [goCopy_of_le _ _ (by rw [List.length_replicate, hlen]; omega), List.length_replicate, s1]
  · show goCopy (List.replicate 32 0) _ = _
    rw [goCopy_of_le _ _ (by rw [List.length_replicate, List.length_drop, hlen]; omega),
      List.length_replicate, s2]
  · show leValue _ = _
    rw [s3, leValue_Uint64SSZ _ heb]
  · show decide (_ = 1) = _
    have h88 := byte_of_seg _ _ 88 1 0 s4 (by omega)
    rw [List.getD_eq_getElem?_getD, show 88 = 88 + 0 from rfl, h88]
    cases v.Slashed <;> simp [BoolSSZ]
  · show leValue _ = _
    rw [s5, leValue_Uint64SSZ _ hae]
  · show leValue _ = _
    rw [s6, leValue_Uint64SSZ _ hac]
  · show leValue _ = _
    rw [s7, leValue_Uint64SSZ _ hex]
  · show leValue _ = _
    rw [s8, leValue_Uint64SSZ _ hwe]

/-- The round trip of C1 on the validator of the spec's concrete scenario. -/
theorem Validator.validator_roundtrip_witness :
    Validator.scenario.WF ∧
    ∃ buf, Validator.scenario.EncodeSSZ [] = .ok buf ∧
      (Validator.fresh.DecodeSSZ buf).2 = none ∧
      (Validator.fresh.DecodeSSZ buf).1.PublicKey = Validator.scenario.PublicKey ∧
      (Validator.fresh.DecodeSSZ buf).1.WithdrawalCredentials
        = Validator.scenario.WithdrawalCredentials ∧
      (Validator.fresh.DecodeSSZ buf).1.EffectiveBalance
        = Validator.scenario.EffectiveBalance ∧
      (Validator.fresh.DecodeSSZ buf).1.Slashed = Validator.scenario.Slashed ∧
      (Validator.fresh.DecodeSSZ buf).1.ActivationEligibilityEpoch
        = Validator.scenario.ActivationEligibilityEpoch ∧
      (Validator.fresh.DecodeSSZ buf).1.ActivationEpoch = Validator.scenario.ActivationEpoch ∧
      (Validator.fresh.DecodeSSZ buf).1.ExitEpoch = Validator.scenario.ExitEpoch ∧
      (Validator.fresh.DecodeSSZ buf).1.WithdrawableEpoch
        = Validator.scenario.WithdrawableEpoch :=
  ⟨by decide, Validator.validator_roundtrip Validator.scenario (by decide)⟩

/-- C2: for every Validator `v` and every `dst`, `v.EncodeSSZ dst` returns `dst` followed by
`EncodingSizeSSZ = 121` bytes: the public key at [0,48), the withdrawal credentials at [48,80),
the effective balance little-endian at [80,88), the slashed flag as the byte 1 or 0 at 88, and
the four epochs little-endian at 89, 97, 105 and 113. -/
theorem Validator.validator_layout (v : Validator) (hv : v.WF) (dst : Bytes) :
    ∃ body, v.EncodeSSZ dst = .ok (dst ++ body) ∧
      body.length = v.EncodingSizeSSZ ∧ v.EncodingSizeSSZ = 121 ∧
      body.take 48 = v.PublicKey ∧
      (body.drop 48).take 32 = v.WithdrawalCredentials ∧
      (∀ i, i < 8 → body[80 + i]? = some (v.EffectiveBalance / 256 ^ i % 256)) ∧
      body[88]? = some (if v.Slashed then 1 else 0) ∧
      (∀ i, i < 8 → body[89 + i]? = some (v.ActivationEligibilityEpoch / 256 ^ i % 256)) ∧
      (∀ i, i < 8 → body[97 + i]? = some (v.ActivationEpoch / 256 ^ i % 256)) ∧
      (∀ i, i < 8 → body[105 + i]? = some (v.ExitEpoch / 256 ^ i % 256)) ∧
      (∀ i, i < 8 → body[113 + i]? = some (v.WithdrawableEpoch / 256 ^ i % 256)) := by
  obtain ⟨hpk, hwc, -⟩ := hv
  refine ⟨_, Validator.EncodeSSZ_eq v dst, ?_⟩
  obtain ⟨hlen, s1, s2, s3, s4, s5, s6, s7, s8⟩ :=
    Validator.body_segments v.PublicKey v.WithdrawalCredentials (Uint64SSZ v.EffectiveBalance)
      (Uint64SSZ v.ActivationEligibilityEpoch) (Uint64SSZ v.ActivationEpoch)
      (Uint64SSZ v.ExitEpoch) (Uint64SSZ v.WithdrawableEpoch) (BoolSSZ v.Slashed)
      hpk hwc (Uint64SSZ_length _) (Uint64SSZ_length _) (Uint64SSZ_length _)
      (Uint64SSZ_length _) (Uint64SSZ_length _)
  refine ⟨hlen, rfl, s1, s2, ?_, ?_, ?_, ?_, ?_, ?_⟩
  · intro i hi
    rw [byte_of_seg _ _ 80 8 i s3 hi]; exact leBytes_byte 8 _ i hi
  · rw [show 88 = 88 + 0 from rfl, byte_of_seg _ _ 88 1 0 s4 (by omega)]
    rfl
  · intro i hi
    rw [byte_of_seg _ _ 89 8 i s5 hi]; exact leBytes_byte 8 _ i hi
  · intro i hi
    rw [byte_of_seg _ _ 97 8 i s6 hi]; exact leBytes_byte 8 _ i hi
  · intro i hi
    rw [byte_of_seg _ _ 105 8 i s7 hi]; exact leBytes_byte 8 _ i hi
  · intro i hi
    rw [byte_of_seg _ _ 113 8 i s8 hi]; exact leBytes_byte 8 _ i hi

/-- The layout of C2 on the validator of the spec's concrete scenario, appended to a
two-byte `dst`. -/
theorem Validator.validator_layout_witness :
    Validator.scenario.WF ∧
    ∃ body, Validator.scenario.EncodeSSZ [7, 9] = .ok ([7, 9] ++ body) ∧
      body.length = Validator.scenario.EncodingSizeSSZ ∧
      Validator.scenario.EncodingSizeSSZ = 121 ∧
      body.take 48 = Validator.scenario.PublicKey ∧
      (body.drop 48).take 32 = Validator.scenario.WithdrawalCredentials ∧
      (∀ i, i < 8 → body[80 + i]? = some (Validator.scenario.EffectiveBalance / 256 ^ i % 256)) ∧
      body[88]? = some (if Validator.scenario.Slashed then 1 else 0) ∧
      (∀ i, i < 8 → body[89 + i]? =
        some (Validator.scenario.ActivationEligibilityEpoch / 256 ^ i % 256)) ∧
      (∀ i, i < 8 → body[97 + i]? = some (Validator.scenario.ActivationEpoch / 256 ^ i % 256)) ∧
      (∀ i, i < 8 → body[105 + i]? = some (Validator.scenario.ExitEpoch / 256 ^ i % 256)) ∧
      (∀ i, i < 8 → body[113 + i]? =
        some (Validator.scenario.WithdrawableEpoch / 256 ^ i % 256)) :=
  ⟨by decide, Validator.validator_layout Validator.scenario (by decide) [7, 9]⟩

/-- C3: `Validator.DecodeSSZ buf` returns `ErrLowBufferSize` exactly when `len(buf) < 121`;
in that case the receiver is unchanged; and when `len(buf) ≥ 121` it returns no error and its
outcome is the one on the first 121 bytes of `buf` alone. -/
theorem Validator.validator_low_buffer (v : Validator) (hv : v.WF) (buf : Bytes) :
    ((v.DecodeSSZ buf).2 = some Fault.ErrLowBufferSize ↔ buf.length < 121) ∧
    ((v.DecodeSSZ buf).2 = some Fault.ErrLowBufferSize → (v.DecodeSSZ buf).1 = v) ∧
    (121 ≤ buf.length →
      (v.DecodeSSZ buf).2 = none ∧ v.DecodeSSZ buf = v.DecodeSSZ (buf.take 121)) := by
  obtain ⟨hpk, hwc, -⟩ := hv
  by_cases h : buf.length < 121
  · have e : v.DecodeSSZ buf = (v, some Fault.ErrLowBufferSize) := by
      unfold Validator.DecodeSSZ
      rw [if_pos (by simpa [Validator.EncodingSizeSSZ] using h)]
    rw [e]
    exact ⟨⟨fun _ => h, fun _ => rfl⟩, fun _ => rfl, fun h' => absurd h (by omega)⟩
  · have hle : 121 ≤ buf.length := by omega
    have hle' : 121 ≤ (buf.take 121).length := by
      rw [List.length_take]; omega
    have e := Validator.DecodeSSZ_of_le v buf hle
    have e' := Validator.DecodeSSZ_of_le v (buf.take 121) hle'
    have p1 : goCopy v.PublicKey (buf.take 121) = goCopy v.PublicKey buf := by
      rw [goCopy_of_le _ _ (by omega), goCopy_of_le _ _ (by omega), hpk, List.take_take]
      rfl
    have p2 : goCopy v.WithdrawalCredentials ((buf.take 121).drop 48)
        = goCopy v.WithdrawalCredentials (buf.drop 48) := by
      rw [goCopy_of_le _ _ (by rw [List.length_drop]; omega),
        goCopy_of_le _ _ (by rw [List.length_drop]; omega), hwc,
        seg_take buf 121 48 32 (by omega)]
    rw [seg_take buf 121 80 8 (by omega), seg_take buf 121 89 8 (by omega),
      seg_take buf 121 97 8 (by omega), seg_take buf 121 105 8 (by omega),
      seg_take buf 121 113 8 (by omega), getD_take buf 121 88 (by omega), p1, p2] at e'
    refine ⟨⟨fun h' => ?_, fun h' => absurd h' h⟩, fun h' => ?_, fun _ => ⟨?_, ?_⟩⟩
    · rw [e] at h'; exact absurd h' (by simp)
    · rw [e] at h'; exact absurd h' (by simp)
    · rw [e]
    · rw [e, e']

/-- The statement of C3 on the fresh validator and a buffer of 121 zero bytes followed by
one more byte. -/
theorem Validator.validator_low_buffer_witness :
    Validator.fresh.WF ∧
    (((Validator.fresh.DecodeSSZ (List.replicate 121 0 ++ [5])).2
        = some Fault.ErrLowBufferSize ↔ (List.replicate 121 0 ++ [5]).length < 121) ∧
    ((Validator.fresh.DecodeSSZ (List.replicate 121 0 ++ [5])).2 = some Fault.ErrLowBufferSize →
      (Validator.fresh.DecodeSSZ (List.replicate 121 0 ++ [5])).1 = Validator.fresh) ∧
    (121 ≤ (List.replicate 121 0 ++ [5]).length →
      (Validator.fresh.DecodeSSZ (List.replicate 121 0 ++ [5])).2 = none ∧
      Validator.fresh.DecodeSSZ (List.replicate 121 0 ++ [5])
        = Validator.fresh.DecodeSSZ ((List.replicate 121 0 ++ [5]).take 121))) :=
  ⟨by decide, Validator.validator_low_buffer Validator.fresh (by decide)
    (List.replicate 121 0 ++ [5])⟩

/-! ## SyncAggregate codec -/

/-- C4: `SyncAggregate.DecodeSSZ` has no length check. On a 100-byte buffer of zeros it
returns no error and overwrites only the first 36 bytes of the signature; on the empty buffer
it panics at `buf[64:]`. -/
theorem SyncAggregate.sync_decode_unchecked :
    SyncAggregate.allOnes.DecodeSSZ (List.replicate 100 0)
      = (⟨List.replicate 64 0, List.replicate 36 0 ++ List.replicate 60 255⟩, none) ∧
    SyncAggregate.allOnes.DecodeSSZ [] = (SyncAggregate.allOnes, some Fault.panic) := by
  decide

/-- C5: for every SyncAggregate `x` and every `dst`, `x.EncodeSSZ dst` returns `dst` followed
by `EncodingSizeSSZ = 160` bytes, the 64 committee-bit bytes then the 96 signature bytes, and
`DecodeSSZ` of those bytes into any SyncAggregate `r` returns no error and leaves `r` equal
to `x`. -/
theorem SyncAggregate.sync_roundtrip (x : SyncAggregate) (hx : x.WF) (dst : Bytes)
    (r : SyncAggregate) (hr : r.WF) :
    ∃ body, x.EncodeSSZ dst = .ok (dst ++ body) ∧
      body.length = x.EncodingSizeSSZ ∧ x.EncodingSizeSSZ = 160 ∧
      body.take 64 = x.SyncCommiteeBits ∧ body.drop 64 = x.SyncCommiteeSignature ∧
      r.DecodeSSZ body = (x, none) := by
  obtain ⟨hb, hs⟩ := hx
  obtain ⟨rb, rs⟩ := hr
  have hlen : (x.SyncCommiteeBits ++ x.SyncCommiteeSignature).length = 160 := by
    rw [List.length_append, hb, hs]
  have ht : (x.SyncCommiteeBits ++ x.SyncCommiteeSignature).take 64 = x.SyncCommiteeBits :=
    List.take_left' hb
  have hd : (x.SyncCommiteeBits ++ x.SyncCommiteeSignature).drop 64
      = x.SyncCommiteeSignature := List.drop_left' hb
  refine ⟨x.SyncCommiteeBits ++ x.SyncCommiteeSignature, rfl, hlen, rfl, ht, hd, ?_⟩
  unfold SyncAggregate.DecodeSSZ
  rw [sliceFrom_of_le _ 64 (by omega), hd, goCopy_of_le _ _ (by omega), rb, ht]
  show (SyncAggregate.mk x.SyncCommiteeBits (goCopy r.SyncCommiteeSignature _), none) = _
  rw [goCopy_of_le _ _ (by omega), rs, ← hs, List.take_length]

/-- The statement of C5 with the all-ones aggregate encoded after one byte and decoded into
an all-zero aggregate. -/
theorem SyncAggregate.sync_roundtrip_witness :
    SyncAggregate.allOnes.WF ∧
    (SyncAggregate.mk (List.replicate 64 0) (List.replicate 96 0)).WF ∧
    ∃ body, SyncAggregate.allOnes.EncodeSSZ [3] = .ok ([3] ++ body) ∧
      body.length = SyncAggregate.allOnes.EncodingSizeSSZ ∧
      SyncAggregate.allOnes.EncodingSizeSSZ = 160 ∧
      body.take 64 = SyncAggregate.allOnes.SyncCommiteeBits ∧
      body.drop 64 = SyncAggregate.allOnes.SyncCommiteeSignature ∧
      (SyncAggregate.mk (List.replicate 64 0) (List.replicate 96 0)).DecodeSSZ body
        = (SyncAggregate.allOnes, none) :=
  ⟨by decide, by decide,
    SyncAggregate.sync_roundtrip SyncAggregate.allOnes (by decide) [3]
      (SyncAggregate.mk (List.replicate 64 0) (List.replicate 96 0)) (by decide)⟩

/-! ## AggregateAndProof codec -/

/-- The bytes that `AggregateAndProof.EncodeSSZ` appends when the child appends `c`. -/
theorem AggregateAndProof.aggregate_EncodeSSZ_eq {Att : Type} (C : AttestationCodec Att)
    (a : AggregateAndProof Att) (x : Att) (c dst : Bytes) (hx : a.Aggregate = some x)
    (hApp : ∀ d, C.EncodeSSZ x d = .ok (d ++ c)) :
    a.EncodeSSZ C dst
      = .ok (dst ++ (Uint64SSZ a.AggregatorIndex ++ [108, 0, 0, 0] ++ a.SelectionProof ++ c)) := by
  unfold AggregateAndProof.EncodeSSZ
  simp only [hx, hApp]
  have : OffsetSSZ 108 = [108, 0, 0, 0] := by decide
  simp [this, List.append_assoc]

/-- C6: for every AggregateAndProof `a` with a non-nil Aggregate `x`, if the child's encoder
appends the byte string `c` and the child's decoder restores `x` from `c`, then
`a.EncodeSSZ` on the empty `dst` returns a buffer and `DecodeSSZ` of it into any receiver `r`
returns no error and leaves AggregatorIndex, SelectionProof and Aggregate equal to those of
`a`. -/
theorem AggregateAndProof.aggregate_roundtrip {Att : Type} (C : AttestationCodec Att)
    (a : AggregateAndProof Att) (x : Att) (c : Bytes) (hx : a.Aggregate = some x)
    (hidx : a.AggregatorIndex < 2 ^ 64) (hsp : a.SelectionProof.length = 96)
    (hApp : ∀ d, C.EncodeSSZ x d = .ok (d ++ c))
    (hRT : ∀ y, C.DecodeSSZ y c = (x, none))
    (r : AggregateAndProof Att) (hr : r.SelectionProof.length = 96) :
    ∃ buf, a.EncodeSSZ C [] = .ok buf ∧
      (r.DecodeSSZ C buf).2 = none ∧
      (r.DecodeSSZ C buf).1.AggregatorIndex = a.AggregatorIndex ∧
      (r.DecodeSSZ C buf).1.SelectionProof = a.SelectionProof ∧
      (r.DecodeSSZ C buf).1.Aggregate = a.Aggregate := by
  refine ⟨_, AggregateAndProof.aggregate_EncodeSSZ_eq C a x c [] hx hApp, ?_⟩
  rw [List.nil_append]
  generalize hbuf : Uint64SSZ a.AggregatorIndex ++ [108, 0, 0, 0] ++ a.SelectionProof ++ c = buf
  have hlen : buf.length = 108 + c.length := by
    rw [← hbuf]; simp [Uint64SSZ_length, hsp]; omega
  have h8 : buf.take 8 = Uint64SSZ a.AggregatorIndex := by
    rw [← hbuf, List.append_assoc, List.append_assoc]
    exact List.take_left' (Uint64SSZ_length _)
  have h12 : buf.drop 12 = a.SelectionProof ++ c := by
    rw [← hbuf, List.append_assoc]
    exact List.drop_left' (by simp [Uint64SSZ_length])
  have h108 : buf.drop 108 = c := by
    rw [← hbuf]
    exact List.drop_left' (by simp [Uint64SSZ_length, hsp])
  have hu : UnmarshalUint64SSZ buf = some a.AggregatorIndex := by
    rw [UnmarshalUint64SSZ_of_le _ (by omega), h8, leValue_Uint64SSZ _ hidx]
  have hcopy : goCopy r.SelectionProof (a.SelectionProof ++ c) = a.SelectionProof := by
    rw [goCopy_of_le _ _ (by simp [hr, hsp]), hr]
    exact List.take_left' hsp
  unfold AggregateAndProof.DecodeSSZ
  rw [hu, sliceFrom_of_le _ 12 (by omega), sliceFrom_of_le _ 108 (by omega), h12, h108]
  cases hra : r.Aggregate with
  | none => simp [assign, andThen, hra, hRT, hcopy, hx]
  | some y => simp [assign, andThen, hra, hRT, hcopy, hx]

/-- The round trip of C6 on a sample aggregate over the raw-bytes child codec. -/
theorem AggregateAndProof.aggregate_roundtrip_witness :
    AggregateAndProof.sample.Aggregate = some [1, 2, 3] ∧
    AggregateAndProof.sample.AggregatorIndex < 2 ^ 64 ∧
    AggregateAndProof.sample.SelectionProof.length = 96 ∧
    (∀ d, rawCodec.EncodeSSZ [1, 2, 3] d = .ok (d ++ [1, 2, 3])) ∧
    (∀ y, rawCodec.DecodeSSZ y [1, 2, 3] = ([1, 2, 3], none)) ∧
    (AggregateAndProof.mk 0 none (List.replicate 96 0) : AggregateAndProof Bytes).SelectionProof.length
      = 96 ∧
    ∃ buf, AggregateAndProof.sample.EncodeSSZ rawCodec [] = .ok buf ∧
      ((AggregateAndProof.mk 0 none (List.replicate 96 0)).DecodeSSZ rawCodec buf).2 = none ∧
      ((AggregateAndProof.mk 0 none (List.replicate 96 0)).DecodeSSZ rawCodec buf).1.AggregatorIndex
        = AggregateAndProof.sample.AggregatorIndex ∧
      ((AggregateAndProof.mk 0 none (List.replicate 96 0)).DecodeSSZ rawCodec buf).1.SelectionProof
        = AggregateAndProof.sample.SelectionProof ∧
      ((AggregateAndProof.mk 0 none (List.replicate 96 0)).DecodeSSZ rawCodec buf).1.Aggregate
        = AggregateAndProof.sample.Aggregate :=
  ⟨rfl, by decide, by decide, fun _ => rfl, fun _ => rfl, by decide,
    AggregateAndProof.aggregate_roundtrip rawCodec AggregateAndProof.sample [1, 2, 3] [1, 2, 3] rfl
      (by decide) (by decide) (fun _ => rfl) (fun _ => rfl)
      (AggregateAndProof.mk 0 none (List.replicate 96 0)) (by decide)⟩

/-- C7: for every AggregateAndProof `a` with a non-nil Aggregate whose encoder appends the
byte string `c`, `a.EncodeSSZ` on the empty `dst` is the 8 little-endian bytes of
AggregatorIndex, the four bytes 108, 0, 0, 0 (the little-endian offset 108), the 96
SelectionProof bytes, then `c`; the fixed-size region before `c` is 108 bytes long, so `c`
starts at the written offset; and when the child's `EncodingSizeSSZ` is `len(c)`, the total
length is `EncodingSizeSSZ = 108 + len(c)`. -/
theorem AggregateAndProof.aggregate_layout {Att : Type} (C : AttestationCodec Att)
    (a : AggregateAndProof Att) (x : Att) (c : Bytes) (hx : a.Aggregate = some x)
    (hsp : a.SelectionProof.length = 96)
    (hApp : ∀ d, C.EncodeSSZ x d = .ok (d ++ c)) :
    ∃ idx off, a.EncodeSSZ C [] = .ok (idx ++ off ++ a.SelectionProof ++ c) ∧
      idx.length = 8 ∧ (∀ i, i < 8 → idx[i]? = some (a.AggregatorIndex / 256 ^ i % 256)) ∧
      off = [108, 0, 0, 0] ∧ leValue off = 108 ∧
      (idx ++ off ++ a.SelectionProof).length = 108 ∧
      (idx ++ off ++ a.SelectionProof ++ c).drop (leValue off) = c ∧
      (C.EncodingSizeSSZ x = c.length →
        a.EncodingSizeSSZ C = some (idx ++ off ++ a.SelectionProof ++ c).length ∧
        a.EncodingSizeSSZ C = some (108 + c.length)) := by
  have hfix : (Uint64SSZ a.AggregatorIndex ++ [108, 0, 0, 0] ++ a.SelectionProof).length
      = 108 := by simp [Uint64SSZ_length, hsp]
  refine ⟨Uint64SSZ a.AggregatorIndex, [108, 0, 0, 0], ?_, Uint64SSZ_length _,
    fun i hi => leBytes_byte 8 _ i hi, rfl, by decide, hfix, ?_, fun hsz => ?_⟩
  · have := AggregateAndProof.aggregate_EncodeSSZ_eq C a x c [] hx hApp
    rwa [List.nil_append] at this
  · rw [show leValue [108, 0, 0, 0] = 108 by decide]
    exact List.drop_left' hfix
  · have e : a.EncodingSizeSSZ C = some (108 + c.length) := by
      simp [AggregateAndProof.EncodingSizeSSZ, hx, hsz]
    refine ⟨?_, e⟩
    rw [e, List.length_append, hfix]

/-- The layout of C7 on a sample aggregate over the raw-bytes child codec. -/
theorem AggregateAndProof.aggregate_layout_witness :
    AggregateAndProof.sample.Aggregate = some [1, 2, 3] ∧
    AggregateAndProof.sample.SelectionProof.length = 96 ∧
    (∀ d, rawCodec.EncodeSSZ [1, 2, 3] d = .ok (d ++ [1, 2, 3])) ∧
    ∃ idx off, AggregateAndProof.sample.EncodeSSZ rawCodec []
        = .ok (idx ++ off ++ AggregateAndProof.sample.SelectionProof ++ [1, 2, 3]) ∧
      idx.length = 8 ∧
      (∀ i, i < 8 → idx[i]? = some (AggregateAndProof.sample.AggregatorIndex / 256 ^ i % 256)) ∧
      off = [108, 0, 0, 0] ∧ leValue off = 108 ∧
      (idx ++ off ++ AggregateAndProof.sample.SelectionProof).length = 108 ∧
      (idx ++ off ++ AggregateAndProof.sample.SelectionProof ++ [1, 2, 3]).drop (leValue off)
        = [1, 2, 3] ∧
      (rawCodec.EncodingSizeSSZ [1, 2, 3] = [1, 2, 3].length →
        AggregateAndProof.sample.EncodingSizeSSZ rawCodec
          = some (idx ++ off ++ AggregateAndProof.sample.SelectionProof ++ [1, 2, 3]).length ∧
        AggregateAndProof.sample.EncodingSizeSSZ rawCodec = some (108 + [1, 2, 3].length)) :=
  ⟨rfl, by decide, fun _ => rfl,
    AggregateAndProof.aggregate_layout rawCodec AggregateAndProof.sample [1, 2, 3] [1, 2, 3]
      rfl (by decide) (fun _ => rfl)⟩

/-! ## Merkleization engine: one round of pair hashing -/

theorem IsPowerOf32_iff (n : Nat) : IsPowerOf32 n = true ↔ ∃ k, n = 32 * 2 ^ k := by
  unfold IsPowerOf32
  rw [List.any_eq_true]
  constructor
  · rintro ⟨k, -, hk⟩
    exact ⟨k, by simpa using hk⟩
  · rintro ⟨k, hk⟩
    refine ⟨k, ?_, by simpa using hk⟩
    rw [List.mem_range]
    have : k < 2 ^ k := Nat.lt_two_pow k
    omega

theorem writeDigest_length (digests : Bytes) (k : Nat) (d : Bytes) :
    (writeDigest digests k d).length = digests.length := by
  simp only [writeDigest, List.length_append, goCopy_length, List.length_take,
    List.length_drop]
  omega

theorem hashPairs_length (H : Bytes → Bytes) (chunks : Option Bytes) (n k : Nat)
    (digests : Bytes) : (hashPairs H chunks n k digests).length = digests.length := by
  induction n generalizing k digests with
  | zero => rfl
  | succ n ih => rw [hashPairs, ih, writeDigest_length]

theorem hashLayer_length (H : Bytes → Bytes) (hH : ∀ x, x.length = 64 → (H x).length = 32)
    (n : Nat) (bs : Bytes) (h : 64 * n ≤ bs.length) : (hashLayer H n bs).length = 32 * n := by
  induction n generalizing bs with
  | zero => rfl
  | succ n ih =>
    rw [hashLayer, List.length_append, hH _ (by rw [List.length_take]; omega),
      ih _ (by rw [List.length_drop]; omega)]
    omega

/-- Writing digest `k` right after a prefix of `k` digests. -/
theorem writeDigest_append (P R d : Bytes) (k : Nat) (hP : P.length = 32 * k)
    (hd : d.length = 32) (hR : 32 ≤ R.length) :
    writeDigest (P ++ R) k d = (P ++ d) ++ R.drop 32 := by
  unfold writeDigest
  have h1 : (P ++ R).take (32 * k) = P := List.take_left' hP
  have h2 : (P ++ R).drop (32 * k) = R := List.drop_left' hP
  have h3 : (P ++ R).drop (32 * k + 32) = R.drop 32 := drop_append_len P R _ 32 hP
  rw [h1, h2, h3, goCopy_of_le _ _ (by rw [List.length_take]; omega), List.length_take,
    Nat.min_eq_left hR, ← hd, List.take_length]

/-- One round on chunks that lie outside the digest buffer: the digests of the pairs replace
the front of the buffer. -/
theorem hashPairs_input (H : Bytes → Bytes) (hH : ∀ x, x.length = 64 → (H x).length = 32)
    (bs : Bytes) (n k : Nat) (P R : Bytes) (hP : P.length = 32 * k) (hR : 32 * n ≤ R.length)
    (hbs : 64 * k + 64 * n ≤ bs.length) :
    hashPairs H (some bs) n k (P ++ R)
      = P ++ hashLayer H n (bs.drop (64 * k)) ++ R.drop (32 * n) := by
  induction n generalizing k P R with
  | zero => simp [hashPairs, hashLayer]
  | succ n ih =>
    have hd : (H ((bs.drop (64 * k)).take 64)).length = 32 :=
      hH _ (by rw [List.length_take, List.length_drop]; omega)
    rw [hashPairs, Option.getD_some, writeDigest_append P R _ k hP hd (by omega),
      ih (k + 1) (P ++ H ((bs.drop (64 * k)).take 64)) (R.drop 32)
        (by rw [List.length_append, hP, hd]; omega) (by rw [List.length_drop]; omega)
        (by omega)]
    rw [hashLayer, List.drop_drop, List.drop_drop]
    rw [show 64 * (k + 1) = 64 * k + 64 by omega, show 32 * (n + 1) = 32 + 32 * n by omega]
    simp only [List.append_assoc]

/-- One round in place, on chunks that are a prefix of the digest buffer: pair `k` is read at
byte `64 * k`, past every digest written so far, so the digests of the pairs of the old
content replace the front of the buffer. -/
theorem hashPairs_scratch (H : Bytes → Bytes) (hH : ∀ x, x.length = 64 → (H x).length = 32)
    (n k : Nat) (P R : Bytes) (hP : P.length = 32 * k) (hR : 32 * k + 64 * n ≤ R.length) :
    hashPairs H none n k (P ++ R)
      = P ++ hashLayer H n (R.drop (32 * k)) ++ R.drop (32 * n) := by
  induction n generalizing k P R with
  | zero => simp [hashPairs, hashLayer]
  | succ n ih =>
    have hsrc : (P ++ R).drop (64 * k) = R.drop (32 * k) := by
      rw [show 64 * k = 32 * k + 32 * k by omega]
      exact drop_append_len P R _ _ hP
    have hd : (H ((R.drop (32 * k)).take 64)).length = 32 :=
      hH _ (by rw [List.length_take, List.length_drop]; omega)
    rw [hashPairs, Option.getD_none, hsrc, writeDigest_append P R _ k hP hd (by omega),
      ih (k + 1) (P ++ H ((R.drop (32 * k)).take 64)) (R.drop 32)
        (by rw [List.length_append, hP, hd]; omega) (by rw [List.length_drop]; omega)]
    rw [hashLayer, List.drop_drop, List.drop_drop, List.drop_drop]
    rw [show 32 + 32 * (k + 1) = 32 * k + 64 by omega,
      show 32 * (n + 1) = 32 + 32 * n by omega]
    simp only [List.append_assoc]

/-! ## Merkleization engine: the layers against the tree -/

theorem hashLayer_take (H : Bytes → Bytes) (n m : Nat) (bs : Bytes) (h : 64 * n ≤ m) :
    hashLayer H n (bs.take m) = hashLayer H n bs := by
  induction n generalizing bs m with
  | zero => rfl
  | succ n ih =>
    rw [hashLayer, hashLayer, List.take_take, Nat.min_eq_left (by omega), List.drop_take,
      ih (m - 64) (bs.drop 64) (by omega)]

theorem hashLayer_add (H : Bytes → Bytes) (a b : Nat) (bs : Bytes) :
    hashLayer H (a + b) bs = hashLayer H a bs ++ hashLayer H b (bs.drop (64 * a)) := by
  induction a generalizing bs with
  | zero => simp [hashLayer]
  | succ a ih =>
    rw [show a + 1 + b = (a + b) + 1 by omega, hashLayer, hashLayer, ih, List.drop_drop,
      List.append_assoc, show 64 + 64 * a = 64 * (a + 1) by omega]

/-- Hashing layer by layer is hashing the two halves and then their two roots. -/
theorem layersRoot_succ (H : Bytes → Bytes) (hH : ∀ x, x.length = 64 → (H x).length = 32)
    (k : Nat) (bs : Bytes) (h : bs.length = 32 * 2 ^ (k + 1)) :
    layersRoot H (k + 1) bs
      = H (layersRoot H k (bs.take (32 * 2 ^ k)) ++ layersRoot H k (bs.drop (32 * 2 ^ k))) := by
  induction k generalizing bs with
  | zero =>
    have h64 : bs.length = 64 := by simpa using h
    have e : bs.take 64 = bs := by rw [← h64, List.take_length]
    simp only [layersRoot, hashLayer, pow_zero, Nat.mul_one, List.append_nil, e,
      List.take_append_drop]
  | succ k ih =>
    have hp : 2 ^ (k + 1) = 2 ^ k + 2 ^ k := by rw [pow_succ]; omega
    have hlen : bs.length = 64 * 2 ^ k + 64 * 2 ^ k := by
      rw [h, pow_succ, pow_succ]; omega
    have hX : (hashLayer H (2 ^ k) bs).length = 32 * 2 ^ k :=
      hashLayer_length H hH _ _ (by omega)
    have hsplit : hashLayer H (2 ^ (k + 1)) bs
        = hashLayer H (2 ^ k) bs ++ hashLayer H (2 ^ k) (bs.drop (64 * 2 ^ k)) := by
      rw [hp, hashLayer_add]
    have ht : (hashLayer H (2 ^ (k + 1)) bs).take (32 * 2 ^ k) = hashLayer H (2 ^ k) bs := by
      rw [hsplit]; exact List.take_left' hX
    have hd : (hashLayer H (2 ^ (k + 1)) bs).drop (32 * 2 ^ k)
        = hashLayer H (2 ^ k) (bs.drop (64 * 2 ^ k)) := by
      rw [hsplit]; exact List.drop_left' hX
    have h32 : 32 * 2 ^ (k + 1) = 64 * 2 ^ k := by rw [pow_succ]; omega
    rw [show layersRoot H (k + 1 + 1) bs
        = layersRoot H (k + 1) (hashLayer H (2 ^ (k + 1)) bs) from rfl,
      ih (hashLayer H (2 ^ (k + 1)) bs)
        (by rw [hashLayer_length H hH _ _ (by omega)]),
      ht, hd, h32]
    rw [show layersRoot H (k + 1) (bs.take (64 * 2 ^ k))
        = layersRoot H k (hashLayer H (2 ^ k) (bs.take (64 * 2 ^ k))) from rfl,
      show layersRoot H (k + 1) (bs.drop (64 * 2 ^ k))
        = layersRoot H k (hashLayer H (2 ^ k) (bs.drop (64 * 2 ^ k))) from rfl,
      hashLayer_take H _ _ bs (le_refl _)]

/-- The layer-by-layer root is the tree root. -/
theorem layersRoot_eq_treeRoot (H : Bytes → Bytes)
    (hH : ∀ x, x.length = 64 → (H x).length = 32) (k : Nat) (bs : Bytes)
    (h : bs.length = 32 * 2 ^ k) : layersRoot H k bs = treeRoot H k bs := by
  induction k generalizing bs with
  | zero => rfl
  | succ k ih =>
    have hlen : bs.length = 32 * 2 ^ k + 32 * 2 ^ k := by rw [h, pow_succ]; omega
    rw [layersRoot_succ H hH k bs h, treeRoot,
      ih (bs.take (32 * 2 ^ k)) (by rw [List.length_take]; omega),
      ih (bs.drop (32 * 2 ^ k)) (by rw [List.length_drop]; omega)]

/-! ## Merkleization engine: the loop -/

/-- The call of `HashByteSlice` of a round on `2 * t` chunks passes the argument checks. -/
theorem HashByteSlice_round (H : Bytes → Bytes) (layer : Bytes) (chunks : Option Bytes)
    (t : Nat) (ht : 1 ≤ t) (hmod : layer.length % 32 = 0) (hlay : 32 * t ≤ layer.length) :
    HashByteSlice H layer chunks (64 * t) = .ok (hashPairs H chunks t 0 layer) := by
  unfold HashByteSlice
  rw [if_neg (by omega), if_neg (by simp), if_neg (by simp [hmod]), if_neg (by omega),
    Nat.mul_div_cancel_left t (by norm_num)]

/-- One round of the loop on `2 * 2^j` chunks. -/
theorem merkleizeLoop_round (H : Bytes → Bytes) (fuel : Nat) (layer : Bytes)
    (leaves : LeavesRef) (j : Nat) (hlen : leaves.len = 64 * 2 ^ j)
    (hmod : layer.length % 32 = 0) (hlay : 32 * 2 ^ j ≤ layer.length) :
    merkleizeLoop H (fuel + 1) layer leaves
      = merkleizeLoop H fuel (hashPairs H leaves.chunks (2 ^ j) 0 layer)
          (.scratch (32 * 2 ^ j)) := by
  have ht : 1 ≤ 2 ^ j := Nat.one_le_two_pow
  have hpow : IsPowerOf32 leaves.len = true :=
    (IsPowerOf32_iff _).mpr ⟨j + 1, by rw [hlen, pow_succ]; omega⟩
  have hhalf : leaves.len / 2 = 32 * 2 ^ j := by rw [hlen]; omega
  rw [merkleizeLoop, if_pos (by omega), hpow]
  simp only [Bool.not_true, Bool.false_eq_true, if_false]
  rw [hlen, HashByteSlice_round H layer _ _ ht hmod hlay]
  simp only []
  rw [← hlen, hhalf, if_pos (by rw [hashPairs_length]; exact hlay)]

/-- From the second round on the loop runs to the end: it returns 32 bytes. -/
theorem merkleizeLoop_scratch_ok (H : Bytes → Bytes) (j fuel : Nat) (layer : Bytes)
    (hfuel : j ≤ fuel) (hmod : layer.length % 32 = 0) (hlay : 32 * 2 ^ j ≤ layer.length) :
    ∃ r, merkleizeLoop H fuel layer (.scratch (32 * 2 ^ j)) = .ok r ∧ r.length = 32 := by
  induction j generalizing fuel layer with
  | zero =>
    have h32 : 32 ≤ layer.length := by simpa using hlay
    refine ⟨layer.take 32, ?_, by rw [List.length_take]; omega⟩
    cases fuel <;> simp [merkleizeLoop, LeavesRef.len, reslice32, h32]
  | succ j ih =>
    obtain ⟨fuel, rfl⟩ : ∃ f, fuel = f + 1 := ⟨fuel - 1, by omega⟩
    have h64 : 32 * 2 ^ (j + 1) = 64 * 2 ^ j := by rw [pow_succ]; omega
    rw [merkleizeLoop_round H fuel layer _ j (by rw [LeavesRef.len, h64]) hmod (by omega)]
    exact ih fuel _ (by omega) (by rw [hashPairs_length]; exact hmod)
      (by rw [hashPairs_length]; omega)

/-- From the second round on the loop returns the layer-by-layer root of the chunks that are
in the scratch buffer. -/
theorem merkleizeLoop_scratch (H : Bytes → Bytes)
    (hH : ∀ x, x.length = 64 → (H x).length = 32) (j fuel : Nat) (layer : Bytes)
    (hfuel : j ≤ fuel) (hmod : layer.length % 32 = 0) (hlay : 32 * 2 ^ j ≤ layer.length) :
    merkleizeLoop H fuel layer (.scratch (32 * 2 ^ j))
      = .ok (layersRoot H j (layer.take (32 * 2 ^ j))) := by
  induction j generalizing fuel layer with
  | zero =>
    have h32 : 32 ≤ layer.length := by simpa using hlay
    cases fuel <;> simp [merkleizeLoop, LeavesRef.len, reslice32, h32, layersRoot]
  | succ j ih =>
    obtain ⟨fuel, rfl⟩ : ∃ f, fuel = f + 1 := ⟨fuel - 1, by omega⟩
    have h64 : 32 * 2 ^ (j + 1) = 64 * 2 ^ j := by rw [pow_succ]; omega
    have hround : hashPairs H none (2 ^ j) 0 layer
        = hashLayer H (2 ^ j) layer ++ layer.drop (32 * 2 ^ j) := by
      have := hashPairs_scratch H hH (2 ^ j) 0 [] layer rfl (by omega)
      simpa using this
    have hX : (hashLayer H (2 ^ j) layer).length = 32 * 2 ^ j :=
      hashLayer_length H hH _ _ (by omega)
    rw [merkleizeLoop_round H fuel layer _ j (by rw [LeavesRef.len, h64]) hmod (by omega),
      ih fuel _ (by omega) (by rw [hashPairs_length]; exact hmod)
        (by rw [hashPairs_length]; omega)]
    rw [show (LeavesRef.scratch (32 * 2 ^ (j + 1))).chunks = none from rfl, hround,
      List.take_left' hX, h64,
      show layersRoot H (j + 1) (layer.take (64 * 2 ^ j))
        = layersRoot H j (hashLayer H (2 ^ j) (layer.take (64 * 2 ^ j))) from rfl,
      hashLayer_take H _ _ layer (le_refl _)]

/-- The first round hashes the caller's chunks into the zeroed scratch buffer. -/
theorem hashPairs_first (H : Bytes → Bytes) (hH : ∀ x, x.length = 64 → (H x).length = 32)
    (t : Nat) (bs : Bytes) (hbs : bs.length = 64 * t) :
    hashPairs H (some bs) t 0 (List.replicate (32 * t) 0) = hashLayer H t bs := by
  have := hashPairs_input H hH bs t 0 [] (List.replicate (32 * t) 0) rfl (by simp) (by omega)
  simpa using this

/-- The engine on `2 * 2^j` chunks is the loop from its second round on. -/
theorem MerkleRootFromLeaves_first_round (H : Bytes → Bytes) (j : Nat) (leaves spare : Bytes)
    (hlen : leaves.length = 64 * 2 ^ j) :
    MerkleRootFromLeaves H leaves spare
      = merkleizeLoop H (64 * 2 ^ j - 1)
          (hashPairs H (some leaves) (2 ^ j) 0 (List.replicate (32 * 2 ^ j) 0))
          (.scratch (32 * 2 ^ j)) := by
  have ht : 1 ≤ 2 ^ j := Nat.one_le_two_pow
  unfold MerkleRootFromLeaves merkleizeTrieLeaves
  rw [if_neg (by omega), if_neg (by omega)]
  simp only []
  rw [hlen, show 64 * 2 ^ j / 2 = 32 * 2 ^ j by omega,
    show 64 * 2 ^ j = (64 * 2 ^ j - 1) + 1 by omega,
    merkleizeLoop_round H _ _ (.input leaves spare) j (by rw [LeavesRef.len, hlen])
      (by simp) (by simp)]
  rfl

/-- C8: `MerkleRootFromLeaves` returns the zero-leaves error on the empty input, and on an
input of exactly 32 bytes it returns those 32 bytes, whatever the hash primitive `H` is (the
primitive has no part in the result). -/
theorem MerkleRootFromLeaves_short_circuit (H : Bytes → Bytes) (leaves spare : Bytes)
    (h : leaves.length = 32) :
    MerkleRootFromLeaves H [] spare = .error Fault.zeroLeaves ∧
    MerkleRootFromLeaves H leaves spare = .ok leaves := by
  refine ⟨rfl, ?_⟩
  unfold MerkleRootFromLeaves
  rw [if_neg (by omega), if_pos h]
  simp only [reslice32]
  rw [if_pos (by omega), List.take_left' h]

/-- The statement of C8 on the 32 bytes 0, 1, ..., 31 in a buffer with spare capacity. -/
theorem MerkleRootFromLeaves_short_circuit_witness :
    (List.range 32).length = 32 ∧
    MerkleRootFromLeaves mixHash [] [8, 8] = .error Fault.zeroLeaves ∧
    MerkleRootFromLeaves mixHash (List.range 32) [8, 8] = .ok (List.range 32) :=
  ⟨by decide, MerkleRootFromLeaves_short_circuit mixHash (List.range 32) [8, 8] (by decide)⟩

/-- C9: on a leaf buffer of `32 * n` bytes with `n ≥ 2`, `MerkleRootFromLeaves` returns 32
bytes when `n` is a power of two, and the non-power-of-two error (with the length of the
buffer) when `n` is not. -/
theorem MerkleRootFromLeaves_power_of_two (H : Bytes → Bytes) (leaves spare : Bytes) (n : Nat)
    (hn : 2 ≤ n) (hlen : leaves.length = 32 * n) :
    ((∃ k, n = 2 ^ k) → ∃ r, MerkleRootFromLeaves H leaves spare = .ok r ∧ r.length = 32) ∧
    ((¬ ∃ k, n = 2 ^ k) →
      MerkleRootFromLeaves H leaves spare = .error (Fault.nonPowerOfTwo (32 * n))) := by
  constructor
  · rintro ⟨k, rfl⟩
    obtain ⟨j, rfl⟩ : ∃ j, k = j + 1 := by
      cases k with
      | zero => simp at hn
      | succ j => exact ⟨j, rfl⟩
    have h64 : leaves.length = 64 * 2 ^ j := by rw [hlen, pow_succ]; omega
    have hj : j < 2 ^ j := Nat.lt_two_pow j
    rw [MerkleRootFromLeaves_first_round H j leaves spare h64]
    exact merkleizeLoop_scratch_ok H j _ _ (by omega)
      (by rw [hashPairs_length]; simp) (by rw [hashPairs_length]; simp)
  · intro hnp
    have hpow : IsPowerOf32 leaves.length = false := by
      rw [Bool.eq_false_iff, Ne, IsPowerOf32_iff]
      rintro ⟨k, hk⟩
      exact hnp ⟨k, by omega⟩
    unfold MerkleRootFromLeaves merkleizeTrieLeaves
    rw [if_neg (by omega), if_neg (by omega)]
    simp only []
    rw [show leaves.length = (leaves.length - 1) + 1 by omega, merkleizeLoop]
    rw [← show leaves.length = (leaves.length - 1) + 1 by omega]
    simp only [LeavesRef.len]
    rw [if_pos (by omega), hpow, hlen]
    rfl

/-- The statement of C9 on four leaves (128 bytes). -/
theorem MerkleRootFromLeaves_power_of_two_witness :
    2 ≤ 4 ∧ (List.range 128).length = 32 * 4 ∧
    ((∃ k, 4 = 2 ^ k) →
      ∃ r, MerkleRootFromLeaves mixHash (List.range 128) [] = .ok r ∧ r.length = 32) ∧
    ((¬ ∃ k, 4 = 2 ^ k) →
      MerkleRootFromLeaves mixHash (List.range 128) []
        = .error (Fault.nonPowerOfTwo (32 * 4))) :=
  ⟨by decide, by simp,
    MerkleRootFromLeaves_power_of_two mixHash (List.range 128) [] 4 (by decide) (by simp)⟩

/-- C10: for every `k ≥ 1` and every leaf buffer of `2^k` chunks of 32 bytes,
`MerkleRootFromLeaves` returns the binary Merkle root of the tree definition, for every pair
hash `H` that maps 64 bytes to 32 bytes: the rounds of the loop, run in place on one scratch
buffer from the second round on, compute `treeRoot`. -/
theorem MerkleRootFromLeaves_eq_treeRoot (H : Bytes → Bytes)
    (hH : ∀ x, x.length = 64 → (H x).length = 32) (k : Nat) (hk : 1 ≤ k)
    (leaves spare : Bytes) (hlen : leaves.length = 32 * 2 ^ k) :
    MerkleRootFromLeaves H leaves spare = .ok (treeRoot H k leaves) := by
  obtain ⟨j, rfl⟩ : ∃ j, k = j + 1 := ⟨k - 1, by omega⟩
  have h64 : leaves.length = 64 * 2 ^ j := by rw [hlen, pow_succ]; omega
  have hj : j < 2 ^ j := Nat.lt_two_pow j
  have hX : (hashLayer H (2 ^ j) leaves).length = 32 * 2 ^ j :=
    hashLayer_length H hH _ _ (by omega)
  rw [MerkleRootFromLeaves_first_round H j leaves spare h64,
    hashPairs_first H hH (2 ^ j) leaves h64,
    merkleizeLoop_scratch H hH j _ _ (by omega) (by rw [hX]; simp) (by rw [hX]),
    ← hX, List.take_length, ← layersRoot_eq_treeRoot H hH (j + 1) leaves hlen]
  rfl

/-- The statement of C10 on four leaves (128 bytes) and a concrete pair hash. -/
theorem MerkleRootFromLeaves_eq_treeRoot_witness :
    (∀ x : Bytes, x.length = 64 → (mixHash x).length = 32) ∧ 1 ≤ 2 ∧
    (List.range 128).length = 32 * 2 ^ 2 ∧
    MerkleRootFromLeaves mixHash (List.range 128) [7]
      = .ok (treeRoot mixHash 2 (List.range 128)) :=
  ⟨fun x hx => by simp [mixHash, hx], by decide, by simp,
    MerkleRootFromLeaves_eq_treeRoot mixHash (fun x hx => by simp [mixHash, hx]) 2
      (by decide) (List.range 128) [7] (by simp)⟩

/-! ## Primitive roots -/

/-- What `PublicKeyRoot` hands to the engine: the first 33 bytes of the key and 31 zeros. -/
theorem PublicKeyRoot_eq (H : Bytes → Bytes) (key : Bytes) (h : key.length = 48) :
    PublicKeyRoot H key = MerkleRootFromLeaves H (key.take 33 ++ List.replicate 31 0) [] := by
  unfold PublicKeyRoot
  rw [sliceFrom_of_le key 32 (by omega)]
  simp only [sliceTo, show 33 ≤ key.length by omega, if_true, ArraysRoot]
  have : 32 * 2 - (key.take 33 ++ List.replicate 31 0).length = 0 := by
    simp [List.length_take]; omega
  rw [this]
  simp

set_option maxRecDepth 20000 in
/-- C11: `PublicKeyRoot` does not hash the whole key. On the 48-byte key whose only nonzero
byte is byte 47 it returns, for every pair hash, the root of 64 zero bytes, and with the pair
hash `mixHash` this is not the root of the key followed by 16 zero bytes. -/
theorem PublicKeyRoot_drops_tail :
    keyLastByte.length = 48 ∧
    (∀ H, PublicKeyRoot H keyLastByte = MerkleRootFromLeaves H (List.replicate 64 0) []) ∧
    PublicKeyRoot mixHash keyLastByte
      ≠ MerkleRootFromLeaves mixHash (keyLastByte ++ List.replicate 16 0) [] := by
  refine ⟨by decide, fun H => ?_, by decide⟩
  rw [PublicKeyRoot_eq H keyLastByte (by decide)]
  rfl

/-- C12: two validators that differ in their public key only, at byte 47, have the same
`HashSSZ` root for every pair hash: the leaf of the public key does not depend on the bytes of
the key past byte 32. -/
theorem validator_hash_collision :
    Validator.scenario.PublicKey ≠ Validator.scenarioLastByte.PublicKey ∧
    Validator.scenario.WF ∧ Validator.scenarioLastByte.WF ∧
    ∀ H, Validator.HashSSZ H Validator.scenario = Validator.HashSSZ H Validator.scenarioLastByte := by
  refine ⟨by decide, by decide, by decide, fun H => ?_⟩
  have e : PublicKeyRoot H Validator.scenarioLastByte.PublicKey
      = PublicKeyRoot H Validator.scenario.PublicKey := by
    rw [PublicKeyRoot_eq H _ (by decide), PublicKeyRoot_eq H _ (by decide)]
    rfl
  unfold Validator.HashSSZ
  rw [e]
  rfl

/-! ## Packing of `uint64` values -/

/-- C13: `PackUint64IntoChunks` on the one-element list `[1]` returns 8 bytes, not a whole
32-byte leaf. -/
theorem PackUint64IntoChunks_not_padded :
    PackUint64IntoChunks [1] = .ok [1, 0, 0, 0, 0, 0, 0, 0] := by
  decide

theorem leConcat_length (vals : List Nat) : (leConcat vals).length = 8 * vals.length := by
  induction vals with
  | nil => rfl
  | cons v vs ih => simp only [leConcat, List.length_append, leBytes_length, ih,
      List.length_cons]; omega

/-- The loop stores the values one after the other behind what is already stored. -/
theorem packLoop_eq (vs : List Nat) (i : Nat) (P R : Bytes) (hP : P.length = 8 * i)
    (hR : R.length = 8 * vs.length) : packLoop vs i (P ++ R) = .ok (P ++ leConcat vs) := by
  induction vs generalizing i P R with
  | nil =>
    have : R = [] := List.eq_nil_of_length_eq_zero (by simpa using hR)
    simp [packLoop, leConcat, this]
  | cons v vs ih =>
    have hR8 : R.length = 8 * vs.length + 8 := by rw [hR, List.length_cons]; omega
    have h1 : (P ++ R).take (i * 8) = P := List.take_left' (by omega)
    have h2 : (P ++ R).drop (i * 8 + 8) = R.drop 8 := drop_append_len P R _ 8 (by omega)
    have hput : putUint64At (P ++ R) (i * 8) v = .ok ((P ++ leBytes 8 v) ++ R.drop 8) := by
      unfold putUint64At
      rw [if_pos (by rw [List.length_append]; omega), h1, h2]
    rw [packLoop, hput]
    simp only []
    rw [ih (i + 1) (P ++ leBytes 8 v) (R.drop 8)
      (by rw [List.length_append, leBytes_length]; omega)
      (by rw [List.length_drop]; omega)]
    simp [leConcat, List.append_assoc]

theorem PackUint64IntoChunks_eq (vals : List Nat) :
    PackUint64IntoChunks vals = .ok (leConcat vals) := by
  have := packLoop_eq vals 0 [] (List.replicate (vals.length * 8) 0) rfl
    (by rw [List.length_replicate]; omega)
  simpa [PackUint64IntoChunks] using this

/-- The 8 bytes at offset `8 * i` of the concatenation are those of value `i`. -/
theorem leConcat_segment (vals : List Nat) (i : Nat) (hi : i < vals.length) :
    ((leConcat vals).drop (8 * i)).take 8 = leBytes 8 (vals.getD i 0) := by
  induction vals generalizing i with
  | nil => simp at hi
  | cons v vs ih =>
    cases i with
    | zero =>
      simp only [leConcat, Nat.mul_zero, List.drop_zero, List.getD_cons_zero]
      exact List.take_left' (leBytes_length 8 v)
    | succ i =>
      have hi2 : i < vs.length := by simpa using hi
      rw [leConcat, show 8 * (i + 1) = 8 + 8 * i by omega,
        drop_append_len _ _ 8 (8 * i) (leBytes_length 8 v), List.getD_cons_succ]
      exact ih i hi2

/-- C14: for every list `vals` of `uint64` and every index `i < len(vals)`,
`PackUint64IntoChunks` returns a buffer whose bytes `[8*i, 8*i+8)` are the little-endian
bytes of `vals[i]`, byte `j` of them being `vals[i] / 256^j % 256`, and reading those 8 bytes
back as a little-endian number gives `vals[i]`. -/
theorem PackUint64IntoChunks_values (vals : List Nat) (hvals : ∀ v ∈ vals, v < 2 ^ 64)
    (i : Nat) (hi : i < vals.length) :
    ∃ out, PackUint64IntoChunks vals = .ok out ∧
      (out.drop (8 * i)).take 8 = leBytes 8 (vals.getD i 0) ∧
      (∀ j, j < 8 → out[8 * i + j]? = some (vals.getD i 0 / 256 ^ j % 256)) ∧
      leValue ((out.drop (8 * i)).take 8) = vals.getD i 0 := by
  have hseg := leConcat_segment vals i hi
  have hmem : vals.getD i 0 ∈ vals := by
    rw [List.getD_eq_getElem _ _ hi]; exact List.getElem_mem hi
  refine ⟨leConcat vals, PackUint64IntoChunks_eq vals, hseg, fun j hj => ?_, ?_⟩
  · rw [byte_of_seg _ _ (8 * i) 8 j hseg hj]; exact leBytes_byte 8 _ j hj
  · rw [hseg]; exact leValue_Uint64SSZ _ (hvals _ hmem)

/-- The statement of C14 on a list of five values, at index 1. -/
theorem PackUint64IntoChunks_values_witness :
    (∀ v ∈ [1, 258, 3, 4, 5], v < 2 ^ 64) ∧ 1 < [1, 258, 3, 4, 5].length ∧
    ∃ out, PackUint64IntoChunks [1, 258, 3, 4, 5] = .ok out ∧
      (out.drop (8 * 1)).take 8 = leBytes 8 ([1, 258, 3, 4, 5].getD 1 0) ∧
      (∀ j, j < 8 → out[8 * 1 + j]? = some ([1, 258, 3, 4, 5].getD 1 0 / 256 ^ j % 256)) ∧
      leValue ((out.drop (8 * 1)).take 8) = [1, 258, 3, 4, 5].getD 1 0 :=
  ⟨by decide, by decide,
    PackUint64IntoChunks_values [1, 258, 3, 4, 5] (by decide) 1 (by decide)⟩

theorem Uint64Root_eq (val : Nat) : Uint64Root val = leBytes 8 val ++ List.replicate 24 0 := by
  simp [Uint64Root, goCopy, leBytes_length, List.take_of_length_le]

/-- C15: for every `uint64` `val`, `Uint64Root val` is the 8 little-endian bytes of `val`
followed by 24 zero bytes, 32 bytes in all; reading the first 8 bytes back as a little-endian
number gives `val`, and no other `uint64` has the same root. -/
theorem Uint64Root_layout (val : Nat) (h : val < 2 ^ 64) :
    (Uint64Root val).length = 32 ∧
    (∀ i, i < 8 → (Uint64Root val)[i]? = some (val / 256 ^ i % 256)) ∧
    (∀ i, 8 ≤ i → i < 32 → (Uint64Root val)[i]? = some 0) ∧
    leValue ((Uint64Root val).take 8) = val ∧
    (∀ w, w < 2 ^ 64 → Uint64Root w = Uint64Root val → w = val) := by
  have htake : ∀ x, (Uint64Root x).take 8 = leBytes 8 x := fun x => by
    rw [Uint64Root_eq]; exact List.take_left' (leBytes_length 8 x)
  refine ⟨by simp [Uint64Root_eq, leBytes_length], fun i hi => ?_, fun i h8 h32 => ?_, ?_,
    fun w hw he => ?_⟩
  · rw [Uint64Root_eq, List.getElem?_append_left (by rw [leBytes_length]; exact hi)]
    exact leBytes_byte 8 val i hi
  · rw [Uint64Root_eq, List.getElem?_append_right (by rw [leBytes_length]; exact h8),
      leBytes_length, List.getElem?_replicate]
    simp; omega
  · rw [htake]; exact leValue_Uint64SSZ val h
  · have := congrArg (fun l => leValue (l.take 8)) he
    simp only [htake] at this
    have hw2 := leValue_Uint64SSZ w hw
    have hv2 := leValue_Uint64SSZ val h
    rw [Uint64SSZ] at hw2 hv2
    rw [hw2, hv2] at this
    exact this

/-- The statement of C15 on the effective balance of the spec's scenario. -/
theorem Uint64Root_layout_witness :
    32000000000 < 2 ^ 64 ∧
    (Uint64Root 32000000000).length = 32 ∧
    (∀ i, i < 8 → (Uint64Root 32000000000)[i]? = some (32000000000 / 256 ^ i % 256)) ∧
    (∀ i, 8 ≤ i → i < 32 → (Uint64Root 32000000000)[i]? = some 0) ∧
    leValue ((Uint64Root 32000000000).take 8) = 32000000000 ∧
    (∀ w, w < 2 ^ 64 → Uint64Root w = Uint64Root 32000000000 → w = 32000000000) :=
  ⟨by decide, Uint64Root_layout 32000000000 (by decide)⟩

/-! ## Tree depth -/

/-- The loop of `getDepth` counts the halvings of `v`, as long as the counter stays below
256. -/
theorem getDepthLoop_spec (fuel v depth : Nat) (h1 : 1 ≤ v) (hf : v ≤ fuel + 1) :
    ∃ e, 2 ^ e ≤ v ∧ v < 2 ^ (e + 1) ∧
      (depth + e < 256 → getDepthLoop fuel v depth = some (depth + e)) := by
  induction fuel generalizing v depth with
  | zero =>
    have : v = 1 := by omega
    subst this
    exact ⟨0, by simp, by simp, fun _ => by simp [getDepthLoop]⟩
  | succ fuel ih =>
    by_cases hv : v > 1
    · obtain ⟨e, he1, he2, he3⟩ := ih (v / 2) ((depth + 1) % 256) (by omega) (by omega)
      refine ⟨e + 1, ?_, ?_, fun hd => ?_⟩
      · rw [pow_succ]; omega
      · rw [pow_succ]; omega
      · rw [getDepthLoop, if_pos hv, Nat.shiftRight_eq_div_pow, pow_one]
        rw [Nat.mod_eq_of_lt (by omega)] at he3 ⊢
        rw [he3 (by omega)]
        congr 1; omega
    · have : v = 1 := by omega
      subst this
      exact ⟨0, by simp, by simp, fun _ => by simp [getDepthLoop]⟩

theorem pow_interval_unique (v a b : Nat) (ha : 2 ^ a ≤ v) (ha2 : v < 2 ^ (a + 1))
    (hb : 2 ^ b ≤ v) (hb2 : v < 2 ^ (b + 1)) : a = b := by
  by_contra hne
  rcases Nat.lt_or_gt_of_ne hne with h | h
  · have : 2 ^ (a + 1) ≤ 2 ^ b := Nat.pow_le_pow_right (by norm_num) h
    omega
  · have : 2 ^ (b + 1) ≤ 2 ^ a := Nat.pow_le_pow_right (by norm_num) h
    omega

/-- C16: for every `uint64` `v`, `getDepth v` returns a depth `d`: 0 when `v ≤ 1`, and
otherwise the one `d` with `2^d ≤ v < 2^(d+1)`; it is `k` for `v = 2^k`, and it is at most 63,
so the `uint8` counter, which the embedding wraps at 256, never wraps. -/
theorem getDepth_spec (v : Nat) (hv : v < 2 ^ 64) :
    ∃ d, getDepth v = some d ∧ d ≤ 63 ∧
      (v ≤ 1 → d = 0) ∧
      (2 ≤ v → 2 ^ d ≤ v ∧ v < 2 ^ (d + 1) ∧ ∀ e, 2 ^ e ≤ v → v < 2 ^ (e + 1) → e = d) ∧
      (∀ k, v = 2 ^ k → d = k) := by
  by_cases h : v ≤ 1
  · refine ⟨0, by simp [getDepth, h], by omega, fun _ => rfl, fun h2 => by omega, fun k hk => ?_⟩
    cases k with
    | zero => rfl
    | succ k =>
      have : 2 ≤ 2 ^ (k + 1) := by rw [pow_succ]; have := Nat.one_le_two_pow (n := k); omega
      omega
  · obtain ⟨e, he1, he2, he3⟩ := getDepthLoop_spec v v 0 (by omega) (by omega)
    have he64 : e < 64 := by
      by_contra hge
      have : 2 ^ 64 ≤ 2 ^ e := Nat.pow_le_pow_right (by norm_num) (by omega)
      omega
    have hres : getDepth v = some e := by
      rw [getDepth, if_neg h, he3 (by omega), Nat.zero_add]
    refine ⟨e, hres, by omega, fun h1 => absurd h1 h, fun _ => ⟨he1, he2, fun e' h1 h2 => ?_⟩,
      fun k hk => ?_⟩
    · exact pow_interval_unique v e' e h1 h2 he1 he2
    · exact pow_interval_unique v e k he1 he2 (by rw [hk])
        (by rw [hk]; exact Nat.pow_lt_pow_right (by norm_num) (by omega))

/-- The statement of C16 on `v = 1024`. -/
theorem getDepth_spec_witness :
    1024 < 2 ^ 64 ∧
    ∃ d, getDepth 1024 = some d ∧ d ≤ 63 ∧
      (1024 ≤ 1 → d = 0) ∧
      (2 ≤ 1024 → 2 ^ d ≤ 1024 ∧ 1024 < 2 ^ (d + 1) ∧
        ∀ e, 2 ^ e ≤ 1024 → 1024 < 2 ^ (e + 1) → e = d) ∧
      (∀ k, 1024 = 2 ^ k → d = k) :=
  ⟨by decide, getDepth_spec 1024 (by decide)⟩

/-! ## Sync committee participation count -/

theorem sumBitLoop_acc (b fuel bit ret : Nat) :
    sumBitLoop b fuel bit ret = ret + sumBitLoop b fuel bit 0 := by
  induction fuel generalizing bit ret with
  | zero => simp [sumBitLoop]
  | succ fuel ih =>
    simp only [sumBitLoop]
    split
    · rw [ih (bit * 2) (if b &&& (bit % 256) > 0 then ret + 1 else ret),
        ih (bit * 2) (if b &&& (bit % 256) > 0 then 0 + 1 else 0)]
      split <;> omega
    · rfl

set_option maxRecDepth 100000 in
/-- On a byte the inner loop counts the set bits, and the count tells the bytes 0 and 255
apart from all others. -/
theorem sumBitLoop_byte : ∀ b, b < 256 →
    sumBitLoop b 9 1 0 = popCount8 b ∧ popCount8 b ≤ 8 ∧
    (popCount8 b = 0 ↔ b = 0) ∧ (popCount8 b = 8 ↔ b = 255) := by
  decide

theorem Sum_foldl (bits : Bytes) (hb : ∀ b ∈ bits, b < 256) (r : Nat) :
    bits.foldl (fun ret b => sumBitLoop b 9 1 ret) r = r + (bits.map popCount8).sum := by
  induction bits generalizing r with
  | nil => simp
  | cons b bs ih =>
    rw [List.foldl_cons, ih (fun x hx => hb x (List.mem_cons_of_mem _ hx)), sumBitLoop_acc,
      (sumBitLoop_byte b (hb b (List.mem_cons_self _ _))).1, List.map_cons, List.sum_cons]
    omega

theorem popCount_sum_le (bits : Bytes) (hb : ∀ b ∈ bits, b < 256) :
    (bits.map popCount8).sum ≤ 8 * bits.length := by
  induction bits with
  | nil => simp
  | cons b bs ih =>
    have h1 := (sumBitLoop_byte b (hb b (List.mem_cons_self _ _))).2.1
    have h2 := ih (fun x hx => hb x (List.mem_cons_of_mem _ hx))
    simp only [List.map_cons, List.sum_cons, List.length_cons]
    omega

theorem popCount_sum_zero (bits : Bytes) (hb : ∀ b ∈ bits, b < 256) :
    (bits.map popCount8).sum = 0 ↔ ∀ b ∈ bits, b = 0 := by
  induction bits with
  | nil => simp
  | cons b bs ih =>
    have h1 := (sumBitLoop_byte b (hb b (List.mem_cons_self _ _))).2.2.1
    have h2 := ih (fun x hx => hb x (List.mem_cons_of_mem _ hx))
    simp only [List.map_cons, List.sum_cons, List.mem_cons, forall_eq_or_imp,
      Nat.add_eq_zero_iff, h1, h2]

theorem popCount_sum_full (bits : Bytes) (hb : ∀ b ∈ bits, b < 256) :
    (bits.map popCount8).sum = 8 * bits.length ↔ ∀ b ∈ bits, b = 255 := by
  induction bits with
  | nil => simp
  | cons b bs ih =>
    have hbs : ∀ x ∈ bs, x < 256 := fun x hx => hb x (List.mem_cons_of_mem _ hx)
    obtain ⟨-, h8, -, hfull⟩ := sumBitLoop_byte b (hb b (List.mem_cons_self _ _))
    have hle := popCount_sum_le bs hbs
    have h2 := ih hbs
    simp only [List.map_cons, List.sum_cons, List.length_cons, List.mem_cons,
      forall_eq_or_imp]
    rw [← hfull, ← h2]
    omega

/-- C17: for every SyncAggregate (64 bytes of committee bits), `Sum` is the sum over the
bytes of each byte's population count, the number of set bits among the 512 bits; it is at
most 512, it is 0 exactly when every byte is 0, and 512 exactly when every byte is 255. -/
theorem sync_sum_popcount (agg : SyncAggregate) (hlen : agg.SyncCommiteeBits.length = 64)
    (hb : ∀ b ∈ agg.SyncCommiteeBits, b < 256) :
    agg.Sum = (agg.SyncCommiteeBits.map popCount8).sum ∧
    agg.Sum ≤ 512 ∧
    (agg.Sum = 0 ↔ ∀ b ∈ agg.SyncCommiteeBits, b = 0) ∧
    (agg.Sum = 512 ↔ ∀ b ∈ agg.SyncCommiteeBits, b = 255) := by
  have hs : agg.Sum = (agg.SyncCommiteeBits.map popCount8).sum := by
    rw [SyncAggregate.Sum, Sum_foldl _ hb, Nat.zero_add]
  have hle := popCount_sum_le _ hb
  have hfull := popCount_sum_full _ hb
  rw [hlen] at hle hfull
  exact ⟨hs, by omega, by rw [hs]; exact popCount_sum_zero _ hb, by rw [hs]; exact hfull⟩

/-- The statement of C17 on the aggregate whose bytes are all `0xff`. -/
theorem sync_sum_popcount_witness :
    SyncAggregate.allOnes.SyncCommiteeBits.length = 64 ∧
    (∀ b ∈ SyncAggregate.allOnes.SyncCommiteeBits, b < 256) ∧
    SyncAggregate.allOnes.Sum = (SyncAggregate.allOnes.SyncCommiteeBits.map popCount8).sum ∧
    SyncAggregate.allOnes.Sum ≤ 512 ∧
    (SyncAggregate.allOnes.Sum = 0 ↔ ∀ b ∈ SyncAggregate.allOnes.SyncCommiteeBits, b = 0) ∧
    (SyncAggregate.allOnes.Sum = 512 ↔
      ∀ b ∈ SyncAggregate.allOnes.SyncCommiteeBits, b = 255) :=
  ⟨by decide, fun b hb => by
      rw [show SyncAggregate.allOnes.SyncCommiteeBits = List.replicate 64 255 from rfl] at hb
      rw [List.eq_of_mem_replicate hb]; decide,
    sync_sum_popcount SyncAggregate.allOnes (by decide) (fun b hb => by
      rw [show SyncAggregate.allOnes.SyncCommiteeBits = List.replicate 64 255 from rfl] at hb
      rw [List.eq_of_mem_replicate hb]; decide)⟩

/-! ## Attestation duties -/

/-- C18: for every Validator, `DutiesAttested` returns `(attested, missed)` with
`attested + missed = 3`; a slashed validator gets `(0, 3)`; an unslashed one has `attested`
equal to the number of true flags among the three previous-epoch matching flags, hence
`(0, 3)` when all three are false. -/
theorem duties_attested (v : Validator) :
    v.DutiesAttested.1 + v.DutiesAttested.2 = 3 ∧
    (v.Slashed = true → v.DutiesAttested = (0, 3)) ∧
    (v.Slashed = false → v.DutiesAttested.1 =
      [v.IsPreviousMatchingSourceAttester, v.IsPreviousMatchingTargetAttester,
        v.IsPreviousMatchingHeadAttester].count true) ∧
    (v.Slashed = false → v.IsPreviousMatchingSourceAttester = false →
      v.IsPreviousMatchingTargetAttester = false → v.IsPreviousMatchingHeadAttester = false →
      v.DutiesAttested = (0, 3)) := by
  unfold Validator.DutiesAttested
  cases v.Slashed <;> cases v.IsPreviousMatchingSourceAttester <;>
    cases v.IsPreviousMatchingTargetAttester <;> cases v.IsPreviousMatchingHeadAttester <;>
    simp

/-- The statement of C18 on the validator of the spec's concrete scenario. -/
theorem duties_attested_witness :
    Validator.scenario.DutiesAttested.1 + Validator.scenario.DutiesAttested.2 = 3 ∧
    (Validator.scenario.Slashed = true → Validator.scenario.DutiesAttested = (0, 3)) ∧
    (Validator.scenario.Slashed = false → Validator.scenario.DutiesAttested.1 =
      [Validator.scenario.IsPreviousMatchingSourceAttester,
        Validator.scenario.IsPreviousMatchingTargetAttester,
        Validator.scenario.IsPreviousMatchingHeadAttester].count true) ∧
    (Validator.scenario.Slashed = false →
      Validator.scenario.IsPreviousMatchingSourceAttester = false →
      Validator.scenario.IsPreviousMatchingTargetAttester = false →
      Validator.scenario.IsPreviousMatchingHeadAttester = false →
      Validator.scenario.DutiesAttested = (0, 3)) :=
  duties_attested Validator.scenario

/-! ## Balances of the beacon state -/

theorem Max64_eq_max (a b : Nat) : Max64 a b = max a b := by
  unfold Max64
  split <;> omega

/-- A valid index reads the effective balance of its validator. -/
theorem ValidatorEffectiveBalance_valid (b : BeaconState) (hlen : b.validators.length < 2 ^ 63)
    (i : Nat) (hi : i < b.validators.length) :
    b.ValidatorEffectiveBalance (uint64ToInt i)
      = .ok (b.validators.getD i Validator.fresh).EffectiveBalance := by
  have h63 : i < 2 ^ 63 := by omega
  have hmod : i % 2 ^ 64 = i := Nat.mod_eq_of_lt (by omega)
  have hconv : uint64ToInt i = (i : Int) := by
    unfold uint64ToInt
    rw [hmod, if_pos h63]
  unfold BeaconState.ValidatorEffectiveBalance
  rw [hconv, if_neg (by omega), Int.toNat_ofNat, List.get?_eq_getElem?,
    List.getElem?_eq_getElem hi, List.getD_eq_getElem _ _ hi]

/-- The loop of `GetTotalBalance` adds the effective balances in `uint64` arithmetic. -/
theorem totalBalanceLoop_eq (b : BeaconState) (hlen : b.validators.length < 2 ^ 63)
    (set : List Nat) (hset : ∀ i ∈ set, i < b.validators.length) (total : Nat)
    (ht : total < 2 ^ 64) :
    totalBalanceLoop b set total
      = .ok ((total +
          (set.map (fun i => (b.validators.getD i Validator.fresh).EffectiveBalance)).sum)
          % 2 ^ 64) := by
  induction set generalizing total with
  | nil => rw [totalBalanceLoop, List.map_nil, List.sum_nil, Nat.add_zero, Nat.mod_eq_of_lt ht]
  | cons i rest ih =>
    rw [totalBalanceLoop, ValidatorEffectiveBalance_valid b hlen i (hset i (List.mem_cons_self _ _))]
    simp only []
    rw [ih (fun j hj => hset j (List.mem_cons_of_mem _ hj)) _ (Nat.mod_lt _ (by norm_num)),
      List.map_cons, List.sum_cons, Nat.mod_add_mod, Nat.add_assoc]

/-- C19: for every state and every validator index set whose indices are all valid,
`GetTotalBalance` returns, with no error, the larger of `EffectiveBalanceIncrement` and the
sum, in `uint64` arithmetic (modulo `2^64`), of the effective balances of the listed indices
counted with multiplicity; the result is never below `EffectiveBalanceIncrement`, and it is
`EffectiveBalanceIncrement` for the empty set. -/
theorem total_balance (b : BeaconState) (hlen : b.validators.length < 2 ^ 63)
    (set : List Nat) (hset : ∀ i ∈ set, i < b.validators.length) :
    (∃ r, b.GetTotalBalance set = .ok r ∧
      r = max b.beaconConfig.EffectiveBalanceIncrement
        ((set.map (fun i => (b.validators.getD i Validator.fresh).EffectiveBalance)).sum
          % 2 ^ 64) ∧
      b.beaconConfig.EffectiveBalanceIncrement ≤ r) ∧
    b.GetTotalBalance [] = .ok b.beaconConfig.EffectiveBalanceIncrement := by
  constructor
  · have h := totalBalanceLoop_eq b hlen set hset 0 (by norm_num)
    rw [Nat.zero_add] at h
    unfold BeaconState.GetTotalBalance
    rw [h]
    simp only []
    split
    · exact ⟨_, rfl, by omega, le_refl _⟩
    · exact ⟨_, rfl, by omega, by omega⟩
  · unfold BeaconState.GetTotalBalance
    simp only [totalBalanceLoop]
    split
    · rfl
    · congr 1; omega

/-- The statement of C19 on the sample state and the index set `[2, 2, 0]`. -/
theorem total_balance_witness :
    BeaconState.sample.validators.length < 2 ^ 63 ∧
    (∀ i ∈ [2, 2, 0], i < BeaconState.sample.validators.length) ∧
    (∃ r, BeaconState.sample.GetTotalBalance [2, 2, 0] = .ok r ∧
      r = max BeaconState.sample.beaconConfig.EffectiveBalanceIncrement
        (([2, 2, 0].map
          (fun i => (BeaconState.sample.validators.getD i Validator.fresh).EffectiveBalance)).sum
          % 2 ^ 64) ∧
      BeaconState.sample.beaconConfig.EffectiveBalanceIncrement ≤ r) ∧
    BeaconState.sample.GetTotalBalance []
      = .ok BeaconState.sample.beaconConfig.EffectiveBalanceIncrement :=
  ⟨by decide, by decide, total_balance BeaconState.sample (by decide) [2, 2, 0] (by decide)⟩

/-- The loop of `_refreshActiveBalances` adds, in `uint64` arithmetic, the effective balances
of the validators that are active at `epoch`. -/
theorem activeBalance_foldl (vals : List Validator) (epoch total : Nat) (ht : total < 2 ^ 64) :
    vals.foldl
      (fun total validator =>
        if validator.Active epoch then (total + validator.EffectiveBalance) % 2 ^ 64
        else total) total
      = (total + ((vals.filter
          (fun v => decide (v.ActivationEpoch ≤ epoch ∧ epoch < v.ExitEpoch))).map
          (fun v => v.EffectiveBalance)).sum) % 2 ^ 64 := by
  induction vals generalizing total with
  | nil =>
    rw [List.foldl_nil, List.filter_nil, List.map_nil, List.sum_nil, Nat.add_zero,
      Nat.mod_eq_of_lt ht]
  | cons v vs ih =>
    rw [List.foldl_cons]
    by_cases ha : v.ActivationEpoch ≤ epoch ∧ epoch < v.ExitEpoch
    · have hact : v.Active epoch = true := by simp [Validator.Active, ha.1, ha.2]
      rw [hact, if_pos rfl, ih _ (Nat.mod_lt _ (by norm_num)), List.filter_cons_of_pos (by simpa using ha),
        List.map_cons, List.sum_cons, Nat.mod_add_mod, Nat.add_assoc]
    · have hact : v.Active epoch = false := by
        simp only [Validator.Active, Bool.and_eq_false_iff, decide_eq_false_iff_not]
        by_cases h1 : v.ActivationEpoch ≤ epoch
        · exact Or.inr (fun h2 => ha ⟨h1, h2⟩)
        · exact Or.inl h1
      rw [hact, if_neg (by simp), ih _ ht, List.filter_cons_of_neg (by simpa using ha)]

/-- C20: after `_refreshActiveBalances` on a state whose configuration has a nonzero
`SlotsPerEpoch`, with `epoch = slot / SlotsPerEpoch`: the cached total active balance is the
larger of `EffectiveBalanceIncrement` and the sum, in `uint64` arithmetic (modulo `2^64`, so
the plain sum whenever that is below `2^64`), of `EffectiveBalance` over exactly the validators
with `ActivationEpoch ≤ epoch < ExitEpoch`; the cached root is the integer square root of
the cached total; and the cached total is never below `EffectiveBalanceIncrement`. -/
theorem refresh_active_balances (b : BeaconState) (hspe : 0 < b.beaconConfig.SlotsPerEpoch) :
    ∃ total,
      b._refreshActiveBalances.2 = none ∧
      b._refreshActiveBalances.1.totalActiveBalanceCache = some total ∧
      total = max b.beaconConfig.EffectiveBalanceIncrement
        (((b.validators.filter (fun v =>
            decide (v.ActivationEpoch ≤ b.slot / b.beaconConfig.SlotsPerEpoch ∧
              b.slot / b.beaconConfig.SlotsPerEpoch < v.ExitEpoch))).map
            (fun v => v.EffectiveBalance)).sum % 2 ^ 64) ∧
      (((b.validators.filter (fun v =>
            decide (v.ActivationEpoch ≤ b.slot / b.beaconConfig.SlotsPerEpoch ∧
              b.slot / b.beaconConfig.SlotsPerEpoch < v.ExitEpoch))).map
            (fun v => v.EffectiveBalance)).sum < 2 ^ 64 →
        total = max b.beaconConfig.EffectiveBalanceIncrement
          ((b.validators.filter (fun v =>
            decide (v.ActivationEpoch ≤ b.slot / b.beaconConfig.SlotsPerEpoch ∧
              b.slot / b.beaconConfig.SlotsPerEpoch < v.ExitEpoch))).map
            (fun v => v.EffectiveBalance)).sum) ∧
      b._refreshActiveBalances.1.totalActiveBalanceRootCache = IntegerSquareRoot total ∧
      IntegerSquareRoot total * IntegerSquareRoot total ≤ total ∧
      total < (IntegerSquareRoot total + 1) * (IntegerSquareRoot total + 1) ∧
      b.beaconConfig.EffectiveBalanceIncrement ≤ total := by
  have hep : b.Epoch = some (b.slot / b.beaconConfig.SlotsPerEpoch) := by
    simp [BeaconState.Epoch, BeaconState.GetEpochAtSlot, Nat.pos_iff_ne_zero.mp hspe]
  have hfold := activeBalance_foldl b.validators (b.slot / b.beaconConfig.SlotsPerEpoch) 0
    (by norm_num)
  rw [Nat.zero_add] at hfold
  have hres : b._refreshActiveBalances
      = ({ b with
            totalActiveBalanceCache := some (max b.beaconConfig.EffectiveBalanceIncrement
              (((b.validators.filter (fun v =>
                decide (v.ActivationEpoch ≤ b.slot / b.beaconConfig.SlotsPerEpoch ∧
                  b.slot / b.beaconConfig.SlotsPerEpoch < v.ExitEpoch))).map
                (fun v => v.EffectiveBalance)).sum % 2 ^ 64))
            totalActiveBalanceRootCache := IntegerSquareRoot
              (max b.beaconConfig.EffectiveBalanceIncrement
                (((b.validators.filter (fun v =>
                  decide (v.ActivationEpoch ≤ b.slot / b.beaconConfig.SlotsPerEpoch ∧
                    b.slot / b.beaconConfig.SlotsPerEpoch < v.ExitEpoch))).map
                  (fun v => v.EffectiveBalance)).sum % 2 ^ 64)) }, none) := by
    unfold BeaconState._refreshActiveBalances
    rw [hep]
    simp only []
    rw [hfold, Max64_eq_max]
  rw [hres]
  exact ⟨_, rfl, rfl, rfl, fun hlt => by rw [Nat.mod_eq_of_lt hlt], rfl,
    Nat.sqrt_le _, Nat.lt_succ_sqrt _, le_max_left _ _⟩

/-- The statement of C20 on the sample state (slot 64, 32 slots per epoch). -/
theorem refresh_active_balances_witness :
    0 < BeaconState.sample.beaconConfig.SlotsPerEpoch ∧
    ∃ total,
      BeaconState.sample._refreshActiveBalances.2 = none ∧
      BeaconState.sample._refreshActiveBalances.1.totalActiveBalanceCache = some total ∧
      total = max BeaconState.sample.beaconConfig.EffectiveBalanceIncrement
        (((BeaconState.sample.validators.filter (fun v =>
            decide (v.ActivationEpoch
                ≤ BeaconState.sample.slot / BeaconState.sample.beaconConfig.SlotsPerEpoch ∧
              BeaconState.sample.slot / BeaconState.sample.beaconConfig.SlotsPerEpoch
                < v.ExitEpoch))).map
            (fun v => v.EffectiveBalance)).sum % 2 ^ 64) ∧
      (((BeaconState.sample.validators.filter (fun v =>
            decide (v.ActivationEpoch
                ≤ BeaconState.sample.slot / BeaconState.sample.beaconConfig.SlotsPerEpoch ∧
              BeaconState.sample.slot / BeaconState.sample.beaconConfig.SlotsPerEpoch
                < v.ExitEpoch))).map
            (fun v => v.EffectiveBalance)).sum < 2 ^ 64 →
        total = max BeaconState.sample.beaconConfig.EffectiveBalanceIncrement
          ((BeaconState.sample.validators.filter (fun v =>
            decide (v.ActivationEpoch
                ≤ BeaconState.sample.slot / BeaconState.sample.beaconConfig.SlotsPerEpoch ∧
              BeaconState.sample.slot / BeaconState.sample.beaconConfig.SlotsPerEpoch
                < v.ExitEpoch))).map
            (fun v => v.EffectiveBalance)).sum) ∧
      BeaconState.sample._refreshActiveBalances.1.totalActiveBalanceRootCache
        = IntegerSquareRoot total ∧
      IntegerSquareRoot total * IntegerSquareRoot total ≤ total ∧
      total < (IntegerSquareRoot total + 1) * (IntegerSquareRoot total + 1) ∧
      BeaconState.sample.beaconConfig.EffectiveBalanceIncrement ≤ total :=
  ⟨by decide, refresh_active_balances BeaconState.sample (by decide)⟩

/-- The state that `_refreshActiveBalances` leaves, when the division in `Epoch` is defined. -/
theorem refreshActiveBalances_eq (b : BeaconState) (hspe : 0 < b.beaconConfig.SlotsPerEpoch) :
    b._refreshActiveBalances
      = ({ b with
            totalActiveBalanceCache := some (max b.beaconConfig.EffectiveBalanceIncrement
              (((b.validators.filter (fun v =>
                decide (v.ActivationEpoch ≤ b.slot / b.beaconConfig.SlotsPerEpoch ∧
                  b.slot / b.beaconConfig.SlotsPerEpoch < v.ExitEpoch))).map
                (fun v => v.EffectiveBalance)).sum % 2 ^ 64))
            totalActiveBalanceRootCache := IntegerSquareRoot
              (max b.beaconConfig.EffectiveBalanceIncrement
                (((b.validators.filter (fun v =>
                  decide (v.ActivationEpoch ≤ b.slot / b.beaconConfig.SlotsPerEpoch ∧
                    b.slot / b.beaconConfig.SlotsPerEpoch < v.ExitEpoch))).map
                  (fun v => v.EffectiveBalance)).sum % 2 ^ 64)) }, none) := by
  have hep : b.Epoch = some (b.slot / b.beaconConfig.SlotsPerEpoch) := by
    simp [BeaconState.Epoch, BeaconState.GetEpochAtSlot, Nat.pos_iff_ne_zero.mp hspe]
  have hfold := activeBalance_foldl b.validators (b.slot / b.beaconConfig.SlotsPerEpoch) 0
    (by norm_num)
  rw [Nat.zero_add] at hfold
  unfold BeaconState._refreshActiveBalances
  rw [hep]
  simp only []
  rw [hfold, Max64_eq_max]

/-- C21, as stated, fails: in the state `dormant` no validator is active and the first
recomputed total is the floor `EffectiveBalanceIncrement = 1000000000`; once its validator
(effective balance 32000000000) is active and nothing else has changed, the second
recomputed total is 32000000000, not the first total plus 32000000000. -/
theorem refresh_floor_breaks_increment :
    (BeaconState.dormant.validators.map (fun v => v.Active 2)) = [false] ∧
    Validator.activated.Active 2 = true ∧
    Validator.activated.EffectiveBalance = 32000000000 ∧
    BeaconState.dormant.Epoch = some 2 ∧
    BeaconState.dormant._refreshActiveBalances.1.totalActiveBalanceCache = some 1000000000 ∧
    ({ BeaconState.dormant._refreshActiveBalances.1 with
        validators := [Validator.activated] }._refreshActiveBalances).1.totalActiveBalanceCache
      = some 32000000000 ∧
    ¬ ((32000000000 : Nat) = 1000000000 + 32000000000) := by
  decide

/-- C21, amended: if between two recomputations of the total active balance exactly one
validator becomes active at the current epoch, all else unchanged, and before the change the
sum of the active effective balances is at least `EffectiveBalanceIncrement` (the floor is not
in force) and stays below `2^64` with that validator added, then the second recomputed total
is the first total plus that validator's effective balance. -/
theorem refresh_after_activation (b : BeaconState) (hspe : 0 < b.beaconConfig.SlotsPerEpoch)
    (pre post : List Validator) (v w : Validator)
    (hb : b.validators = pre ++ v :: post)
    (hv : v.Active (b.slot / b.beaconConfig.SlotsPerEpoch) = false)
    (hw : w.Active (b.slot / b.beaconConfig.SlotsPerEpoch) = true)
    (heb : w.EffectiveBalance = v.EffectiveBalance)
    (hfloor : b.beaconConfig.EffectiveBalanceIncrement ≤
      ((b.validators.filter (fun x => x.Active (b.slot / b.beaconConfig.SlotsPerEpoch))).map
        (fun x => x.EffectiveBalance)).sum)
    (hsum : ((b.validators.filter
        (fun x => x.Active (b.slot / b.beaconConfig.SlotsPerEpoch))).map
        (fun x => x.EffectiveBalance)).sum + v.EffectiveBalance < 2 ^ 64) :
    ∃ first second,
      b._refreshActiveBalances.1.totalActiveBalanceCache = some first ∧
      ({ b._refreshActiveBalances.1 with
          validators := pre ++ w :: post }._refreshActiveBalances).1.totalActiveBalanceCache
        = some second ∧
      second = first + v.EffectiveBalance := by
  have hact : ∀ x : Validator, x.Active (b.slot / b.beaconConfig.SlotsPerEpoch)
      = decide (x.ActivationEpoch ≤ b.slot / b.beaconConfig.SlotsPerEpoch ∧
          b.slot / b.beaconConfig.SlotsPerEpoch < x.ExitEpoch) := fun x => by
    simp [Validator.Active, Bool.decide_and]
  simp only [hact] at hv hw hfloor hsum
  have h1 := refreshActiveBalances_eq b hspe
  have hslot : b._refreshActiveBalances.1.slot = b.slot := by rw [h1]
  have hcfg : b._refreshActiveBalances.1.beaconConfig = b.beaconConfig := by rw [h1]
  have h2 := refreshActiveBalances_eq
    { b._refreshActiveBalances.1 with validators := pre ++ w :: post }
    (by show 0 < b._refreshActiveBalances.1.beaconConfig.SlotsPerEpoch; rw [hcfg]; exact hspe)
  refine ⟨_, _, by rw [h1], by rw [h2], ?_⟩
  simp only [hslot, hcfg]
  rw [hb] at hfloor hsum ⊢
  simp only [List.filter_append, List.filter_cons, hv, hw, if_true, Bool.false_eq_true,
    if_false, List.map_append, List.map_cons, List.sum_append, List.sum_cons, heb]
    at hfloor hsum ⊢
  rw [Nat.mod_eq_of_lt (by omega), Nat.mod_eq_of_lt (by omega)]
  omega

/-- The amended statement of C21 on the sample state, whose third validator (effective
balance 5, exit epoch 1) is replaced by one that is active at epoch 2. -/
theorem refresh_after_activation_witness :
    0 < BeaconState.sample.beaconConfig.SlotsPerEpoch ∧
    ∃ first second,
      BeaconState.sample._refreshActiveBalances.1.totalActiveBalanceCache = some first ∧
      ({ BeaconState.sample._refreshActiveBalances.1 with
          validators :=
            [{ Validator.fresh with EffectiveBalance := 32000000000, ExitEpoch := 10 },
             { Validator.fresh with EffectiveBalance := 31000000000, ExitEpoch := 10 }] ++
            { Validator.fresh with EffectiveBalance := 5, ExitEpoch := 10 } ::
            [] }._refreshActiveBalances).1.totalActiveBalanceCache = some second ∧
      second = first + ({ Validator.fresh with EffectiveBalance := 5, ExitEpoch := 1 } :
        Validator).EffectiveBalance :=
  ⟨by decide,
    refresh_after_activation BeaconState.sample (by decide)
      [{ Validator.fresh with EffectiveBalance := 32000000000, ExitEpoch := 10 },
       { Validator.fresh with EffectiveBalance := 31000000000, ExitEpoch := 10 }] []
      { Validator.fresh with EffectiveBalance := 5, ExitEpoch := 1 }
      { Validator.fresh with EffectiveBalance := 5, ExitEpoch := 10 }
      rfl (by decide) (by decide) rfl (by decide) (by decide)⟩

/-! ## Short input of the Merkleization engine -/

/-- C26: on a 3-byte slice `MerkleRootFromLeaves` does not return an error. For every pair
hash: when the slice has no spare capacity, `leaves[0:32]` panics; when its backing array has
29 more bytes, the result is the 3 bytes followed by those 29 bytes beyond the length. -/
theorem MerkleRootFromLeaves_short_input :
    (∀ H, MerkleRootFromLeaves H [1, 2, 3] [] = .error Fault.panic) ∧
    (∀ H, MerkleRootFromLeaves H [1, 2, 3] (List.replicate 29 9)
      = .ok ([1, 2, 3] ++ List.replicate 29 9)) :=
  ⟨fun _ => rfl, fun _ => rfl⟩

/-! ## Construction of the state: the version gate -/

/-- C24: the gate `b.version >= Phase0Version` of `initBeaconState` holds for every version.
On an Altair state that carries one previous-epoch pending attestation of validator 0,
`initBeaconState` returns no error and has set that validator's previous-epoch source flag
and its minimum-inclusion-delay attestation; and when the block-root lookup fails, it
returns the error of the backfill. -/
theorem initBeaconState_backfills_altair :
    BeaconState.altairSource.version = AltairVersion ∧
    BeaconState.altairSource.validators.map
      (fun v => (v.IsPreviousMatchingSourceAttester, v.MinPreviousInclusionDelayAttestation))
      = [(false, none)] ∧
    (BeaconState.altairSource.initBeaconState Env.simple).2 = none ∧
    (BeaconState.altairSource.initBeaconState Env.simple).1.validators.map
      (fun v => (v.IsPreviousMatchingSourceAttester, v.MinPreviousInclusionDelayAttestation))
      = [(true, some PendingAttestation.sample)] ∧
    (BeaconState.altairSource.initBeaconState Env.noBlockRoot).2
      = some (Fault.collaboratorError 1) := by
  decide

/-! ## Copy of the state: slices and maps -/

theorem exs_length {α : Type} (x : List α) (sz : Nat) (zero : α) :
    (exs x sz zero).length = sz := by
  unfold exs
  split
  · rw [List.length_take]; omega
  · split
    · rw [List.length_replicate]
    · omega

theorem copySlice_eq {α : Type} (dst src : List α) (h : dst.length = src.length) :
    copySlice dst src = src := by
  unfold copySlice
  rw [h, List.take_length, ← h, List.drop_length, List.append_nil]

theorem copySlice_exs {α : Type} (x src : List α) (zero : α) :
    copySlice (exs x src.length zero) src = src :=
  copySlice_eq _ _ (exs_length x src.length zero)

/-- An indexed loop over a destination of the length of its source stores the image of every
element. -/
theorem assignEach_append {α β : Type} (f : α → β) (rest : List α) (done todo : List β)
    (h : todo.length = rest.length) :
    assignEach f rest done.length (done ++ todo) = some (done ++ rest.map f) := by
  induction rest generalizing done todo with
  | nil =>
    have : todo = [] := List.eq_nil_of_length_eq_zero (by simpa using h)
    simp [assignEach, this]
  | cons x rest ih =>
    obtain ⟨y, todo, rfl⟩ : ∃ y t, todo = y :: t := by
      cases todo with
      | nil => simp at h
      | cons y t => exact ⟨y, t, rfl⟩
    have hlen : todo.length = rest.length := by simpa using h
    have hset : (done ++ y :: todo).set done.length (f x) = (done ++ [f x]) ++ todo := by
      rw [List.set_append_right _ _ (le_refl _)]
      simp
    rw [assignEach, if_pos (by simp), hset]
    have := ih (done ++ [f x]) todo hlen
    rw [List.length_append, List.length_singleton] at this
    rw [this]
    simp

theorem assignEach_exs {α β : Type} (f : α → β) (src : List α) (x : List β) (zero : β) :
    assignEach f src 0 (exs x src.length zero) = some (src.map f) := by
  have := assignEach_append f src [] (exs x src.length zero) (exs_length _ _ _)
  simpa using this

theorem mapGet_mapDelete {K V : Type} [DecidableEq K] (m : List (K × V)) (k k2 : K) :
    mapGet (mapDelete m k) k2 = if k2 = k then none else mapGet m k2 := by
  induction m with
  | nil => simp [mapDelete, mapGet]
  | cons e m ih =>
    obtain ⟨k1, v1⟩ := e
    unfold mapDelete at ih ⊢
    by_cases h1 : k1 = k
    · subst h1
      rw [List.filter_cons_of_neg (by simp), ih, mapGet]
      by_cases h2 : k2 = k1
      · simp only [if_pos h2]
      · have h3 : ¬ k1 = k2 := fun h => h2 h.symm
        simp only [if_neg h2, if_neg h3]
    · rw [List.filter_cons_of_pos (by simpa using h1), mapGet, mapGet, ih]
      by_cases h2 : k1 = k2
      · have h3 : ¬ k2 = k := fun h => h1 (h2.trans h)
        simp only [if_pos h2, if_neg h3]
      · simp only [if_neg h2]

theorem mapGet_mapSet {K V : Type} [DecidableEq K] (m : List (K × V)) (k k2 : K) (v : V) :
    mapGet (mapSet m k v) k2 = if k2 = k then some v else mapGet m k2 := by
  rw [mapSet, mapGet, mapGet_mapDelete]
  by_cases h : k = k2
  · simp only [if_pos h, if_pos h.symm]
  · have h3 : ¬ k2 = k := fun h2 => h h2.symm
    simp only [if_neg h, if_neg h3]

/-- Deleting the keys of a list of entries from a map leaves the entries of other keys. -/
theorem mapGet_foldl_delete {K V : Type} [DecidableEq K] (l acc : List (K × V)) (k : K) :
    mapGet (l.foldl (fun acc e => mapDelete acc e.1) acc) k
      = if k ∈ l.map (fun e => e.1) then none else mapGet acc k := by
  induction l generalizing acc with
  | nil => simp
  | cons e l ih =>
    rw [List.foldl_cons, ih, mapGet_mapDelete]
    by_cases h1 : k = e.1
    · simp [h1]
    · by_cases h2 : k ∈ l.map (fun e => e.1)
      · simp [h2]
      · simp [h1, h2]

theorem mapGet_none_of_not_mem {K V : Type} [DecidableEq K] (m : List (K × V)) (k : K)
    (h : k ∉ m.map (fun e => e.1)) : mapGet m k = none := by
  induction m with
  | nil => rfl
  | cons e m ih =>
    obtain ⟨k1, v1⟩ := e
    simp only [List.map_cons, List.mem_cons, not_or] at h
    rw [mapGet, if_neg (fun h2 => h.1 (Eq.symm h2)), ih h.2]

/-- The loop that deletes every key of a map leaves no entry. -/
theorem mapGet_mapClear {K V : Type} [DecidableEq K] (m : List (K × V)) (k : K) :
    mapGet (mapClear m) k = none := by
  rw [mapClear, mapGet_foldl_delete]
  split
  · rfl
  · exact mapGet_none_of_not_mem m k (by assumption)

/-- Storing the entries of a map with distinct keys, one by one, gives those entries, and
what the destination held under other keys. -/
theorem mapGet_mapCopyAll {K V : Type} [DecidableEq K] (src dst : List (K × V)) (k : K)
    (hnd : (src.map (fun e => e.1)).Nodup) :
    mapGet (mapCopyAll dst src) k
      = match mapGet src k with
        | some v => some v
        | none => mapGet dst k := by
  unfold mapCopyAll
  induction src generalizing dst with
  | nil => rfl
  | cons e src ih =>
    obtain ⟨k1, v1⟩ := e
    rw [List.map_cons, List.nodup_cons] at hnd
    rw [List.foldl_cons, ih _ hnd.2, mapGet_mapSet, mapGet]
    by_cases h : k1 = k
    · subst h
      rw [mapGet_none_of_not_mem src k1 hnd.1]
      simp
    · have h3 : ¬ k = k1 := fun h2 => h h2.symm
      simp only [if_neg h3, if_neg h]

/-- C22's core: after the synchronisation the map of the target holds exactly the entries of
the map of the source. -/
theorem mapGet_syncMap {K V : Type} [DecidableEq K] (target src : Option (List (K × V)))
    (hnd : ((src.getD []).map (fun e => e.1)).Nodup) :
    ∃ m, syncMap target src = some m ∧ ∀ k, mapGet m k = mapGet (src.getD []) k := by
  refine ⟨_, rfl, fun k => ?_⟩
  rw [mapGet_mapCopyAll _ _ k hnd, mapGet_mapClear]
  cases mapGet (src.getD []) k <;> rfl

/-! ## Frame of the construction -/
theorem initCaches_eq (t : BeaconState) :
    t.initCaches = ({ t with
      activeValidatorsCache := some ⟨5, []⟩
      shuffledSetsCache := some ⟨5, []⟩
      committeeCache := some ⟨256, []⟩ }, none) := by
  rfl

theorem markPreviousOne_core (a : PendingAttestation) (r sr : Bytes) (v : Validator) :
    (markPreviousOne a r sr v).core = v.core := by
  unfold markPreviousOne Validator.core
  simp only []
  split_ifs <;> rfl

theorem markCurrentOne_core (a : PendingAttestation) (r sr : Bytes) (v : Validator) :
    (markCurrentOne a r sr v).core = v.core := by
  unfold markCurrentOne Validator.core
  simp only []
  split_ifs <;> rfl

theorem map_core_set (vals : List Validator) (i : Nat) (v w : Validator)
    (hv : vals.get? i = some v) (hw : w.core = v.core) :
    (vals.set i w).map Validator.core = vals.map Validator.core := by
  rw [List.map_set, hw]
  apply List.ext_getElem?
  intro j
  rw [List.getElem?_set]
  split
  · rename_i h
    subst h
    rw [List.get?_eq_getElem?] at hv
    split
    · rw [List.getElem?_map, hv]; rfl
    · rename_i h2
      rw [List.length_map] at h2
      rw [List.getElem?_map, List.getElem?_eq_none (by omega)]; rfl
  · rfl

theorem markPrevious_core (a : PendingAttestation) (r sr : Bytes) (idx : List Nat)
    (vals : List Validator) :
    (markPrevious a r sr idx vals).1.map Validator.core = vals.map Validator.core := by
  induction idx generalizing vals with
  | nil => rfl
  | cons i rest ih =>
    rw [markPrevious]
    cases h : vals.get? i with
    | none => rfl
    | some v =>
      simp only []
      rw [ih, map_core_set vals i v _ h (markPreviousOne_core a r sr v)]

theorem markCurrent_core (a : PendingAttestation) (r sr : Bytes) (idx : List Nat)
    (vals : List Validator) :
    (markCurrent a r sr idx vals).1.map Validator.core = vals.map Validator.core := by
  induction idx generalizing vals with
  | nil => rfl
  | cons i rest ih =>
    rw [markCurrent]
    cases h : vals.get? i with
    | none => rfl
    | some v =>
      simp only []
      rw [ih, map_core_set vals i v _ h (markCurrentOne_core a r sr v)]

/-- The loop over the previous-epoch attestations writes to the validators only, and only
to their marks. -/
theorem previousLoop_frame (E : Env) (r : Bytes) (atts : List PendingAttestation)
    (s : BeaconState) :
    ∃ vals, (previousLoop E r atts s).1 = { s with validators := vals } ∧
      vals.map Validator.core = s.validators.map Validator.core := by
  induction atts generalizing s with
  | nil => exact ⟨s.validators, rfl, rfl⟩
  | cons a rest ih =>
    rw [previousLoop]
    cases E.GetBlockRootAtSlot s a.Data.Slot with
    | error e => exact ⟨s.validators, rfl, rfl⟩
    | ok slotRoot =>
      simp only []
      cases E.GetAttestingIndicies s a.Data a.AggregationBits false with
      | error e => exact ⟨s.validators, rfl, rfl⟩
      | ok indicies =>
        simp only []
        have hc := markPrevious_core a r slotRoot indicies s.validators
        rcases hm : markPrevious a r slotRoot indicies s.validators with ⟨vals, err⟩
        rw [hm] at hc
        cases err with
        | some e => exact ⟨vals, rfl, hc⟩
        | none =>
          simp only []
          obtain ⟨vals2, h1, h2⟩ := ih { s with validators := vals }
          exact ⟨vals2, by rw [h1], by rw [h2]; exact hc⟩

/-- The loop over the current-epoch attestations writes to the validators only, and only to
their marks. -/
theorem currentLoop_frame (E : Env) (r : Bytes) (atts : List PendingAttestation)
    (s : BeaconState) :
    ∃ vals, (currentLoop E r atts s).1 = { s with validators := vals } ∧
      vals.map Validator.core = s.validators.map Validator.core := by
  induction atts generalizing s with
  | nil => exact ⟨s.validators, rfl, rfl⟩
  | cons a rest ih =>
    rw [currentLoop]
    cases E.GetBlockRootAtSlot s a.Data.Slot with
    | error e => exact ⟨s.validators, rfl, rfl⟩
    | ok slotRoot =>
      simp only []
      cases E.GetAttestingIndicies s a.Data a.AggregationBits false with
      | error e => exact ⟨s.validators, rfl, rfl⟩
      | ok indicies =>
        simp only []
        have hc := markCurrent_core a r slotRoot indicies s.validators
        rcases hm : markCurrent a r slotRoot indicies s.validators with ⟨vals, err⟩
        rw [hm] at hc
        cases err with
        | some e => exact ⟨vals, rfl, hc⟩
        | none =>
          simp only []
          obtain ⟨vals2, h1, h2⟩ := ih { s with validators := vals }
          exact ⟨vals2, by rw [h1], by rw [h2]; exact hc⟩

theorem initializeCurrent_frame (E : Env) (s : BeaconState) :
    ∃ vals, (s.initializeCurrent E).1 = { s with validators := vals } ∧
      vals.map Validator.core = s.validators.map Validator.core := by
  unfold BeaconState.initializeCurrent
  split
  · exact ⟨s.validators, rfl, rfl⟩
  · cases s.Epoch with
    | none => exact ⟨s.validators, rfl, rfl⟩
    | some epoch =>
      simp only []
      cases s.GetBlockRoot E epoch with
      | error e => exact ⟨s.validators, rfl, rfl⟩
      | ok root => exact currentLoop_frame E root _ s

/-- The backfill writes to the validators only, and only to their marks. -/
theorem initializeValidatorsPhase0_frame (E : Env) (s : BeaconState) :
    ∃ vals, (s._initializeValidatorsPhase0 E).1 = { s with validators := vals } ∧
      vals.map Validator.core = s.validators.map Validator.core := by
  unfold BeaconState._initializeValidatorsPhase0
  split
  · exact ⟨s.validators, rfl, rfl⟩
  · cases s.PreviousEpoch with
    | none => exact ⟨s.validators, rfl, rfl⟩
    | some pe =>
      simp only []
      cases s.GetBlockRoot E pe with
      | error e => exact ⟨s.validators, rfl, rfl⟩
      | ok root =>
        simp only []
        obtain ⟨vals, h1, h2⟩ := previousLoop_frame E root s.previousEpochAttestations s
        unfold andThen
        cases herr : (previousLoop E root s.previousEpochAttestations s).2 with
        | some e => exact ⟨vals, h1, h2⟩
        | none =>
          simp only []
          obtain ⟨vals2, h3, h4⟩ := initializeCurrent_frame E
            (previousLoop E root s.previousEpochAttestations s).1
          refine ⟨vals2, ?_, ?_⟩
          · rw [h3, h1]
          · rw [h4, h1]; exact h2

theorem refreshActiveBalances_frame (b : BeaconState) :
    ∃ ta tr, b._refreshActiveBalances.1
      = { b with totalActiveBalanceCache := ta, totalActiveBalanceRootCache := tr } := by
  unfold BeaconState._refreshActiveBalances
  cases b.Epoch with
  | none => exact ⟨_, _, rfl⟩
  | some epoch => exact ⟨_, _, rfl⟩

theorem updateProposerIndex_frame (E : Env) (b : BeaconState) :
    ∃ pi, (b._updateProposerIndex E).1 = { b with proposerIndex := pi } := by
  unfold BeaconState._updateProposerIndex
  cases b.Epoch with
  | none => exact ⟨_, rfl⟩
  | some epoch =>
    simp only []
    split
    · exact ⟨_, rfl⟩
    · exact ⟨_, rfl⟩

/-- What `initBeaconState` leaves alone: every field but the derived ones and the marks of
the validators; the touched-leaf map is only made when it is `nil`. -/
theorem initBeaconState_frame (E : Env) (t : BeaconState) :
    (t.initBeaconState E).1.eraseDerived
      = { t with
          touchedLeaves := if t.touchedLeaves.isNone then some [] else t.touchedLeaves
        }.eraseDerived := by
  unfold BeaconState.initBeaconState
  simp only []
  generalize ht0 : (if t.touchedLeaves.isNone = true then
    { t with touchedLeaves := some [] } else t) = t0
  have ht0e : t0 = { t with
      touchedLeaves := if t.touchedLeaves.isNone then some [] else t.touchedLeaves } := by
    rw [← ht0]; split <;> simp_all
  obtain ⟨ta, tr, h1⟩ := refreshActiveBalances_frame { t0 with publicKeyIndicies := some [] }
  generalize hs1 : BeaconState._refreshActiveBalances { t0 with publicKeyIndicies := some [] }
    = r1 at h1
  unfold andThen
  rcases r1 with ⟨s1, e1⟩
  simp only [] at h1
  cases e1 with
  | some e =>
    simp only []
    rw [h1, ht0e]; rfl
  | none =>
    simp only []
    obtain ⟨pi, h2⟩ := updateProposerIndex_frame E
      (BeaconState.initCaches
        { s1 with publicKeyIndicies := some (indexPublicKeys s1.validators 0 []) }).1
    generalize hs2 : BeaconState._updateProposerIndex E
      (BeaconState.initCaches
        { s1 with publicKeyIndicies := some (indexPublicKeys s1.validators 0 []) }).1 = r2 at h2
    rcases r2 with ⟨s2, e2⟩
    simp only [] at h2
    rw [initCaches_eq] at h2
    simp only [] at h2
    cases e2 with
    | some e =>
      simp only []
      rw [h2, h1, ht0e]; rfl
    | none =>
      simp only []
      rw [if_pos (show s2.version ≥ Phase0Version from Nat.zero_le _)]
      obtain ⟨vals, h3, h4⟩ := initializeValidatorsPhase0_frame E s2
      rw [h3]
      rw [h2, h1, ht0e] at h4 ⊢
      simp only [BeaconState.eraseDerived] at h4 ⊢
      rw [h4]


/-! ## Copy of the state -/

theorem map_deepCopy {α : Type} (l : List α) : l.map deepCopy = l := by
  have : (deepCopy : α → α) = id := rfl
  rw [this, List.map_id]

theorem copyCaches_frame (b t : BeaconState) :
    ∃ a sh c ta tr, (b.copyCaches t).1 = { t with
      activeValidatorsCache := a, shuffledSetsCache := sh, committeeCache := c,
      totalActiveBalanceCache := ta, totalActiveBalanceRootCache := tr } := by
  unfold BeaconState.copyCaches
  rw [initCaches_eq]
  simp only [andThen]
  cases b.activeValidatorsCache <;> cases b.shuffledSetsCache <;> cases b.committeeCache <;>
    exact ⟨_, _, _, _, _, rfl⟩

theorem derefAll_map_some (l : List Validator) : derefAll (l.map some) = some l := by
  induction l with
  | nil => rfl
  | cons v rest ih => simp [derefAll, ih]

/-- The loop over the validators on a slice of pointers none of which is `nil` and which is
as long as the source: every pointee receives the validator of the source. -/
theorem copyValidators_append (rest : List Validator) (done : List (Option Validator))
    (todo : List Validator) (h : todo.length = rest.length) :
    copyValidators rest done.length (done ++ todo.map some)
      = some (done ++ rest.map some) := by
  induction rest generalizing done todo with
  | nil =>
    have : todo = [] := List.eq_nil_of_length_eq_zero (by simpa using h)
    simp [copyValidators, this]
  | cons x rest ih =>
    obtain ⟨y, todo, rfl⟩ : ∃ y t, todo = y :: t := by
      cases todo with
      | nil => simp at h
      | cons y t => exact ⟨y, t, rfl⟩
    have hlen : todo.length = rest.length := by simpa using h
    have hget : (done ++ List.map some (y :: todo)).get? done.length = some (some y) := by
      rw [List.get?_eq_getElem?, List.getElem?_append_right (le_refl _)]
      simp
    have hset : (done ++ List.map some (y :: todo)).set done.length (some x)
        = (done ++ [some x]) ++ todo.map some := by
      rw [List.set_append_right _ _ (le_refl _)]
      simp
    rw [copyValidators, hget]
    simp only [Validator.CopyInto, deepCopy]
    rw [hset]
    have := ih (done ++ [some x]) todo hlen
    rw [List.length_append, List.length_singleton] at this
    rw [this]
    simp

/-- The loop over the validators succeeds on a target with at least as many validators as
the source, and the target then holds the validators of the source. -/
theorem copyValidators_exs (src tgt : List Validator) (hlen : src.length ≤ tgt.length) :
    (copyValidators src 0 (exs (tgt.map some) src.length none)).bind derefAll = some src := by
  have hexs : exs (tgt.map some) src.length none = (tgt.take src.length).map some := by
    unfold exs
    rw [List.length_map]
    split
    · rw [List.map_take]
    · rw [if_neg (by omega)]
      have : tgt.length = src.length := by omega
      rw [← this, List.take_length]
  rw [hexs]
  have := copyValidators_append src [] (tgt.take src.length)
    (by rw [List.length_take]; omega)
  simp only [List.length_nil, List.nil_append] at this
  rw [this]
  exact derefAll_map_some src

/-- The loop over the validators panics on a target with fewer validators than the source:
the slice that `exs` makes holds `nil` pointers only. -/
theorem copyValidators_short (src tgt : List Validator) (hlt : tgt.length < src.length) :
    copyValidators src 0 (exs (tgt.map some) src.length none) = none := by
  have hexs : exs (tgt.map some) src.length none = List.replicate src.length none := by
    unfold exs
    rw [List.length_map, if_neg (by omega), if_pos hlt]
  rw [hexs]
  cases src with
  | nil => simp at hlt
  | cons v rest => simp [copyValidators, List.replicate_succ, Validator.CopyInto]

/-- Copy of the state: on a target with at least as many validators as the source, the
statements before the test of the version do not fail, and store the fields of the
source. -/
theorem copyCommon_eq (b t : BeaconState) (hlen : b.validators.length ≤ t.validators.length) :
    b.copyCommon t = ({ t with
      genesisTime := b.genesisTime
      genesisValidatorsRoot := b.genesisValidatorsRoot
      slot := b.slot
      fork := b.fork
      latestBlockHeader := b.latestBlockHeader
      blockRoots := copySlice t.blockRoots b.blockRoots
      stateRoots := copySlice t.stateRoots b.stateRoots
      historicalRoots := b.historicalRoots
      eth1Data := b.eth1Data
      eth1DataVotes := b.eth1DataVotes
      eth1DepositIndex := b.eth1DepositIndex
      validators := b.validators
      balances := b.balances
      randaoMixes := copySlice t.randaoMixes b.randaoMixes
      slashings := copySlice t.slashings b.slashings
      previousEpochParticipation := b.previousEpochParticipation
      currentEpochParticipation := b.currentEpochParticipation
      finalizedCheckpoint := b.finalizedCheckpoint
      currentJustifiedCheckpoint := b.currentJustifiedCheckpoint
      previousJustifiedCheckpoint := b.previousJustifiedCheckpoint }, none) := by
  unfold BeaconState.copyCommon
  rw [assignEach_exs, copyValidators_exs _ _ hlen]
  simp only [copySlice_exs, map_deepCopy]
  rfl

/-- Copy of the state: on a target with fewer validators than the source, the statements
before the test of the version panic. -/
theorem copyCommon_short (b t : BeaconState) (hlt : t.validators.length < b.validators.length) :
    b.copyCommon t = (t, some Fault.panic) := by
  unfold BeaconState.copyCommon
  rw [assignEach_exs, copyValidators_short _ _ hlt]
  rfl

/-- The state that `New` returns is the one that `initBeaconState` leaves. -/
theorem New_fst (E : Env) (cfg : BeaconChainConfig) :
    (BeaconState.New E cfg).1 = ((BeaconState.zero cfg).initBeaconState E).1 := by
  unfold BeaconState.New
  split
  · rename_i h
    rw [h]
  · rename_i h
    rw [h]

/-- The method `Copy` panics on every state that has a validator: the target of `New` has
none. -/
theorem Copy_panics (E : Env) (b : BeaconState) (hne : b.validators ≠ []) :
    (b.Copy E).2 ≠ none := by
  unfold BeaconState.Copy andThen
  cases hN : (BeaconState.New E b.beaconConfig).2 with
  | some e => simp
  | none =>
    simp only []
    have hv : (BeaconState.New E b.beaconConfig).1.validators = [] := by
      have hf := initBeaconState_frame E (BeaconState.zero b.beaconConfig)
      have g := congrArg BeaconState.validators hf
      have g2 : ((BeaconState.zero b.beaconConfig).initBeaconState E).1.validators.map
          Validator.core = [] := g
      have g3 : ((BeaconState.zero b.beaconConfig).initBeaconState E).1.validators = [] :=
        List.map_eq_nil_iff.1 g2
      rw [New_fst]
      exact g3
    unfold BeaconState.CopyInto
    rw [copyCommon_short b _ (by
      rw [hv]
      exact List.length_pos.2 hne)]
    simp [andThen]

/-- Copy of the state: what the statements after the test of the version store, whatever the
cache part does. -/
theorem copyLater_frame (b t : BeaconState) :
    ∃ a sh c ta tr, (b.copyLater t).1 = { t with
      currentSyncCommittee := b.currentSyncCommittee
      nextSyncCommittee := b.nextSyncCommittee
      inactivityScores := b.inactivityScores
      justificationBits := b.justificationBits
      latestExecutionPayloadHeader :=
        if b.version ≥ BellatrixVersion then b.latestExecutionPayloadHeader
        else t.latestExecutionPayloadHeader
      nextWithdrawalIndex := b.nextWithdrawalIndex
      nextWithdrawalValidatorIndex := b.nextWithdrawalValidatorIndex
      historicalSummaries := b.historicalSummaries
      version := b.version
      leaves := copySlice t.leaves b.leaves
      touchedLeaves := syncMap t.touchedLeaves b.touchedLeaves
      publicKeyIndicies := syncMap t.publicKeyIndicies b.publicKeyIndicies
      activeValidatorsCache := a
      shuffledSetsCache := sh
      committeeCache := c
      totalActiveBalanceCache := ta
      totalActiveBalanceRootCache := tr } := by
  unfold BeaconState.copyLater
  rw [assignEach_exs]
  have hid : List.map (fun x : Bytes × Bytes => (x.1, x.2)) b.historicalSummaries
      = b.historicalSummaries := List.map_id' _
  simp only [copySlice_exs, hid]
  obtain ⟨a, sh, c, ta, tr, h⟩ := copyCaches_frame b { t with
      currentSyncCommittee := b.currentSyncCommittee
      nextSyncCommittee := b.nextSyncCommittee
      inactivityScores := b.inactivityScores
      justificationBits := b.justificationBits
      latestExecutionPayloadHeader :=
        if b.version ≥ BellatrixVersion then b.latestExecutionPayloadHeader
        else t.latestExecutionPayloadHeader
      nextWithdrawalIndex := b.nextWithdrawalIndex
      nextWithdrawalValidatorIndex := b.nextWithdrawalValidatorIndex
      historicalSummaries := b.historicalSummaries
      version := b.version
      leaves := copySlice t.leaves b.leaves
      touchedLeaves := syncMap t.touchedLeaves b.touchedLeaves
      publicKeyIndicies := syncMap t.publicKeyIndicies b.publicKeyIndicies }
  exact ⟨a, sh, c, ta, tr, h⟩


theorem initBeaconState_WF (E : Env) (t : BeaconState) (ht : t.WF) :
    (t.initBeaconState E).1.WF := by
  have hf := initBeaconState_frame E t
  have h1 : (t.initBeaconState E).1.blockRoots = t.blockRoots := by
    have h := congrArg BeaconState.blockRoots hf
    exact h
  have h2 : (t.initBeaconState E).1.stateRoots = t.stateRoots := by
    have h := congrArg BeaconState.stateRoots hf
    exact h
  have h3 : (t.initBeaconState E).1.randaoMixes = t.randaoMixes := by
    have h := congrArg BeaconState.randaoMixes hf
    exact h
  have h4 : (t.initBeaconState E).1.slashings = t.slashings := by
    have h := congrArg BeaconState.slashings hf
    exact h
  have h5 : (t.initBeaconState E).1.leaves = t.leaves := by
    have h := congrArg BeaconState.leaves hf
    exact h
  unfold BeaconState.WF
  rw [h1, h2, h3, h4, h5]
  exact ht

theorem zero_WF (cfg : BeaconChainConfig) : (BeaconState.zero cfg).WF := by
  simp [BeaconState.WF, BeaconState.zero]

theorem New_WF (E : Env) (cfg : BeaconChainConfig) : (BeaconState.New E cfg).1.WF := by
  rw [New_fst]
  exact initBeaconState_WF E _ (zero_WF cfg)

theorem usedTarget_WF : BeaconState.usedTarget.WF := by
  have h : BeaconState.freshTarget.WF := New_WF Env.simple BeaconChainConfig.sample
  exact h

theorem phase0Source_WF : BeaconState.phase0Source.WF := by
  simp [BeaconState.WF, BeaconState.phase0Source, BeaconState.zero, BeaconState.initCaches,
    lruNew]

theorem altairLive_WF : BeaconState.altairLive.WF := phase0Source_WF

/-- The path of `CopyInto` for a source that is not Phase0, on a target with at least as many
validators as the source: the touched-leaf map of the target is allocated and holds under
every key what the map of the source holds. The keys of a map are distinct. -/
theorem CopyInto_touchedLeaves (E : Env) (b t : BeaconState)
    (hv : b.version ≠ Phase0Version)
    (hlen : b.validators.length ≤ t.validators.length)
    (hnd : ((b.touchedLeaves.getD []).map (fun e => e.1)).Nodup) :
    ∃ m, (b.CopyInto E t).1.touchedLeaves = some m ∧
      ∀ k, mapGet m k = mapGet (b.touchedLeaves.getD []) k := by
  unfold BeaconState.CopyInto
  rw [copyCommon_eq b t hlen]
  simp only [andThen, if_neg hv]
  obtain ⟨a, sh, c, ta, tr, h⟩ := copyLater_frame b { t with
      genesisTime := b.genesisTime
      genesisValidatorsRoot := b.genesisValidatorsRoot
      slot := b.slot
      fork := b.fork
      latestBlockHeader := b.latestBlockHeader
      blockRoots := copySlice t.blockRoots b.blockRoots
      stateRoots := copySlice t.stateRoots b.stateRoots
      historicalRoots := b.historicalRoots
      eth1Data := b.eth1Data
      eth1DataVotes := b.eth1DataVotes
      eth1DepositIndex := b.eth1DepositIndex
      validators := b.validators
      balances := b.balances
      randaoMixes := copySlice t.randaoMixes b.randaoMixes
      slashings := copySlice t.slashings b.slashings
      previousEpochParticipation := b.previousEpochParticipation
      currentEpochParticipation := b.currentEpochParticipation
      finalizedCheckpoint := b.finalizedCheckpoint
      currentJustifiedCheckpoint := b.currentJustifiedCheckpoint
      previousJustifiedCheckpoint := b.previousJustifiedCheckpoint }
  rw [h]
  obtain ⟨m, hm, hk⟩ := mapGet_syncMap t.touchedLeaves b.touchedLeaves hnd
  exact ⟨m, hm, hk⟩

theorem CopyInto_touchedLeaves_witness :
    ∃ m, (BeaconState.altairLive.CopyInto Env.live BeaconState.usedTarget).1.touchedLeaves
        = some m ∧
      ∀ k, mapGet m k = mapGet (BeaconState.altairLive.touchedLeaves.getD []) k :=
  CopyInto_touchedLeaves Env.live BeaconState.altairLive BeaconState.usedTarget
    (by decide) (by decide) (by decide)

/-- C22: `CopyInto` returns through `target.initBeaconState()` for a Phase0 source, before
the statements that synchronise the touched-leaf map. Copying the Phase0 state `phase0Live`,
whose map holds leaf 3, into the target `usedTarget`, whose map holds the stale leaf 5,
returns no error; the map of the target then does not hold leaf 3 and still holds leaf 5.
Copying the Altair twin of the source into the same target, which takes the other path,
leaves the map of the target equal to that of the source. -/
theorem CopyInto_phase0_drops_touched_leaf :
    BeaconState.phase0Live.version = Phase0Version ∧
    BeaconState.phase0Live.touchedLeaves = some [(3, true)] ∧
    BeaconState.usedTarget.touchedLeaves = some [(5, true)] ∧
    (BeaconState.phase0Live.CopyInto Env.live BeaconState.usedTarget).2 = none ∧
    mapGet ((BeaconState.phase0Live.CopyInto Env.live
      BeaconState.usedTarget).1.touchedLeaves.getD []) 3 = none ∧
    mapGet ((BeaconState.phase0Live.CopyInto Env.live
      BeaconState.usedTarget).1.touchedLeaves.getD []) 5 = some true ∧
    (BeaconState.altairLive.CopyInto Env.live BeaconState.usedTarget).2 = none ∧
    (BeaconState.altairLive.CopyInto Env.live BeaconState.usedTarget).1.touchedLeaves
      = some [(3, true)] := by
  decide

/-- What `CopyInto` stores in a target with at least as many validators as the source `b`:
the fields assigned before the test of the version have in the target the value they have in
`b`, each validator up to the attester marks that the construction recomputes; and when the
version of `b` is not Phase0 the validators with their marks, the sync committees, the
inactivity scores, the justification bits, the withdrawal indices, the historical summaries,
the version and the leaves have the value they have in `b` too, as has the execution payload
header from Bellatrix on. -/
theorem CopyInto_copies_fields (E : Env) (b t r : BeaconState) (hb : b.WF) (ht : t.WF)
    (hlen : b.validators.length ≤ t.validators.length)
    (hr : r = (b.CopyInto E t).1) :
    (r.genesisTime = b.genesisTime ∧
     r.genesisValidatorsRoot = b.genesisValidatorsRoot ∧
     r.slot = b.slot ∧
     r.fork = b.fork ∧
     r.latestBlockHeader = b.latestBlockHeader ∧
     r.blockRoots = b.blockRoots ∧
     r.stateRoots = b.stateRoots ∧
     r.historicalRoots = b.historicalRoots ∧
     r.eth1Data = b.eth1Data ∧
     r.eth1DataVotes = b.eth1DataVotes ∧
     r.eth1DepositIndex = b.eth1DepositIndex ∧
     r.balances = b.balances ∧
     r.randaoMixes = b.randaoMixes ∧
     r.slashings = b.slashings ∧
     r.previousEpochParticipation = b.previousEpochParticipation ∧
     r.currentEpochParticipation = b.currentEpochParticipation ∧
     r.finalizedCheckpoint = b.finalizedCheckpoint ∧
     r.currentJustifiedCheckpoint = b.currentJustifiedCheckpoint ∧
     r.previousJustifiedCheckpoint = b.previousJustifiedCheckpoint ∧
     r.validators.map Validator.core = b.validators.map Validator.core) ∧
    (b.version ≠ Phase0Version →
      r.validators = b.validators ∧
      r.currentSyncCommittee = b.currentSyncCommittee ∧
      r.nextSyncCommittee = b.nextSyncCommittee ∧
      r.inactivityScores = b.inactivityScores ∧
      r.justificationBits = b.justificationBits ∧
      r.nextWithdrawalIndex = b.nextWithdrawalIndex ∧
      r.nextWithdrawalValidatorIndex = b.nextWithdrawalValidatorIndex ∧
      r.historicalSummaries = b.historicalSummaries ∧
      r.version = b.version ∧
      r.leaves = b.leaves ∧
      (b.version ≥ BellatrixVersion →
        r.latestExecutionPayloadHeader = b.latestExecutionPayloadHeader)) := by
  subst hr
  obtain ⟨hb1, hb2, hb3, hb4, hb5⟩ := hb
  obtain ⟨ht1, ht2, ht3, ht4, ht5⟩ := ht
  have e1 : copySlice t.blockRoots b.blockRoots = b.blockRoots :=
    copySlice_eq _ _ (ht1.trans hb1.symm)
  have e2 : copySlice t.stateRoots b.stateRoots = b.stateRoots :=
    copySlice_eq _ _ (ht2.trans hb2.symm)
  have e3 : copySlice t.randaoMixes b.randaoMixes = b.randaoMixes :=
    copySlice_eq _ _ (ht3.trans hb3.symm)
  have e4 : copySlice t.slashings b.slashings = b.slashings :=
    copySlice_eq _ _ (ht4.trans hb4.symm)
  have e5 : copySlice t.leaves b.leaves = b.leaves :=
    copySlice_eq _ _ (ht5.trans hb5.symm)
  unfold BeaconState.CopyInto
  rw [copyCommon_eq b t hlen, e1, e2, e3, e4]
  simp only [andThen]
  by_cases hv : b.version = Phase0Version
  · rw [if_pos hv]
    have hf := initBeaconState_frame E { t with
      genesisTime := b.genesisTime
      genesisValidatorsRoot := b.genesisValidatorsRoot
      slot := b.slot
      fork := b.fork
      latestBlockHeader := b.latestBlockHeader
      blockRoots := b.blockRoots
      stateRoots := b.stateRoots
      historicalRoots := b.historicalRoots
      eth1Data := b.eth1Data
      eth1DataVotes := b.eth1DataVotes
      eth1DepositIndex := b.eth1DepositIndex
      validators := b.validators
      balances := b.balances
      randaoMixes := b.randaoMixes
      slashings := b.slashings
      previousEpochParticipation := b.previousEpochParticipation
      currentEpochParticipation := b.currentEpochParticipation
      finalizedCheckpoint := b.finalizedCheckpoint
      currentJustifiedCheckpoint := b.currentJustifiedCheckpoint
      previousJustifiedCheckpoint := b.previousJustifiedCheckpoint }
    have g0 := congrArg BeaconState.genesisTime hf
    have g1 := congrArg BeaconState.genesisValidatorsRoot hf
    have g2 := congrArg BeaconState.slot hf
    have g3 := congrArg BeaconState.fork hf
    have g4 := congrArg BeaconState.latestBlockHeader hf
    have g5 := congrArg BeaconState.blockRoots hf
    have g6 := congrArg BeaconState.stateRoots hf
    have g7 := congrArg BeaconState.historicalRoots hf
    have g8 := congrArg BeaconState.eth1Data hf
    have g9 := congrArg BeaconState.eth1DataVotes hf
    have g10 := congrArg BeaconState.eth1DepositIndex hf
    have g11 := congrArg BeaconState.balances hf
    have g12 := congrArg BeaconState.randaoMixes hf
    have g13 := congrArg BeaconState.slashings hf
    have g14 := congrArg BeaconState.previousEpochParticipation hf
    have g15 := congrArg BeaconState.currentEpochParticipation hf
    have g16 := congrArg BeaconState.finalizedCheckpoint hf
    have g17 := congrArg BeaconState.currentJustifiedCheckpoint hf
    have g18 := congrArg BeaconState.previousJustifiedCheckpoint hf
    have g19 := congrArg BeaconState.validators hf
    exact ⟨⟨g0, g1, g2, g3, g4, g5, g6, g7, g8, g9, g10, g11, g12, g13, g14, g15, g16, g17, g18, g19⟩,
      fun h => absurd hv h⟩
  · rw [if_neg hv]
    obtain ⟨a, sh, c, ta, tr, h⟩ := copyLater_frame b { t with
      genesisTime := b.genesisTime
      genesisValidatorsRoot := b.genesisValidatorsRoot
      slot := b.slot
      fork := b.fork
      latestBlockHeader := b.latestBlockHeader
      blockRoots := b.blockRoots
      stateRoots := b.stateRoots
      historicalRoots := b.historicalRoots
      eth1Data := b.eth1Data
      eth1DataVotes := b.eth1DataVotes
      eth1DepositIndex := b.eth1DepositIndex
      validators := b.validators
      balances := b.balances
      randaoMixes := b.randaoMixes
      slashings := b.slashings
      previousEpochParticipation := b.previousEpochParticipation
      currentEpochParticipation := b.currentEpochParticipation
      finalizedCheckpoint := b.finalizedCheckpoint
      currentJustifiedCheckpoint := b.currentJustifiedCheckpoint
      previousJustifiedCheckpoint := b.previousJustifiedCheckpoint }
    rw [h]
    refine ⟨⟨rfl, rfl, rfl, rfl, rfl, rfl, rfl, rfl, rfl, rfl, rfl, rfl, rfl, rfl, rfl, rfl,
      rfl, rfl, rfl, rfl⟩, fun _ => ⟨rfl, rfl, rfl, rfl, rfl, rfl, rfl, rfl, rfl, e5,
      fun hbel => ?_⟩⟩
    exact if_pos hbel

theorem CopyInto_copies_fields_witness :
    (BeaconState.altairLive.CopyInto Env.live BeaconState.usedTarget).1.slot = 64 ∧
    (BeaconState.altairLive.CopyInto Env.live BeaconState.usedTarget).1.validators
      = [Validator.activated] ∧
    (BeaconState.altairLive.CopyInto Env.live BeaconState.usedTarget).1.justificationBits
      = [1] ∧
    (BeaconState.altairLive.CopyInto Env.live BeaconState.usedTarget).1.version
      = AltairVersion :=
  have h := CopyInto_copies_fields Env.live BeaconState.altairLive BeaconState.usedTarget
    (BeaconState.altairLive.CopyInto Env.live BeaconState.usedTarget).1 altairLive_WF
    usedTarget_WF (by decide) rfl
  ⟨h.1.2.2.1, (h.2 (by decide)).1, (h.2 (by decide)).2.2.2.2.1,
    (h.2 (by decide)).2.2.2.2.2.2.2.2.1⟩

/-- C23: `CopyInto` returns through `target.initBeaconState()` for a Phase0 source before it
assigns the justification bits and the version, and no statement of it assigns the lists of
pending attestations. Copying the Phase0 state `phase0Live` into the target `usedTarget`
returns no error and leaves the target with empty justification bits where the source has
`[1]`, with the version of Altair where the source has that of Phase0, and without the
previous-epoch pending attestation of the source. Copying the Altair twin of the source,
which takes the other path, stores the justification bits and the version, and not the
pending attestation either. -/
theorem CopyInto_skips_fields :
    (BeaconState.phase0Live.CopyInto Env.live BeaconState.usedTarget).2 = none ∧
    BeaconState.phase0Live.justificationBits = [1] ∧
    (BeaconState.phase0Live.CopyInto Env.live BeaconState.usedTarget).1.justificationBits
      = [] ∧
    BeaconState.phase0Live.version = Phase0Version ∧
    (BeaconState.phase0Live.CopyInto Env.live BeaconState.usedTarget).1.version
      = AltairVersion ∧
    BeaconState.phase0Live.previousEpochAttestations = [PendingAttestation.sample] ∧
    (BeaconState.phase0Live.CopyInto Env.live
      BeaconState.usedTarget).1.previousEpochAttestations = [] ∧
    (BeaconState.altairLive.CopyInto Env.live BeaconState.usedTarget).2 = none ∧
    (BeaconState.altairLive.CopyInto Env.live BeaconState.usedTarget).1.justificationBits
      = [1] ∧
    (BeaconState.altairLive.CopyInto Env.live BeaconState.usedTarget).1.version
      = AltairVersion ∧
    BeaconState.altairLive.previousEpochAttestations = [PendingAttestation.sample] ∧
    (BeaconState.altairLive.CopyInto Env.live
      BeaconState.usedTarget).1.previousEpochAttestations = [] := by
  decide

/-! ## The marks of the previous-epoch attesters -/

theorem recordMin_idem (c : Option PendingAttestation) (a : PendingAttestation) :
    recordMin (recordMin c a) a = recordMin c a := by
  unfold recordMin
  cases c with
  | none => simp
  | some m =>
    by_cases h : m.InclusionDelay > a.InclusionDelay
    · simp [h]
    · simp [h]

theorem markPreviousOne_min (a : PendingAttestation) (pr sr : Bytes) (v : Validator) :
    (markPreviousOne a pr sr v).MinPreviousInclusionDelayAttestation
        = recordMin v.MinPreviousInclusionDelayAttestation a ∧
      (markPreviousOne a pr sr v).IsPreviousMatchingSourceAttester = true := by
  unfold markPreviousOne recordMin
  simp only []
  split_ifs <;> exact ⟨rfl, rfl⟩

theorem markCurrentOne_previous (a : PendingAttestation) (cr sr : Bytes) (v : Validator) :
    (markCurrentOne a cr sr v).MinPreviousInclusionDelayAttestation
        = v.MinPreviousInclusionDelayAttestation ∧
      (markCurrentOne a cr sr v).IsPreviousMatchingSourceAttester
        = v.IsPreviousMatchingSourceAttester := by
  unfold markCurrentOne
  simp only []
  split_ifs <;> exact ⟨rfl, rfl⟩

theorem get?_set_self {α : Type} (l : List α) (i : Nat) (v w : α) (h : l.get? i = some v) :
    (l.set i w).get? i = some w := by
  rw [List.get?_eq_getElem?] at h ⊢
  have hlt : i < l.length := by
    by_contra hc
    rw [List.getElem?_eq_none (by omega)] at h
    cases h
  rw [List.getElem?_set_self hlt]

theorem get?_set_other {α : Type} (l : List α) (i j : Nat) (w : α) (h : i ≠ j) :
    (l.set i w).get? j = l.get? j := by
  rw [List.get?_eq_getElem?, List.get?_eq_getElem?, List.getElem?_set_ne h]

/-- One run of the loop over `indicies` of the previous-epoch part that ends without a
panic: the validators at the other indices are as before, and the one at a visited index has
its mark of source attester set and its recorded attestation updated once. -/
theorem markPrevious_get (a : PendingAttestation) (pr sr : Bytes) (idx : List Nat)
    (vals vals2 : List Validator) (h : markPrevious a pr sr idx vals = (vals2, none))
    (i : Nat) :
    (i ∉ idx → vals2.get? i = vals.get? i) ∧
    (i ∈ idx → ∃ v w, vals.get? i = some v ∧ vals2.get? i = some w ∧
      w.MinPreviousInclusionDelayAttestation
        = recordMin v.MinPreviousInclusionDelayAttestation a ∧
      w.IsPreviousMatchingSourceAttester = true) := by
  induction idx generalizing vals with
  | nil =>
    rw [markPrevious] at h
    cases h
    exact ⟨fun _ => rfl, fun hi => absurd hi (List.not_mem_nil i)⟩
  | cons j rest ih =>
    rw [markPrevious] at h
    cases hj : vals.get? j with
    | none => rw [hj] at h; cases h
    | some v =>
      rw [hj] at h
      simp only [] at h
      obtain ⟨ih1, ih2⟩ := ih _ h
      constructor
      · intro hi
        have hne : j ≠ i := fun e => hi (e ▸ List.mem_cons_self _ _)
        have hr : i ∉ rest := fun e => hi (List.mem_cons_of_mem _ e)
        rw [ih1 hr, get?_set_other _ _ _ _ hne]
      · intro hi
        by_cases hr : i ∈ rest
        · obtain ⟨v1, w, hv1, hw, hmin, hsrc⟩ := ih2 hr
          by_cases hij : j = i
          · subst hij
            rw [get?_set_self _ _ _ _ hj] at hv1
            cases hv1
            refine ⟨v, w, hj, hw, ?_, hsrc⟩
            rw [hmin, (markPreviousOne_min a pr sr v).1, recordMin_idem]
          · rw [get?_set_other _ _ _ _ hij] at hv1
            exact ⟨v1, w, hv1, hw, hmin, hsrc⟩
        · have hij : i = j := by
            rcases List.mem_cons.1 hi with e | e
            · exact e
            · exact absurd e hr
          subst hij
          refine ⟨v, _, hj, ?_, (markPreviousOne_min a pr sr v).1,
            (markPreviousOne_min a pr sr v).2⟩
          rw [ih1 hr, get?_set_self _ _ _ _ hj]

/-- One run of the loop over `indicies` of the current-epoch part that ends without a panic:
the validators at the other indices are as before, and no validator changes its recorded
previous-epoch attestation or its mark of previous-epoch source attester. -/
theorem markCurrent_get (a : PendingAttestation) (cr sr : Bytes) (idx : List Nat)
    (vals vals2 : List Validator) (h : markCurrent a cr sr idx vals = (vals2, none))
    (i : Nat) :
    (i ∉ idx → vals2.get? i = vals.get? i) ∧
    (vals2.get? i).map (fun v => (v.MinPreviousInclusionDelayAttestation,
        v.IsPreviousMatchingSourceAttester))
      = (vals.get? i).map (fun v => (v.MinPreviousInclusionDelayAttestation,
        v.IsPreviousMatchingSourceAttester)) := by
  induction idx generalizing vals with
  | nil =>
    rw [markCurrent] at h
    cases h
    exact ⟨fun _ => rfl, rfl⟩
  | cons j rest ih =>
    rw [markCurrent] at h
    cases hj : vals.get? j with
    | none => rw [hj] at h; cases h
    | some v =>
      rw [hj] at h
      simp only [] at h
      obtain ⟨ih1, ih2⟩ := ih _ h
      constructor
      · intro hi
        have hne : j ≠ i := fun e => hi (e ▸ List.mem_cons_self _ _)
        have hr : i ∉ rest := fun e => hi (List.mem_cons_of_mem _ e)
        rw [ih1 hr, get?_set_other _ _ _ _ hne]
      · rw [ih2]
        by_cases hij : j = i
        · subst hij
          rw [get?_set_self _ _ _ _ hj, hj]
          simp only [Option.map_some', (markCurrentOne_previous a cr sr v).1,
            (markCurrentOne_previous a cr sr v).2]
        · rw [get?_set_other _ _ _ _ hij]


theorem foldl_skip {α β : Type} (p : β → Bool) (f : α → β → α) (l : List β) (c : α)
    (h : ∀ a ∈ l, p a = false) : l.foldl (fun c a => if p a then f c a else c) c = c := by
  induction l generalizing c with
  | nil => rfl
  | cons a rest ih =>
    rw [List.foldl_cons]
    simp only [h a (List.mem_cons_self _ _), Bool.false_eq_true, if_false]
    exact ih c (fun x hx => h x (List.mem_cons_of_mem _ hx))

/-- The attestation that a run of `recordMin` over the attestations selected by `p` records,
starting with none recorded: the earliest one of minimal inclusion delay. -/
theorem recordMin_foldl (p : PendingAttestation → Bool) (atts : List PendingAttestation)
    (h : ∃ a ∈ atts, p a = true) :
    ∃ pre m post, atts = pre ++ m :: post ∧ p m = true ∧
      atts.foldl (fun c a => if p a then recordMin c a else c) none = some m ∧
      (∀ a ∈ pre, p a = true → m.InclusionDelay < a.InclusionDelay) ∧
      (∀ a ∈ post, p a = true → m.InclusionDelay ≤ a.InclusionDelay) := by
  induction atts using List.reverseRecOn with
  | nil =>
    obtain ⟨a, ha, _⟩ := h
    exact absurd ha (List.not_mem_nil a)
  | append_singleton l x ih =>
    rw [List.foldl_append, List.foldl_cons, List.foldl_nil]
    by_cases hl : ∃ a ∈ l, p a = true
    · obtain ⟨pre, m, post, hsplit, hpm, hfold, hpre, hpost⟩ := ih hl
      rw [hfold]
      by_cases hx : p x = true
      · simp only [hx, if_true]
        by_cases hlt : m.InclusionDelay > x.InclusionDelay
        · refine ⟨l, x, [], rfl, hx, ?_, ?_, fun a ha => absurd ha (List.not_mem_nil a)⟩
          · simp [recordMin, hlt]
          · intro a ha hpa
            rw [hsplit] at ha
            rcases List.mem_append.1 ha with e | e
            · have := hpre a e hpa
              omega
            · rcases List.mem_cons.1 e with e2 | e2
              · subst e2
                exact hlt
              · have := hpost a e2 hpa
                omega
        · refine ⟨pre, m, post ++ [x], ?_, hpm, ?_, hpre, ?_⟩
          · rw [hsplit, List.append_assoc, List.cons_append]
          · simp [recordMin, hlt]
          · intro a ha hpa
            rcases List.mem_append.1 ha with e | e
            · exact hpost a e hpa
            · rw [List.mem_singleton] at e
              subst e
              omega
      · have hx2 : p x = false := by simpa using hx
        simp only [hx2, Bool.false_eq_true, if_false]
        refine ⟨pre, m, post ++ [x], ?_, hpm, rfl, hpre, ?_⟩
        · rw [hsplit, List.append_assoc, List.cons_append]
        · intro a ha hpa
          rcases List.mem_append.1 ha with e | e
          · exact hpost a e hpa
          · rw [List.mem_singleton] at e
            subst e
            rw [hx2] at hpa
            cases hpa
    · have hnone : ∀ a ∈ l, p a = false := by
        intro a ha
        by_contra hc
        exact hl ⟨a, ha, by simpa using hc⟩
      have hx : p x = true := by
        obtain ⟨a, ha, hpa⟩ := h
        rcases List.mem_append.1 ha with e | e
        · rw [hnone a e] at hpa
          cases hpa
        · rw [List.mem_singleton] at e
          subst e
          exact hpa
      rw [foldl_skip p recordMin l none hnone]
      refine ⟨l, x, [], rfl, hx, ?_, ?_, fun a ha => absurd ha (List.not_mem_nil a)⟩
      · simp [recordMin, hx]
      · intro a ha hpa
        rw [hnone a ha] at hpa
        cases hpa

/-- A run of the loop over the previous-epoch attestations that ends without an error, seen
from one index: the validator there is as before when no attestation has the index, and
otherwise it is marked as source attester and its recorded attestation is the one that
`recordMin` yields over the attestations with the index. The attesting indices are taken
not to depend on the marks of the validators. -/
theorem previousLoop_get (E : Env) (b0 : BeaconState) (pr : Bytes)
    (hstable : ∀ vals d bits, vals.map Validator.core = b0.validators.map Validator.core →
      E.GetAttestingIndicies { b0 with validators := vals } d bits false
        = E.GetAttestingIndicies b0 d bits false)
    (atts : List PendingAttestation) (vals : List Validator) (r : BeaconState)
    (hc : vals.map Validator.core = b0.validators.map Validator.core)
    (h : previousLoop E pr atts { b0 with validators := vals } = (r, none)) (i : Nat) :
    ∃ vals2, r = { b0 with validators := vals2 } ∧
      vals2.map Validator.core = b0.validators.map Validator.core ∧
      ((∀ a ∈ atts, attestedBy E b0 a i = false) → vals2.get? i = vals.get? i) ∧
      ((∃ a ∈ atts, attestedBy E b0 a i = true) →
        ∃ v w, vals.get? i = some v ∧ vals2.get? i = some w ∧
          w.MinPreviousInclusionDelayAttestation
            = atts.foldl (fun c a => if attestedBy E b0 a i then recordMin c a else c)
                v.MinPreviousInclusionDelayAttestation ∧
          w.IsPreviousMatchingSourceAttester = true) := by
  induction atts generalizing vals with
  | nil =>
    rw [previousLoop] at h
    cases h
    exact ⟨vals, rfl, hc, fun _ => rfl, fun ⟨a, ha, _⟩ => absurd ha (List.not_mem_nil a)⟩
  | cons a rest ih =>
    rw [previousLoop] at h
    cases hbr : E.GetBlockRootAtSlot { b0 with validators := vals } a.Data.Slot with
    | error e => rw [hbr] at h; cases h
    | ok slotRoot =>
      rw [hbr] at h
      simp only [] at h
      rw [hstable vals a.Data a.AggregationBits hc] at h
      cases hai : E.GetAttestingIndicies b0 a.Data a.AggregationBits false with
      | error e => rw [hai] at h; cases h
      | ok indicies =>
        rw [hai] at h
        simp only [] at h
        cases hm : markPrevious a pr slotRoot indicies vals with
        | mk vals1 e1 =>
          rw [hm] at h
          cases e1 with
          | some e => cases h
          | none =>
            simp only [] at h
            have hc1 : vals1.map Validator.core = b0.validators.map Validator.core := by
              have := markPrevious_core a pr slotRoot indicies vals
              rw [hm] at this
              exact this.trans hc
            obtain ⟨vals2, hr, hc2, hun, hat⟩ := ih vals1 hc1 h
            have hattest : attestedBy E b0 a i = indicies.contains i := by
              unfold attestedBy
              rw [hai]
            obtain ⟨g1, g2⟩ := markPrevious_get a pr slotRoot indicies vals vals1 hm i
            refine ⟨vals2, hr, hc2, ?_, ?_⟩
            · intro hall
              have ha : attestedBy E b0 a i = false := hall a (List.mem_cons_self _ _)
              have hni : i ∉ indicies := by
                rw [hattest] at ha
                simpa using ha
              rw [hun (fun x hx => hall x (List.mem_cons_of_mem _ hx)), g1 hni]
            · intro hex
              simp only [List.foldl_cons]
              by_cases ha : attestedBy E b0 a i = true
              · have hi : i ∈ indicies := by
                  rw [hattest] at ha
                  simpa using ha
                obtain ⟨v, w1, hv, hw1, hmin1, hsrc1⟩ := g2 hi
                by_cases hrest : ∃ x ∈ rest, attestedBy E b0 x i = true
                · obtain ⟨v1, w, hv1, hw, hmin, hsrc⟩ := hat hrest
                  rw [hw1] at hv1
                  cases hv1
                  refine ⟨v, w, hv, hw, ?_, hsrc⟩
                  rw [hmin, hmin1]
                  simp only [ha, if_true]
                · have hnone : ∀ x ∈ rest, attestedBy E b0 x i = false := by
                    intro x hx
                    by_contra hcon
                    exact hrest ⟨x, hx, by simpa using hcon⟩
                  refine ⟨v, w1, hv, ?_, ?_, hsrc1⟩
                  · rw [hun hnone, hw1]
                  · rw [foldl_skip (fun x => attestedBy E b0 x i) recordMin rest _ hnone]
                    simp only [ha, if_true]
                    exact hmin1
              · have ha2 : attestedBy E b0 a i = false := by simpa using ha
                have hni : i ∉ indicies := by
                  rw [hattest] at ha2
                  simpa using ha2
                obtain ⟨x, hx, hxa⟩ := hex
                have hxr : x ∈ rest := by
                  rcases List.mem_cons.1 hx with e | e
                  · subst e
                    rw [ha2] at hxa
                    cases hxa
                  · exact e
                obtain ⟨v1, w, hv1, hw, hmin, hsrc⟩ := hat ⟨x, hxr, hxa⟩
                rw [g1 hni] at hv1
                refine ⟨v1, w, hv1, hw, ?_, hsrc⟩
                simp only [ha2, Bool.false_eq_true, if_false]
                exact hmin


/-- A run of the loop over the current-epoch attestations that ends without an error, seen
from one index: the validator there is as before when no attestation has the index, and in
any case it keeps its recorded previous-epoch attestation and its mark of previous-epoch
source attester. -/
theorem currentLoop_get (E : Env) (b0 : BeaconState) (cr : Bytes)
    (hstable : ∀ vals d bits, vals.map Validator.core = b0.validators.map Validator.core →
      E.GetAttestingIndicies { b0 with validators := vals } d bits false
        = E.GetAttestingIndicies b0 d bits false)
    (atts : List PendingAttestation) (vals : List Validator) (r : BeaconState)
    (hc : vals.map Validator.core = b0.validators.map Validator.core)
    (h : currentLoop E cr atts { b0 with validators := vals } = (r, none)) (i : Nat) :
    ∃ vals2, r = { b0 with validators := vals2 } ∧
      ((∀ a ∈ atts, attestedBy E b0 a i = false) → vals2.get? i = vals.get? i) ∧
      (vals2.get? i).map (fun v => (v.MinPreviousInclusionDelayAttestation,
          v.IsPreviousMatchingSourceAttester))
        = (vals.get? i).map (fun v => (v.MinPreviousInclusionDelayAttestation,
          v.IsPreviousMatchingSourceAttester)) := by
  induction atts generalizing vals with
  | nil =>
    rw [currentLoop] at h
    cases h
    exact ⟨vals, rfl, fun _ => rfl, rfl⟩
  | cons a rest ih =>
    rw [currentLoop] at h
    cases hbr : E.GetBlockRootAtSlot { b0 with validators := vals } a.Data.Slot with
    | error e => rw [hbr] at h; cases h
    | ok slotRoot =>
      rw [hbr] at h
      simp only [] at h
      rw [hstable vals a.Data a.AggregationBits hc] at h
      cases hai : E.GetAttestingIndicies b0 a.Data a.AggregationBits false with
      | error e => rw [hai] at h; cases h
      | ok indicies =>
        rw [hai] at h
        simp only [] at h
        cases hm : markCurrent a cr slotRoot indicies vals with
        | mk vals1 e1 =>
          rw [hm] at h
          cases e1 with
          | some e => cases h
          | none =>
            simp only [] at h
            have hc1 : vals1.map Validator.core = b0.validators.map Validator.core := by
              have := markCurrent_core a cr slotRoot indicies vals
              rw [hm] at this
              exact this.trans hc
            obtain ⟨vals2, hr, hun, hview⟩ := ih vals1 hc1 h
            have hattest : attestedBy E b0 a i = indicies.contains i := by
              unfold attestedBy
              rw [hai]
            obtain ⟨g1, g2⟩ := markCurrent_get a cr slotRoot indicies vals vals1 hm i
            refine ⟨vals2, hr, ?_, hview.trans g2⟩
            intro hall
            have ha : attestedBy E b0 a i = false := hall a (List.mem_cons_self _ _)
            have hni : i ∉ indicies := by
              rw [hattest] at ha
              simpa using ha
            rw [hun (fun x hx => hall x (List.mem_cons_of_mem _ hx)), g1 hni]

/-- The current-epoch part of `_initializeValidatorsPhase0`, when it ends without an error,
seen from one index. -/
theorem initializeCurrent_get (E : Env) (b0 : BeaconState)
    (hstable : ∀ vals d bits, vals.map Validator.core = b0.validators.map Validator.core →
      E.GetAttestingIndicies { b0 with validators := vals } d bits false
        = E.GetAttestingIndicies b0 d bits false)
    (vals : List Validator) (r : BeaconState)
    (hc : vals.map Validator.core = b0.validators.map Validator.core)
    (h : BeaconState.initializeCurrent E { b0 with validators := vals } = (r, none))
    (i : Nat) :
    ∃ vals2, r = { b0 with validators := vals2 } ∧
      ((∀ a ∈ b0.currentEpochAttestations, attestedBy E b0 a i = false) →
        vals2.get? i = vals.get? i) ∧
      (vals2.get? i).map (fun v => (v.MinPreviousInclusionDelayAttestation,
          v.IsPreviousMatchingSourceAttester))
        = (vals.get? i).map (fun v => (v.MinPreviousInclusionDelayAttestation,
          v.IsPreviousMatchingSourceAttester)) := by
  unfold BeaconState.initializeCurrent at h
  split at h
  · cases h
    exact ⟨vals, rfl, fun _ => rfl, rfl⟩
  · split at h
    · cases h
    · split at h
      · cases h
      · exact currentLoop_get E b0 _ hstable _ vals r hc h i

/-- C25: after `_initializeValidatorsPhase0` succeeds on a state with `slot != 0` whose
validators have no recorded previous-epoch attestation, every index `i` that is an attesting
index of some previous-epoch pending attestation holds a validator marked as previous-epoch
source attester whose recorded attestation `m` is a previous-epoch pending attestation with
the index `i`: every attestation with `i` before `m` in the list has a larger inclusion
delay and every one after `m` has one at least as large. A validator at an index of no
pending attestation, previous or current, is as before. The attesting indices are taken not
to depend on the marks of the validators. -/
theorem initializeValidatorsPhase0_records_min (E : Env) (b : BeaconState)
    (hslot : b.slot ≠ 0)
    (hfresh : ∀ v ∈ b.validators, v.MinPreviousInclusionDelayAttestation = none)
    (hstable : ∀ vals d bits, vals.map Validator.core = b.validators.map Validator.core →
      E.GetAttestingIndicies { b with validators := vals } d bits false
        = E.GetAttestingIndicies b d bits false)
    (hok : (b._initializeValidatorsPhase0 E).2 = none) :
    (∀ i, (∃ a ∈ b.previousEpochAttestations, attestedBy E b a i = true) →
      ∃ v pre m post,
        (b._initializeValidatorsPhase0 E).1.validators.get? i = some v ∧
        v.IsPreviousMatchingSourceAttester = true ∧
        v.MinPreviousInclusionDelayAttestation = some m ∧
        b.previousEpochAttestations = pre ++ m :: post ∧
        attestedBy E b m i = true ∧
        (∀ a ∈ pre, attestedBy E b a i = true → m.InclusionDelay < a.InclusionDelay) ∧
        (∀ a ∈ post, attestedBy E b a i = true → m.InclusionDelay ≤ a.InclusionDelay)) ∧
    (∀ i, (∀ a ∈ b.previousEpochAttestations, attestedBy E b a i = false) →
      (∀ a ∈ b.currentEpochAttestations, attestedBy E b a i = false) →
      (b._initializeValidatorsPhase0 E).1.validators.get? i = b.validators.get? i) := by
  obtain ⟨r, hres⟩ : ∃ r, b._initializeValidatorsPhase0 E = (r, none) :=
    ⟨_, Prod.ext rfl hok⟩
  rw [hres]
  unfold BeaconState._initializeValidatorsPhase0 at hres
  rw [if_neg hslot] at hres
  cases hpe : b.PreviousEpoch with
  | none => rw [hpe] at hres; cases hres
  | some previousEpoch =>
    rw [hpe] at hres
    simp only [] at hres
    cases hbr : b.GetBlockRoot E previousEpoch with
    | error e => rw [hbr] at hres; cases hres
    | ok previousEpochRoot =>
      rw [hbr] at hres
      simp only [andThen] at hres
      cases hpl : previousLoop E previousEpochRoot b.previousEpochAttestations b with
      | mk b1 e1 =>
        rw [hpl] at hres
        cases e1 with
        | some e => cases hres
        | none =>
          simp only [] at hres
          have hpl2 : previousLoop E previousEpochRoot b.previousEpochAttestations
              { b with validators := b.validators } = (b1, none) := hpl
          constructor
          · intro i hex
            obtain ⟨vals1, hb1, hc1, _, hat⟩ :=
              previousLoop_get E b previousEpochRoot hstable _ b.validators b1 rfl hpl2 i
            subst hb1
            obtain ⟨vals2, hr, _, hview⟩ :=
              initializeCurrent_get E b hstable vals1 r hc1 hres i
            subst hr
            obtain ⟨v, w, hv, hw, hmin, hsrc⟩ := hat hex
            have hvnone : v.MinPreviousInclusionDelayAttestation = none :=
              hfresh v (List.get?_mem hv)
            obtain ⟨pre, m, post, hsplit, hpm, hfold, hpre, hpost⟩ :=
              recordMin_foldl (fun a => attestedBy E b a i) b.previousEpochAttestations hex
            rw [hvnone, hfold] at hmin
            rw [hw] at hview
            cases hw2 : vals2.get? i with
            | none =>
              have hw3 : List.get? vals2 i = none := hw2
              rw [hw3] at hview
              cases hview
            | some w2 =>
              have hw3 : List.get? vals2 i = some w2 := hw2
              rw [hw3] at hview
              simp only [Option.map_some', Option.some.injEq, Prod.mk.injEq] at hview
              exact ⟨w2, pre, m, post, rfl, hview.2.trans hsrc, hview.1.trans hmin, hsplit,
                hpm, hpre, hpost⟩
          · intro i hp hcur
            obtain ⟨vals1, hb1, hc1, hun1, _⟩ :=
              previousLoop_get E b previousEpochRoot hstable _ b.validators b1 rfl hpl2 i
            subst hb1
            obtain ⟨vals2, hr, hun2, _⟩ :=
              initializeCurrent_get E b hstable vals1 r hc1 hres i
            subst hr
            exact (hun2 hcur).trans (hun1 hp)

theorem initializeValidatorsPhase0_records_min_witness :
    (∀ i, (∃ a ∈ BeaconState.attested.previousEpochAttestations,
        attestedBy Env.simple BeaconState.attested a i = true) →
      ∃ v pre m post,
        (BeaconState.attested._initializeValidatorsPhase0 Env.simple).1.validators.get? i
          = some v ∧
        v.IsPreviousMatchingSourceAttester = true ∧
        v.MinPreviousInclusionDelayAttestation = some m ∧
        BeaconState.attested.previousEpochAttestations = pre ++ m :: post ∧
        attestedBy Env.simple BeaconState.attested m i = true ∧
        (∀ a ∈ pre, attestedBy Env.simple BeaconState.attested a i = true →
          m.InclusionDelay < a.InclusionDelay) ∧
        (∀ a ∈ post, attestedBy Env.simple BeaconState.attested a i = true →
          m.InclusionDelay ≤ a.InclusionDelay)) ∧
    (∀ i, (∀ a ∈ BeaconState.attested.previousEpochAttestations,
        attestedBy Env.simple BeaconState.attested a i = false) →
      (∀ a ∈ BeaconState.attested.currentEpochAttestations,
        attestedBy Env.simple BeaconState.attested a i = false) →
      (BeaconState.attested._initializeValidatorsPhase0 Env.simple).1.validators.get? i
        = BeaconState.attested.validators.get? i) :=
  initializeValidatorsPhase0_records_min Env.simple BeaconState.attested (by decide)
    (by decide) (fun _ _ _ _ => rfl) (by decide)

end Erigon
